import Mathlib

/-!
# INI file parser: a shallow embedding of `main.cpp` and its properties

The program is one class, `ini_parser`.  Its constructor reads a text file line
by line (`parse_file`), classifies every line with three `std::regex` patterns
and fills a two-level hash table `data`; `get_value<T>` resolves a dotted path
`section.variable` in that table and converts the stored text to `T`.

Modelling choices.

* A `std::string` is a `List Char`.  Only ASCII characters are significant to
  the program (`isspace`, `isalnum`, and the literals of the patterns, in the
  default "C" locale); any other character behaves like an arbitrary byte
  sequence that is neither a space nor a word character.
* `std::regex_match` follows the ECMAScript pattern semantics, which is defined
  by backtracking matchers taking a continuation; `Regex.run` is that
  definition restricted to the constructs occurring in the three patterns.
* The `std::unordered_map` tables are association lists with unique keys, new
  keys appended at the end.  The order in which a hash table enumerates its
  elements is unspecified in C++; it is a parameter (`iteration`) of
  `get_value`.
* Exceptions are values of `Exception`; a throwing function returns `Except`.
* The file is an `Option`: `none` when it cannot be opened, else its contents.
  `parse_file` runs the loop `parse_lines` on the lines `getlines` cuts the
  contents into; the properties of loading are stated on `parse_lines`, for
  every list of lines.  The lines of a text are the lists of lines without
  `\n` (`getlines_no_newline`, `getlines_unlines`).
-/

namespace IniParser

/-- A `std::string`. -/
abbrev Str := List Char

/-! ## Character classes (`<cctype>` in the "C" locale) -/

/-- The `std::isspace` test: space, `\t`, `\n`, `\v`, `\f`, `\r`. -/
def isspace (c : Char) : Bool :=
  c == ' ' || c == '\t' || c == '\n' || c == '\x0b' || c == '\x0c' || c == '\r'

/-- The `std::isdigit` test. -/
def isdigit (c : Char) : Bool :=
  48 ≤ c.toNat && c.toNat ≤ 57

/-- The `std::isalnum` test. -/
def isalnum (c : Char) : Bool :=
  isdigit c || (65 ≤ c.toNat && c.toNat ≤ 90) || (97 ≤ c.toNat && c.toNat ≤ 122)

/-! ## Regular expressions -/

/-- A pattern element matching exactly one character. -/
inductive Atom where
  /-- The class `\s`. -/
  | space
  /-- The class `\w`: alphanumeric or underscore. -/
  | word
  /-- The wildcard `.`: any character except the line terminators. -/
  | dot
  /-- A literal character. -/
  | chr (c : Char)
  deriving DecidableEq, Repr

/-- Whether a one-character pattern element accepts a character. -/
def Atom.test : Atom → Char → Bool
  | .space, c => isspace c
  | .word, c => isalnum c || c == '_'
  | .dot, c => !(c == '\n' || c == '\r')
  | .chr d, c => c == d

/-- The fragment of the ECMAScript pattern language used by the program. -/
inductive Regex where
  /-- One character. -/
  | atom (a : Atom)
  /-- Greedy repetition `a*` of a one-character element. -/
  | star (a : Atom)
  /-- Non-greedy repetition `a*?`. -/
  | starLazy (a : Atom)
  /-- Greedy repetition `a+`. -/
  | plus (a : Atom)
  /-- Concatenation. -/
  | seq (r s : Regex)
  /-- Capturing group number `i`. -/
  | group (i : Nat) (r : Regex)
  /-- Optional non-capturing group `(?:r)?`, greedy. -/
  | opt (r : Regex)
  /-- The assertion `$`: end of input. -/
  | eol
  deriving DecidableEq, Repr

/-- The sub-matches recorded so far: group number and captured text, most
recent first. -/
abbrev Captures := List (Nat × Str)

/-- A continuation: what remains to be matched after the current element. -/
abbrev Cont := Str → Captures → Option Captures

/-- Greedy `a*`: take one more character when possible and come back to the
shorter repetition only if the continuation fails. -/
def repeat_greedy (a : Atom) (k : Cont) : Str → Captures → Option Captures
  | [], c => k [] c
  | x :: t, c =>
    if a.test x then
      match repeat_greedy a k t c with
      | some r => some r
      | none => k (x :: t) c
    else k (x :: t) c

/-- Non-greedy `a*?`: try the continuation first and take one more character
only if it fails. -/
def repeat_lazy (a : Atom) (k : Cont) : Str → Captures → Option Captures
  | [], c => k [] c
  | x :: t, c =>
    match k (x :: t) c with
    | some r => some r
    | none => if a.test x then repeat_lazy a k t c else none

/-- The backtracking matcher of a pattern: `r.run k s c` matches `r` at the
front of `s` and hands the rest of the input to `k`; alternatives are tried
in priority order and the first overall success is the result. -/
def Regex.run : Regex → Cont → Cont
  | .atom a, k => fun s c =>
    match s with
    | x :: t => if a.test x then k t c else none
    | [] => none
  | .star a, k => repeat_greedy a k
  | .starLazy a, k => repeat_lazy a k
  | .plus a, k => fun s c =>
    match s with
    | x :: t => if a.test x then repeat_greedy a k t c else none
    | [] => none
  | .seq r s, k => r.run (s.run k)
  | .group i r, k => fun s c =>
    r.run (fun s1 c1 => k s1 ((i, s.take (s.length - s1.length)) :: c1)) s c
  | .opt r, k => fun s c =>
    match r.run k s c with
    | some res => some res
    | none => k s c
  | .eol, k => fun s c =>
    match s with
    | [] => k [] c
    | _ :: _ => none

/-- The continuation that ends a match of the whole input: it succeeds only
when nothing is left. -/
def at_end : Cont := fun s c => if s.isEmpty then some c else none

/-- The call `std::regex_match(line, match, r)`: the pattern has to match the
whole of `line`; the result is the `match` object of a success. -/
def regex_match (line : Str) (r : Regex) : Option Captures :=
  r.run at_end line []

/-- The sub-match `match[i]`, empty if group `i` did not take part. -/
def sub_match (m : Captures) (i : Nat) : Str :=
  match m.lookup i with
  | some v => v
  | none => []

/-- The pattern `\s*\[(\w+)\]\s*`. -/
def section_regex : Regex :=
  .seq (.star .space) (.seq (.atom (.chr '[')) (.seq (.group 1 (.plus .word))
    (.seq (.atom (.chr ']')) (.star .space))))

/-- The pattern `\s*(\w+)\s*=\s*(.*?)(?:\s*;.*)?\s*$`. -/
def variable_regex : Regex :=
  .seq (.star .space) (.seq (.group 1 (.plus .word)) (.seq (.star .space)
    (.seq (.atom (.chr '=')) (.seq (.star .space) (.seq (.group 2 (.starLazy .dot))
      (.seq (.opt (.seq (.star .space) (.seq (.atom (.chr ';')) (.star .dot))))
        (.seq (.star .space) .eol)))))))

/-- The pattern `\s*;.*`. -/
def comment_regex : Regex :=
  .seq (.star .space) (.seq (.atom (.chr ';')) (.star .dot))

/-! ## Exceptions and the hash tables -/

/-- The two exception classes thrown by the program, with their message. -/
inductive Exception where
  /-- A `std::runtime_error`. -/
  | runtime_error (what : Str)
  /-- A `std::invalid_argument`. -/
  | invalid_argument (what : Str)
  deriving DecidableEq, Repr

deriving instance DecidableEq for Except

/-- The function `std::to_string` on a `size_t`. -/
def to_string (n : Nat) : Str := (Nat.repr n).toList

/-- A `std::unordered_map<std::string, V>`: the keys are pairwise distinct and
listed in the order of their first insertion. -/
abbrev UMap (V : Type) := List (Str × V)

/-- The member `find`: the mapped value, or `none` for `end()`. -/
def UMap.find {V : Type} : UMap V → Str → Option V
  | [], _ => none
  | (k1, v) :: rest, k => if k1 = k then some v else UMap.find rest k

/-- The table after evaluating `m[k]`: a missing key is inserted with a
value-initialised mapped value. -/
def UMap.index {V : Type} [Inhabited V] (m : UMap V) (k : Str) : UMap V :=
  match m.find k with
  | some _ => m
  | none => m ++ [(k, default)]

/-- The table after a write through the reference that `m[k]` returns, for a
key that is present: the mapped value `v` becomes `f v`. -/
def UMap.modify {V : Type} : UMap V → Str → (V → V) → UMap V
  | [], _, _ => []
  | (k1, v) :: rest, k, f =>
    if k1 = k then (k1, f v) :: rest else (k1, v) :: UMap.modify rest k f

/-- The keys of a table, in the order of their first insertion. -/
def UMap.keys {V : Type} (m : UMap V) : List Str := m.map Prod.fst

/-- The member `data`: section name to (name of a variable to raw value). -/
abbrev Data := UMap (UMap Str)

/-! ## Loading: `parse_file` -/

/-- The local variables of `parse_file` that live across the iterations of
its loop, together with the member `data`. -/
structure Loop where
  /-- The name of the last section header read, empty before the first. -/
  current_section : Str
  /-- The number of lines read so far. -/
  line_number : Nat
  /-- The table being filled. -/
  data : Data
  deriving DecidableEq, Repr

/-- One iteration of the `while` loop of `parse_file`, on the line just read. -/
def parse_line (st : Loop) (line : Str) : Except Exception Loop :=
  let line_number := st.line_number + 1
  if (regex_match line comment_regex).isSome || line.isEmpty then
    .ok { st with line_number := line_number }
  else
    match regex_match line section_regex with
    | some m =>
      let current_section := sub_match m 1
      .ok { current_section := current_section, line_number := line_number,
            data := st.data.index current_section }
    | none =>
      match regex_match line variable_regex with
      | some m =>
        if st.current_section.isEmpty then
          .error (.runtime_error
            ("Variable outside of a section at line ".toList ++ to_string line_number))
        else
          let var := sub_match m 1
          let value := sub_match m 2
          .ok { st with
                line_number := line_number
                data := (st.data.index st.current_section).modify st.current_section
                  (fun vars => (vars.index var).modify var (fun _ => value)) }
      | none =>
        .error (.runtime_error ("Syntax error at line ".toList ++ to_string line_number))

/-- The `while (std::getline(file, line))` loop over the lines of the file. -/
def parse_loop (st : Loop) : List Str → Except Exception Loop
  | [] => .ok st
  | line :: rest =>
    match parse_line st line with
    | .ok st1 => parse_loop st1 rest
    | .error e => .error e

/-- The lines that successive calls of `std::getline` extract from a text: the
text is cut at every `\n`, which is dropped; what follows the last `\n` is a
line only if it is not empty. -/
def getlines : Str → List Str
  | [] => []
  | c :: rest =>
    if c = '\n' then [] :: getlines rest
    else
      match getlines rest with
      | [] => [[c]]
      | l :: ls => (c :: l) :: ls

/-- The state in which the loop of `parse_file` is entered. -/
def Loop.init : Loop := { current_section := [], line_number := 0, data := [] }

/-- The body of `parse_file` once the file is open, on the lines of the file:
the table it leaves in `data`, or the exception it throws. -/
def parse_lines (lines : List Str) : Except Exception Data :=
  match parse_loop Loop.init lines with
  | .ok st => .ok st.data
  | .error e => .error e

/-- The constructor `ini_parser(filename)`, that is `parse_file`: `file` is the
contents of the file called `filename`, `none` if it cannot be opened.  The
contents being given, no read error occurs and `file.bad()` is false. -/
def parse_file (filename : Str) (file : Option Str) : Except Exception Data :=
  match file with
  | none => .error (.runtime_error ("Failed to open file: ".toList ++ filename))
  | some text => parse_lines (getlines text)

/-! ## Retrieval: `get_value` -/

/-- The extraction `iss >> result` for `T`: the value read, `none` when the
stream is left in a failed state. -/
class Extract (T : Type) where
  /-- The value read from the front of the text. -/
  extract : Str → Option T

/-- The value of a sequence of decimal digits. -/
def digits_value (ds : Str) : Nat :=
  ds.foldl (fun acc d => acc * 10 + (d.toNat - 48)) 0

/-- The extraction `iss >> result` for `int`: leading white space is skipped,
then an optional sign and the longest run of decimal digits are read; it fails
when there is no digit or the number does not fit a 32-bit `int`.  What
follows the digits stays in the stream. -/
def extract_int (value : Str) : Option Int :=
  let s := value.dropWhile isspace
  let signed : Bool × Str :=
    match s with
    | '-' :: t => (true, t)
    | '+' :: t => (false, t)
    | _ => (false, s)
  let ds := signed.2.takeWhile isdigit
  if ds.isEmpty then none
  else
    let v : Int := if signed.1 then - (digits_value ds : Int) else (digits_value ds : Int)
    if -2147483648 ≤ v ∧ v ≤ 2147483647 then some v else none

instance : Extract Int := ⟨extract_int⟩

/-- The primary template `convert_value<T>`. -/
def convert_value_primary {T : Type} [Extract T] (value : Str) : Except Exception T :=
  match (Extract.extract value : Option T) with
  | some result => .ok result
  | none => .error (.invalid_argument ("Failed to convert value: ".toList ++ value))

/-- The function `convert_value<T>` that a call resolves to. -/
class ConvertValue (T : Type) where
  /-- The conversion of a raw value to `T`. -/
  convert_value : Str → Except Exception T

/-- For `int` the primary template is instantiated. -/
instance : ConvertValue Int := ⟨convert_value_primary⟩

/-- The explicit specialisation `convert_value<std::string>`. -/
instance : ConvertValue Str := ⟨fun value => .ok value⟩

/-- The static member `join`. -/
def join : List Str → Str → Str
  | [], _ => []
  | [e], _ => e
  | e :: e1 :: rest, delimiter => e ++ delimiter ++ join (e1 :: rest) delimiter

/-- The call `key.find('.')`: the index of the first `.`, `none` for `npos`. -/
def find_dot : Str → Option Nat
  | [] => none
  | c :: rest => if c = '.' then some 0 else (find_dot rest).map (· + 1)

/-- The member `get_value<T>`.  The parameter `iteration` is the order in which
the range-based `for` enumerates a table, given its keys in the order of their
first insertion. -/
def get_value {T : Type} [ConvertValue T] (iteration : List Str → List Str)
    (data : Data) (key : Str) : Except Exception T :=
  match find_dot key with
  | none => .error (.invalid_argument "Key must be in 'section.variable' format.".toList)
  | some pos =>
    let sect := key.take pos
    let var := key.drop (pos + 1)
    match data.find sect with
    | none => .error (.invalid_argument ("Section '".toList ++ sect ++ "' not found.".toList))
    | some vars =>
      match vars.find var with
      | none =>
        let suggestions := iteration vars.keys
        .error (.invalid_argument ("Variable '".toList ++ var
          ++ "' not found in section '".toList ++ sect
          ++ "'. Did you mean one of: ".toList ++ join suggestions ", ".toList))
      | some value => ConvertValue.convert_value value

/-! ## Vocabulary of the specification

The definitions below are not code of the program: they name the notions in
which its properties are stated. -/

/-- The line is skipped by the first test of the loop: it matches the comment
pattern or it is empty. -/
def is_skip (line : Str) : Bool :=
  (regex_match line comment_regex).isSome || line.isEmpty

/-- What the loop of `parse_file` takes a line for. -/
inductive Shape where
  /-- A comment or an empty line. -/
  | skip
  /-- A section header, with the name between the brackets. -/
  | header (name : Str)
  /-- An assignment, with its key and its value. -/
  | assignment (key value : Str)
  /-- None of the three. -/
  | other
  deriving DecidableEq, Repr

/-- The shape of a line, by the tests of the loop in their order. -/
def shape (line : Str) : Shape :=
  if is_skip line then .skip
  else
    match regex_match line section_regex with
    | some m => .header (sub_match m 1)
    | none =>
      match regex_match line variable_regex with
      | some m => .assignment (sub_match m 1) (sub_match m 2)
      | none => .other

/-- The name of the section in force after some lines, `cur` being the one in
force before them: the name of the last header among them. -/
def section_in_force (cur : Str) : List Str → Str
  | [] => cur
  | line :: rest =>
    match shape line with
    | .header name => section_in_force name rest
    | _ => section_in_force cur rest

/-- The names of the section headers among some lines, in line order. -/
def headers : List Str → List Str
  | [] => []
  | line :: rest =>
    match shape line with
    | .header name => name :: headers rest
    | _ => headers rest

/-- The assignments among some lines, in line order, each as the triple of the
section in force at its line, its key and its value; `cur` is the section in
force before the first line. -/
def assignments (cur : Str) : List Str → List (Str × Str × Str)
  | [] => []
  | line :: rest =>
    match shape line with
    | .header name => assignments name rest
    | .assignment key value => (cur, key, value) :: assignments cur rest
    | _ => assignments cur rest

/-- The value of the last assignment to key `k` in section `s` among a list
of assignments, `none` if there is none. -/
def last_assigned (l : List (Str × Str × Str)) (s k : Str) : Option Str :=
  (l.reverse.find? (fun a => a.1 = s ∧ a.2.1 = k)).map (fun a => a.2.2)

/-- The value stored for key `k` of section `s` in a table. -/
def stored (data : Data) (s k : Str) : Option Str :=
  match data.find s with
  | some vars => vars.find k
  | none => none

/-- An identifier: a non-empty string of letters, digits and underscores. -/
def is_identifier (s : Str) : Bool :=
  !s.isEmpty && s.all (Atom.test .word)

/-- A string with its leading and trailing white space removed. -/
def trim (s : Str) : Str :=
  (s.dropWhile isspace).rdropWhile isspace

/-- The text that follows the first occurrence of a character. -/
def after_first (c : Char) (s : Str) : Str :=
  (s.dropWhile (fun x => x != c)).drop 1

/-- The text that precedes the first occurrence of a character, the whole
text if the character does not occur. -/
def before_first (c : Char) (s : Str) : Str :=
  s.takeWhile (fun x => x != c)

/-- The line has the form of a comment: white space, a `;`, and then no line
terminator. -/
def comment_form (line : Str) : Bool :=
  match line.dropWhile isspace with
  | x :: t => x == ';' && t.all (Atom.test .dot)
  | [] => false

/-- The name between the brackets if the line has the form of a section
header: white space, `[`, an identifier, `]`, white space. -/
def section_name (line : Str) : Option Str :=
  match line.dropWhile isspace with
  | x :: t =>
    if x == '[' then
      match t.dropWhile (Atom.test .word) with
      | y :: w =>
        if y == ']' && !(t.takeWhile (Atom.test .word)).isEmpty && w.all isspace then
          some (t.takeWhile (Atom.test .word))
        else none
      | [] => none
    else none
  | [] => none

/-- What may follow the value of an assignment: white space and the end of
the line, or white space, a `;`, a text without line terminator and white
space up to the end of the line. -/
def tail_ok (s : Str) : Bool :=
  match s.dropWhile isspace with
  | [] => true
  | x :: t => x == ';' && (t.dropWhile (Atom.test .dot)).all isspace

/-- The matcher of `(.*?)(?:\s*;.*)?\s*$` on the rest `s` of a line. -/
def value_match (s : Str) (c : Captures) : Option Captures :=
  repeat_lazy .dot
    (fun s1 c1 => if tail_ok s1 then some ((2, s.take (s.length - s1.length)) :: c1) else none) s c

/-- The result of matching the assignment pattern, by the form of the line:
white space, an identifier, white space, `=`, white space, and a rest for
`value_match`. -/
def variable_form (line : Str) : Option Captures :=
  let d := line.dropWhile isspace
  let key := d.takeWhile (Atom.test .word)
  if key.isEmpty then none
  else
    match (d.dropWhile (Atom.test .word)).dropWhile isspace with
    | y :: rest =>
      if y == '=' then value_match (rest.dropWhile isspace) [(1, key)] else none
    | [] => none

/-- The table after an assignment `k = v` read in section `cur`. -/
def assign (data : Data) (cur k v : Str) : Data :=
  (data.index cur).modify cur (fun vars => (vars.index k).modify k (fun _ => v))

/-- The keys of a table and of every table mapped in it are pairwise
distinct. -/
def well_keyed (data : Data) : Prop :=
  data.keys.Nodup ∧ ∀ s vars, data.find s = some vars → vars.keys.Nodup

/-- What is left of the outcome of the loop when the line counter and the
text of an exception are put aside: the table, if any. -/
def outcome (r : Except Exception Loop) : Option (Str × Data) :=
  match r with
  | .ok st => some (st.current_section, st.data)
  | .error _ => none

/-- The three tests of the loop of `parse_file`. -/
inductive Pattern where
  /-- The test `regex_match(line, match, comment_regex) || line.empty()`. -/
  | comment
  /-- The test `regex_match(line, match, section_regex)`. -/
  | header
  /-- The test `regex_match(line, match, variable_regex)`. -/
  | assignment
  deriving DecidableEq, Repr

/-- The shape a test of the loop gives a line, `none` if the test fails. -/
def try_pattern (line : Str) : Pattern → Option Shape
  | .comment =>
    if (regex_match line comment_regex).isSome || line.isEmpty then some .skip else none
  | .header =>
    match regex_match line section_regex with
    | some m => some (.header (sub_match m 1))
    | none => none
  | .assignment =>
    match regex_match line variable_regex with
    | some m => some (.assignment (sub_match m 1) (sub_match m 2))
    | none => none

/-- The shape of a line when the tests are made in the order `order`: that of
the first test that holds. -/
def shape_by (order : List Pattern) (line : Str) : Shape :=
  match order.findSome? (try_pattern line) with
  | some s => s
  | none => .other

/-- What an iteration of the loop does with a line of a given shape. -/
def apply_shape (st : Loop) : Shape → Except Exception Loop
  | .skip => .ok { st with line_number := st.line_number + 1 }
  | .header n =>
    .ok { current_section := n, line_number := st.line_number + 1, data := st.data.index n }
  | .assignment k v =>
    if st.current_section.isEmpty then
      .error (.runtime_error
        ("Variable outside of a section at line ".toList ++ to_string (st.line_number + 1)))
    else
      .ok { st with
            line_number := st.line_number + 1
            data := assign st.data st.current_section k v }
  | .other =>
    .error (.runtime_error ("Syntax error at line ".toList ++ to_string (st.line_number + 1)))

/-- The loop of `parse_file` with its three tests made in the order `order`. -/
def parse_loop_by (order : List Pattern) (st : Loop) : List Str → Except Exception Loop
  | [] => .ok st
  | line :: rest =>
    match apply_shape st (shape_by order line) with
    | .ok st1 => parse_loop_by order st1 rest
    | .error e => .error e

/-- Loading with the three tests made in the order `order`. -/
def parse_lines_by (order : List Pattern) (lines : List Str) : Except Exception Data :=
  match parse_loop_by order Loop.init lines with
  | .ok st => .ok st.data
  | .error e => .error e

/-- The decimal literal of an integer: its digits as `std::to_string` writes
them, after a `-` when it is negative. -/
def decimal_literal (n : Int) : Str :=
  if n < 0 then '-' :: to_string n.natAbs else to_string n.natAbs

/-- A raw value after its leading white space and an optional sign. -/
def after_sign (value : Str) : Str :=
  match value.dropWhile isspace with
  | '-' :: t => t
  | '+' :: t => t
  | s => s

/-- The text of the demonstration file. -/
def example_text : Str :=
  "[Section1]\nvar1 = 10\n[Section2]\nvar2 = hello ; a greeting\n".toList

/-! ## Properties of the accessor -/

theorem find_dot_eq_none {key : Str} (h : '.' ∉ key) : find_dot key = none := by
  induction key with
  | nil => rfl
  | cons c rest ih =>
    have hc : c ≠ '.' := fun e => h (by simp [e])
    have hr : '.' ∉ rest := fun e => h (by simp [e])
    simp [find_dot, hc, ih hr]

/-- Claim C2: loading the four lines `[Section1]`, `var1 = 10`, `[Section2]`,
`var2 = hello ; a greeting` succeeds, and on the table obtained
`get_value<int>("Section1.var1")` is 10 and
`get_value<std::string>("Section2.var2")` is `hello`, whatever the
enumeration order of the hash tables. -/
theorem end_to_end_example :
    getlines example_text = ["[Section1]".toList, "var1 = 10".toList, "[Section2]".toList,
        "var2 = hello ; a greeting".toList] ∧
    ∃ data, parse_file "config.ini".toList (some example_text) = .ok data ∧
      ∀ iteration : List Str → List Str,
        (get_value iteration data "Section1.var1".toList : Except Exception Int) = .ok 10 ∧
        (get_value iteration data "Section2.var2".toList : Except Exception Str)
          = .ok "hello".toList := by
  refine ⟨by decide, _, rfl, fun iteration => ⟨rfl, rfl⟩⟩

/-- Claim C10: for every table, every target type and every path without a `.`
(the empty path included), `get_value` throws the `invalid_argument` whose
message is `Key must be in 'section.variable' format.`; the result does not
depend on the table nor on the enumeration order. -/
theorem get_value_invalid_path {T : Type} [ConvertValue T] (iteration : List Str → List Str)
    (data : Data) (key : Str) (h : '.' ∉ key) :
    (get_value iteration data key : Except Exception T)
      = .error (.invalid_argument "Key must be in 'section.variable' format.".toList) := by
  simp [get_value, find_dot_eq_none h]

theorem get_value_invalid_path_witness :
    '.' ∉ "Section1var1".toList ∧
    (get_value id [("Section1var1".toList, [])] "Section1var1".toList : Except Exception Int)
      = .error (.invalid_argument "Key must be in 'section.variable' format.".toList) :=
  ⟨by decide, get_value_invalid_path id _ _ (by decide)⟩

/-! ## The matcher on repetitions -/

/-- A greedy repetition followed by something that cannot start with a
character of the repeated class takes the longest run. -/
theorem repeat_greedy_det (a : Atom) (k : Cont)
    (hk : ∀ x t c, a.test x = true → k (x :: t) c = none) (s : Str) (c : Captures) :
    repeat_greedy a k s c = k (s.dropWhile a.test) c := by
  induction s with
  | nil => rfl
  | cons x t ih =>
    by_cases hx : a.test x = true
    · simp only [repeat_greedy, hx, if_true, List.dropWhile_cons_of_pos, ih, hk x t c hx]
      cases k (List.dropWhile a.test t) c <;> rfl
    · simp [repeat_greedy, hx, List.dropWhile_cons_of_neg]

/-- The first choice of a greedy repetition is the longest run. -/
theorem repeat_greedy_first (a : Atom) (k : Cont) (s : Str) (c : Captures) (r : Captures)
    (h : k (s.dropWhile a.test) c = some r) : repeat_greedy a k s c = some r := by
  induction s with
  | nil => simpa [repeat_greedy] using h
  | cons x t ih =>
    by_cases hx : a.test x = true
    · rw [List.dropWhile_cons_of_pos hx] at h
      simp [repeat_greedy, hx, ih h]
    · rw [List.dropWhile_cons_of_neg hx] at h
      simp [repeat_greedy, hx, h]

/-- A greedy repetition that succeeds does so after some run of the class. -/
theorem repeat_greedy_some (a : Atom) (k : Cont) (s : Str) (c : Captures) (r : Captures)
    (h : repeat_greedy a k s c = some r) :
    ∃ v rest, s = v ++ rest ∧ (∀ x ∈ v, a.test x = true) ∧ k rest c = some r := by
  induction s with
  | nil => exact ⟨[], [], rfl, by simp, by simpa [repeat_greedy] using h⟩
  | cons x t ih =>
    by_cases hx : a.test x = true
    · simp only [repeat_greedy, hx, if_true] at h
      cases hg : repeat_greedy a k t c with
      | some r1 =>
        rw [hg] at h
        obtain ⟨v, rest, hs, hv, hr⟩ := ih (by rw [hg]; exact h)
        refine ⟨x :: v, rest, by simp [hs], ?_, hr⟩
        intro y hy
        rcases List.mem_cons.mp hy with e | e
        · exact e ▸ hx
        · exact hv y e
      | none =>
        rw [hg] at h
        exact ⟨[], x :: t, rfl, by simp, h⟩
    · simp only [repeat_greedy, hx] at h
      exact ⟨[], x :: t, rfl, by simp, h⟩

/-- A greedy repetition followed by a test `P` of the rest that survives the
removal of a leading character of the class: the test is made after the
longest run. -/
theorem repeat_greedy_test (a : Atom) (P : Str → Bool)
    (hP : ∀ x t, a.test x = true → P (x :: t) = true → P t = true) (s : Str) (c : Captures) :
    repeat_greedy a (fun s1 c1 => if P s1 then some c1 else none) s c
      = if P (s.dropWhile a.test) then some c else none := by
  have hdrop : ∀ u : Str, P u = true → P (u.dropWhile a.test) = true := by
    intro u
    induction u with
    | nil => simp
    | cons x t ih =>
      intro hu
      by_cases hx : a.test x = true
      · rw [List.dropWhile_cons_of_pos hx]; exact ih (hP x t hx hu)
      · rw [List.dropWhile_cons_of_neg hx]; exact hu
  induction s with
  | nil => rfl
  | cons x t ih =>
    by_cases hx : a.test x = true
    · simp only [repeat_greedy, hx, if_true, ih, List.dropWhile_cons_of_pos]
      by_cases hp : P (List.dropWhile a.test t) = true
      · simp [hp]
      · have hn : ¬ P (x :: t) = true := fun hxt => hp (by
          have := hdrop (x :: t) hxt
          rwa [List.dropWhile_cons_of_pos hx] at this)
        simp [hp, hn]
    · simp [repeat_greedy, hx, List.dropWhile_cons_of_neg]

/-- A non-greedy repetition that succeeds does so after the shortest run of
the class that lets the continuation succeed. -/
theorem repeat_lazy_some (a : Atom) (k : Cont) (s : Str) (c : Captures) (r : Captures)
    (h : repeat_lazy a k s c = some r) :
    ∃ v rest, s = v ++ rest ∧ (∀ x ∈ v, a.test x = true) ∧ k rest c = some r ∧
      ∀ v1 v2, v = v1 ++ v2 → v2 ≠ [] → k (v2 ++ rest) c = none := by
  induction s with
  | nil =>
    refine ⟨[], [], rfl, by simp, by simpa [repeat_lazy] using h, ?_⟩
    intro v1 v2 hv hne
    exact absurd (List.append_eq_nil.mp hv.symm).2 hne
  | cons x t ih =>
    simp only [repeat_lazy] at h
    cases hk : k (x :: t) c with
    | some r1 =>
      rw [hk] at h
      refine ⟨[], x :: t, rfl, by simp, by rw [hk]; exact h, ?_⟩
      intro v1 v2 hv hne
      exact absurd (List.append_eq_nil.mp hv.symm).2 hne
    | none =>
      rw [hk] at h
      by_cases hx : a.test x = true
      · simp only [hx, if_true] at h
        obtain ⟨v, rest, hs, hv, hr, hmin⟩ := ih h
        refine ⟨x :: v, rest, by simp [hs], ?_, hr, ?_⟩
        · intro y hy
          rcases List.mem_cons.mp hy with e | e
          · exact e ▸ hx
          · exact hv y e
        · intro v1 v2 hsplit hne
          cases v1 with
          | nil =>
            simp only [List.nil_append] at hsplit
            rw [← hsplit, List.cons_append, ← hs]; exact hk
          | cons y v1 =>
            simp only [List.cons_append, List.cons.injEq] at hsplit
            exact hmin v1 v2 hsplit.2 hne
      · simp [hx] at h

/-- A non-greedy repetition succeeds as soon as some run of the class lets
the continuation succeed. -/
theorem repeat_lazy_isSome (a : Atom) (k : Cont) (v rest : Str) (c : Captures)
    (hv : ∀ x ∈ v, a.test x = true) (hk : (k rest c).isSome = true) :
    (repeat_lazy a k (v ++ rest) c).isSome = true := by
  induction v with
  | nil =>
    cases rest with
    | nil => simpa [repeat_lazy] using hk
    | cons y u =>
      simp only [List.nil_append, repeat_lazy]
      cases hy : k (y :: u) c with
      | some r => rfl
      | none => rw [hy] at hk; simp at hk
  | cons x t ih =>
    simp only [List.cons_append, repeat_lazy]
    cases hy : k (x :: (t ++ rest)) c with
    | some r => rfl
    | none =>
      have hx : a.test x = true := hv x (by simp)
      simp only [hx, if_true]
      exact ih (fun y hy => hv y (by simp [hy]))

/-- The result of a non-greedy repetition: the run `v` is taken when the
continuation succeeds after it and fails after every shorter run. -/
theorem repeat_lazy_eq (a : Atom) (k : Cont) (v rest : Str) (c : Captures) (r : Captures)
    (hv : ∀ x ∈ v, a.test x = true) (hk : k rest c = some r)
    (hmin : ∀ v1 v2, v = v1 ++ v2 → v2 ≠ [] → k (v2 ++ rest) c = none) :
    repeat_lazy a k (v ++ rest) c = some r := by
  induction v with
  | nil =>
    cases rest with
    | nil => simpa [repeat_lazy] using hk
    | cons y u => simp [repeat_lazy, hk]
  | cons x t ih =>
    have h0 : k (x :: (t ++ rest)) c = none := by
      have := hmin [] (x :: t) rfl (by simp)
      simpa using this
    have hx : a.test x = true := hv x (by simp)
    show repeat_lazy a k (x :: (t ++ rest)) c = some r
    rw [repeat_lazy, h0]
    simp only [hx, if_true]
    exact ih (fun y hy => hv y (by simp [hy]))
      (fun v1 v2 hsplit hne => hmin (x :: v1) v2 (by simp [hsplit]) hne)

/-! ## The three patterns in closed form -/

theorem test_space : Atom.test .space = isspace := funext fun _ => rfl

theorem space_ne {x : Char} (h : isspace x = true) :
    Atom.test .word x = false ∧ x ≠ ';' ∧ x ≠ '[' ∧ x ≠ ']' ∧ x ≠ '=' ∧ x ≠ '.' := by
  simp only [isspace, Bool.or_eq_true, beq_iff_eq] at h
  rcases h with ((((h | h) | h) | h) | h) | h <;> subst h <;> decide

theorem word_ne {x : Char} (h : Atom.test .word x = true) :
    isspace x = false ∧ x ≠ ';' ∧ x ≠ '[' ∧ x ≠ ']' ∧ x ≠ '=' ∧ x ≠ '.' := by
  refine ⟨?_, ?_, ?_, ?_, ?_, ?_⟩
  · cases hs : isspace x with
    | false => rfl
    | true => rw [(space_ne hs).1] at h; exact absurd h (by decide)
  all_goals (intro e; subst e; exact absurd h (by decide))

theorem dropWhile_isEmpty {p : Char → Bool} (t : Str) :
    (t.dropWhile p).isEmpty = t.all p := by
  induction t with
  | nil => rfl
  | cons x t ih =>
    by_cases hx : p x = true
    · simp [List.dropWhile_cons_of_pos hx, hx, ih]
    · simp [List.dropWhile_cons_of_neg hx, hx]

/-- A greedy repetition that has to reach the end of the input. -/
theorem repeat_greedy_at_end (a : Atom) (s : Str) (c : Captures) :
    repeat_greedy a at_end s c = if s.all a.test then some c else none := by
  have := repeat_greedy_test a (fun s => s.isEmpty) (by intro x t _ h; simp at h) s c
  rw [dropWhile_isEmpty] at this
  exact this

theorem take_length_sub_dropWhile (p : Char → Bool) (t : Str) :
    t.take (t.length - (t.dropWhile p).length) = t.takeWhile p := by
  have h := List.takeWhile_append_dropWhile p t
  have hl : t.length = (t.takeWhile p).length + (t.dropWhile p).length := by
    rw [← List.length_append, h]
  have ht := List.take_left (t.takeWhile p) (t.dropWhile p)
  rw [h] at ht
  rw [hl, Nat.add_sub_cancel, ht]

/-- The comment pattern in closed form. -/
theorem regex_match_comment (line : Str) :
    regex_match line comment_regex = if comment_form line then some [] else none := by
  have hk : ∀ x t c, (Atom.space).test x = true →
      (Regex.run (.seq (.atom (.chr ';')) (.star .dot))
        at_end) (x :: t) c = none := by
    intro x t c hx
    have := (space_ne hx).2.1
    simp [Regex.run, Atom.test, this]
  have key : ∀ (s : Str) (c : Captures),
      (Regex.run (.seq (.atom (.chr ';')) (.star .dot))
        at_end) s c
      = if (match s with
            | x :: t => x == ';' && t.all (Atom.test .dot)
            | [] => false) = true then some c else none := by
    intro s c
    cases s with
    | nil => simp [Regex.run]
    | cons x t =>
      by_cases hx : x = ';'
      · subst hx
        simp only [Regex.run, repeat_greedy_at_end]
        simp [Atom.test]
      · simp [Regex.run, Atom.test, hx]
  simp only [regex_match, comment_regex]
  rw [Regex.run, Regex.run, repeat_greedy_det _ _ hk, test_space]
  exact key _ _
theorem test_chr (d x : Char) : (Atom.chr d).test x = (x == d) := rfl

theorem run_seq (r s : Regex) (k : Cont) : (Regex.seq r s).run k = r.run (s.run k) := rfl

theorem run_star (a : Atom) (k : Cont) : (Regex.star a).run k = repeat_greedy a k := rfl

theorem run_starLazy (a : Atom) (k : Cont) : (Regex.starLazy a).run k = repeat_lazy a k := rfl

theorem run_atom_cons (a : Atom) (k : Cont) (x : Char) (t : Str) (c : Captures) :
    (Regex.atom a).run k (x :: t) c = if a.test x then k t c else none := rfl

theorem run_atom_nil (a : Atom) (k : Cont) (c : Captures) :
    (Regex.atom a).run k [] c = none := rfl

/-- A capturing group around `a+`, followed by something that cannot start
with a character of the class `a`: the group takes the longest run, which has
to be non-empty. -/
theorem run_group_plus (i : Nat) (a : Atom) (k : Cont)
    (hk : ∀ x t c, a.test x = true → k (x :: t) c = none) (s : Str) (c : Captures) :
    (Regex.group i (.plus a)).run k s c
      = if (s.takeWhile a.test).isEmpty then none
        else k (s.dropWhile a.test) ((i, s.takeWhile a.test) :: c) := by
  cases s with
  | nil => simp [Regex.run]
  | cons z u =>
    by_cases hz : a.test z = true
    · have hk1 : ∀ x t1 c1, a.test x = true →
          (fun s1 c1 => k s1 ((i, (z :: u).take ((z :: u).length - s1.length)) :: c1))
            (x :: t1) c1 = none := fun x t1 c1 hx => hk x t1 _ hx
      have hd : List.dropWhile a.test (z :: u) = List.dropWhile a.test u :=
        List.dropWhile_cons_of_pos hz
      have hlen := take_length_sub_dropWhile a.test (z :: u)
      rw [hd] at hlen
      have hrun : (Regex.group i (.plus a)).run k (z :: u) c
          = repeat_greedy a
              (fun s1 c1 => k s1 ((i, (z :: u).take ((z :: u).length - s1.length)) :: c1)) u c := by
        simp only [Regex.run, hz, if_true]
      rw [hrun, repeat_greedy_det _ _ hk1, hlen, hd]
      simp [List.takeWhile_cons_of_pos hz]
    · have hrun : (Regex.group i (.plus a)).run k (z :: u) c = none := by
        simp only [Regex.run, hz]
        rfl
      rw [hrun]
      simp [List.takeWhile_cons_of_neg hz]

/-- The section pattern after the leading white space, in closed form. -/
theorem section_body_run (s : Str) (c : Captures) :
    (Regex.run (.seq (.atom (.chr '[')) (.seq (.group 1 (.plus .word))
      (.seq (.atom (.chr ']')) (.star .space)))) at_end) s c
    = match s with
      | x :: t =>
        if x == '[' then
          match t.dropWhile (Atom.test .word) with
          | y :: w =>
            if y == ']' && !(t.takeWhile (Atom.test .word)).isEmpty && w.all isspace then
              some ((1, t.takeWhile (Atom.test .word)) :: c)
            else none
          | [] => none
        else none
      | [] => none := by
  have hk : ∀ x t c, (Atom.word).test x = true →
      (Regex.run (.atom (.chr ']')) ((Regex.star .space).run at_end)) (x :: t) c = none := by
    intro x t c hx
    have := (word_ne hx).2.2.2.1
    simp [run_atom_cons, Atom.test, this]
  cases s with
  | nil => rfl
  | cons x t =>
    by_cases hx : x = '['
    · subst hx
      simp only [run_seq, run_atom_cons, run_group_plus 1 .word _ hk]
      simp only [Atom.test, beq_self_eq_true, if_true]
      cases hd : List.dropWhile (Atom.test .word) t with
      | nil => simp [run_atom_nil]
      | cons y w =>
        simp only [run_atom_cons, run_star, repeat_greedy_at_end, test_space, test_chr]
        generalize List.takeWhile (Atom.test .word) t = name
        by_cases hy : y = ']'
        · subst hy
          cases name <;> simp
        · cases name <;> simp [hy]
    · simp [run_seq, run_atom_cons, Atom.test, hx]

/-- The section header pattern in closed form. -/
theorem regex_match_section (line : Str) :
    regex_match line section_regex = (section_name line).map (fun n => [(1, n)]) := by
  have hk : ∀ x t c, (Atom.space).test x = true →
      (Regex.run (.seq (.atom (.chr '[')) (.seq (.group 1 (.plus .word))
        (.seq (.atom (.chr ']')) (.star .space)))) at_end) (x :: t) c = none := by
    intro x t c hx
    have := (space_ne hx).2.2.1
    simp [section_body_run, this]
  simp only [regex_match, section_regex]
  rw [run_seq, run_star, repeat_greedy_det _ _ hk, test_space, section_body_run]
  simp only [section_name]
  cases List.dropWhile isspace line with
  | nil => rfl
  | cons x t =>
    by_cases hx : x = '['
    · subst hx
      simp only [beq_self_eq_true, if_true]
      cases List.dropWhile (Atom.test .word) t with
      | nil => rfl
      | cons y w =>
        by_cases hc : (y == ']' && !(List.takeWhile (Atom.test .word) t).isEmpty && w.all isspace) = true
        · simp [hc]
        · simp [hc]
    · simp [hx]

/-! ### The assignment pattern -/

theorem list_cases (l : Str) : l = [] ∨ ∃ x t, l = x :: t := by
  cases l with
  | nil => exact Or.inl rfl
  | cons x t => exact Or.inr ⟨x, t, rfl⟩

theorem run_eol_at_end : Regex.eol.run at_end = at_end := by
  funext s c
  cases s <;> rfl

theorem dropWhile_eq_nil_all {p : Char → Bool} {s : Str} (h : s.dropWhile p = []) :
    s.all p = true := by
  rw [← dropWhile_isEmpty, h]; rfl

theorem dropWhile_eq_cons_all {p : Char → Bool} {s : Str} {x : Char} {t : Str}
    (h : s.dropWhile p = x :: t) : s.all p = false := by
  rw [← dropWhile_isEmpty, h]; rfl

/-- The end of the assignment pattern, `(?:\s*;.*)?\s*$`, in closed form. -/
theorem tail_run (s : Str) (c : Captures) :
    (Regex.run (.seq (.opt (.seq (.star .space) (.seq (.atom (.chr ';')) (.star .dot))))
      (.seq (.star .space) .eol)) at_end) s c = if tail_ok s then some c else none := by
  have hE : ∀ (u : Str) (c1 : Captures),
      (Regex.run (.seq (.star .space) .eol) at_end) u c1
        = if u.all isspace then some c1 else none := by
    intro u c1
    rw [run_seq, run_star, run_eol_at_end, repeat_greedy_at_end, test_space]
  have hE1 : (Regex.run (.seq (.star .space) .eol) at_end)
      = fun u c1 => if u.all isspace then some c1 else none := by
    funext u c1; exact hE u c1
  have hD : ∀ (t : Str) (c1 : Captures),
      repeat_greedy .dot (Regex.run (.seq (.star .space) .eol) at_end) t c1
        = if (t.dropWhile (Atom.test .dot)).all isspace then some c1 else none := by
    intro t c1
    rw [hE1]
    exact repeat_greedy_test .dot (fun u => u.all isspace)
      (by intro x t _ h; simp only [List.all_cons, Bool.and_eq_true] at h; exact h.2) t c1
  have hk : ∀ x t c1, (Atom.space).test x = true →
      (Regex.run (.seq (.atom (.chr ';')) (.star .dot))
        (Regex.run (.seq (.star .space) .eol) at_end)) (x :: t) c1 = none := by
    intro x t c1 hx
    have := (space_ne hx).2.1
    simp [run_seq, run_atom_cons, test_chr, this]
  have hG : (Regex.run (.seq (.star .space) (.seq (.atom (.chr ';')) (.star .dot)))
      (Regex.run (.seq (.star .space) .eol) at_end)) s c
      = match s.dropWhile isspace with
        | [] => none
        | x :: t => if x == ';' && (t.dropWhile (Atom.test .dot)).all isspace then some c
                    else none := by
    rw [run_seq, run_star, repeat_greedy_det _ _ hk, test_space]
    cases List.dropWhile isspace s with
    | nil => rfl
    | cons x t =>
      rw [run_seq, run_atom_cons, run_star, hD, test_chr]
      by_cases hx : x = ';'
      · subst hx; simp
      · simp [hx]
  have hrun : (Regex.run (.seq (.opt (.seq (.star .space) (.seq (.atom (.chr ';')) (.star .dot))))
      (.seq (.star .space) .eol)) at_end) s c
      = match (Regex.run (.seq (.star .space) (.seq (.atom (.chr ';')) (.star .dot)))
          (Regex.run (.seq (.star .space) .eol) at_end)) s c with
        | some res => some res
        | none => (Regex.run (.seq (.star .space) .eol) at_end) s c := rfl
  rw [hrun, hG, hE]
  simp only [tail_ok]
  rcases list_cases (List.dropWhile isspace s) with hd | ⟨x, t, hd⟩
  · simp only [hd, dropWhile_eq_nil_all hd]
  · simp only [hd, dropWhile_eq_cons_all hd]
    by_cases hc : (x == ';' && (List.dropWhile (Atom.test .dot) t).all isspace) = true
    · simp [hc]
    · simp [hc]

/-- The value part of the assignment pattern, `(.*?)(?:\s*;.*)?\s*$`, is
`value_match`. -/
theorem value_run (s : Str) (c : Captures) :
    (Regex.run (.seq (.group 2 (.starLazy .dot))
      (.seq (.opt (.seq (.star .space) (.seq (.atom (.chr ';')) (.star .dot))))
        (.seq (.star .space) .eol))) at_end) s c = value_match s c := by
  have h : (Regex.run (.seq (.group 2 (.starLazy .dot))
      (.seq (.opt (.seq (.star .space) (.seq (.atom (.chr ';')) (.star .dot))))
        (.seq (.star .space) .eol))) at_end) s c
      = repeat_lazy .dot (fun s1 c1 =>
          (Regex.run (.seq (.opt (.seq (.star .space) (.seq (.atom (.chr ';')) (.star .dot))))
            (.seq (.star .space) .eol)) at_end) s1 ((2, s.take (s.length - s1.length)) :: c1))
          s c := rfl
  rw [h, value_match]
  congr 1
  funext s1 c1
  exact tail_run s1 _
/-- When `value_match` succeeds: the rest of the line splits into a text
without line terminator and an acceptable end. -/
theorem value_match_isSome_iff (u : Str) (c : Captures) :
    (value_match u c).isSome = true ↔
      ∃ v rest, u = v ++ rest ∧ (∀ x ∈ v, Atom.test .dot x = true) ∧ tail_ok rest = true := by
  constructor
  · intro h
    obtain ⟨r, hr⟩ := Option.isSome_iff_exists.mp h
    obtain ⟨v, rest, hu, hv, hk, _⟩ := repeat_lazy_some _ _ _ _ _ hr
    refine ⟨v, rest, hu, hv, ?_⟩
    by_cases ht : tail_ok rest = true
    · exact ht
    · simp [ht] at hk
  · rintro ⟨v, rest, hu, hv, ht⟩
    subst hu
    exact repeat_lazy_isSome _ _ v rest c hv (by simp [ht])

theorem tail_ok_append_space (w s : Str) (hw : ∀ x ∈ w, isspace x = true) :
    tail_ok (w ++ s) = tail_ok s := by
  simp only [tail_ok, List.dropWhile_append_of_pos hw]

/-- White space in front of the value is never part of the value: the
repetition `\s*` before the group takes all of it. -/
theorem value_match_skip_space (s : Str) (c : Captures) :
    repeat_greedy .space value_match s c = value_match (s.dropWhile isspace) c := by
  have hB : ∀ (w u : Str), (∀ x ∈ w, isspace x = true) →
      (value_match (w ++ u) c).isSome = true → (value_match u c).isSome = true := by
    intro w u hw h
    obtain ⟨v, rest, hu, hv, ht⟩ := (value_match_isSome_iff _ _).mp h
    rcases List.append_eq_append_iff.mp hu with ⟨a, ha, hb⟩ | ⟨a, ha, hb⟩
    · -- the text `v` reaches beyond `w`
      refine (value_match_isSome_iff _ _).mpr ⟨a, rest, hb, ?_, ht⟩
      intro x hx
      exact hv x (by rw [ha]; simp [hx])
    · -- the text `v` ends inside `w`
      refine (value_match_isSome_iff _ _).mpr ⟨[], u, rfl, by simp, ?_⟩
      rw [hb] at ht
      rw [tail_ok_append_space] at ht
      · exact ht
      · intro x hx
        exact hw x (by rw [ha]; simp [hx])
  induction s with
  | nil => rfl
  | cons x t ih =>
    by_cases hx : isspace x = true
    · have hx1 : Atom.test .space x = true := hx
      rw [List.dropWhile_cons_of_pos hx]
      simp only [repeat_greedy, hx1, if_true, ih]
      cases hv : value_match (List.dropWhile isspace t) c with
      | some r => rfl
      | none =>
        cases hv2 : value_match (x :: t) c with
        | none => rfl
        | some r =>
          exfalso
          have hsplit : x :: t = (x :: t.takeWhile isspace) ++ t.dropWhile isspace := by
            simp [List.takeWhile_append_dropWhile]
          have h1 : (value_match ((x :: t.takeWhile isspace) ++ t.dropWhile isspace) c).isSome
              = true := by
            rw [← hsplit, hv2]; rfl
          have h2 := hB _ _ (by
            intro y hy
            rcases List.mem_cons.mp hy with e | e
            · exact e ▸ hx
            · exact List.mem_takeWhile_imp e) h1
          rw [hv] at h2
          exact absurd h2 (by simp)
    · have hx1 : ¬ Atom.test .space x = true := hx
      rw [List.dropWhile_cons_of_neg hx]
      simp [repeat_greedy, hx1]

/-- The assignment pattern in closed form. -/
theorem regex_match_variable (line : Str) :
    regex_match line variable_regex = variable_form line := by
  have hV : (Regex.run (.seq (.group 2 (.starLazy .dot))
      (.seq (.opt (.seq (.star .space) (.seq (.atom (.chr ';')) (.star .dot))))
        (.seq (.star .space) .eol))) at_end) = value_match := by
    funext s c; exact value_run s c
  -- from the `=` on
  have h3 : ∀ (s : Str) (c : Captures),
      (Regex.run (.seq (.atom (.chr '=')) (.seq (.star .space) (.seq (.group 2 (.starLazy .dot))
        (.seq (.opt (.seq (.star .space) (.seq (.atom (.chr ';')) (.star .dot))))
          (.seq (.star .space) .eol))))) at_end) s c
      = match s with
        | y :: rest => if y == '=' then value_match (rest.dropWhile isspace) c else none
        | [] => none := by
    intro s c
    cases s with
    | nil => rfl
    | cons y rest =>
      rw [run_seq, run_atom_cons, run_seq, run_star, hV, value_match_skip_space, test_chr]
  have hk3 : ∀ x t c, (Atom.space).test x = true →
      (Regex.run (.seq (.atom (.chr '=')) (.seq (.star .space) (.seq (.group 2 (.starLazy .dot))
        (.seq (.opt (.seq (.star .space) (.seq (.atom (.chr ';')) (.star .dot))))
          (.seq (.star .space) .eol))))) at_end) (x :: t) c = none := by
    intro x t c hx
    have := (space_ne hx).2.2.2.2.1
    simp [h3, this]
  -- from the white space after the key on
  have h2 : ∀ (s : Str) (c : Captures),
      (Regex.run (.seq (.star .space) (.seq (.atom (.chr '=')) (.seq (.star .space)
        (.seq (.group 2 (.starLazy .dot))
        (.seq (.opt (.seq (.star .space) (.seq (.atom (.chr ';')) (.star .dot))))
          (.seq (.star .space) .eol)))))) at_end) s c
      = match s.dropWhile isspace with
        | y :: rest => if y == '=' then value_match (rest.dropWhile isspace) c else none
        | [] => none := by
    intro s c
    rw [run_seq, run_star, repeat_greedy_det _ _ hk3, test_space, h3]
    rfl
  have hk2 : ∀ x t c, (Atom.word).test x = true →
      (Regex.run (.seq (.star .space) (.seq (.atom (.chr '=')) (.seq (.star .space)
        (.seq (.group 2 (.starLazy .dot))
        (.seq (.opt (.seq (.star .space) (.seq (.atom (.chr ';')) (.star .dot))))
          (.seq (.star .space) .eol)))))) at_end) (x :: t) c = none := by
    intro x t c hx
    have h1 := (word_ne hx).1
    have h5 := (word_ne hx).2.2.2.2.1
    rw [h2, List.dropWhile_cons_of_neg (by simp [h1])]
    simp [h5]
  have hk1 : ∀ x t c, (Atom.space).test x = true →
      (Regex.run (.group 1 (.plus .word))
        (Regex.run (.seq (.star .space) (.seq (.atom (.chr '=')) (.seq (.star .space)
        (.seq (.group 2 (.starLazy .dot))
        (.seq (.opt (.seq (.star .space) (.seq (.atom (.chr ';')) (.star .dot))))
          (.seq (.star .space) .eol)))))) at_end)) (x :: t) c = none := by
    intro x t c hx
    have h1 : ¬ Atom.test .word x = true := by simp [(space_ne hx).1]
    rw [run_group_plus 1 .word _ hk2, List.takeWhile_cons_of_neg h1]
    rfl
  simp only [regex_match, variable_regex]
  rw [run_seq, run_star, run_seq, repeat_greedy_det _ _ hk1, test_space,
    run_group_plus 1 .word _ hk2, h2]
  rfl

/-! ### The value of an assignment -/

/-- A success of `value_match`: the value `v` is a text without line
terminator followed by an acceptable end, and no shorter text is. -/
theorem value_match_some (u : Str) (c r : Captures) (h : value_match u c = some r) :
    ∃ v rest, u = v ++ rest ∧ (∀ x ∈ v, Atom.test .dot x = true) ∧ tail_ok rest = true ∧
      r = (2, v) :: c ∧
      ∀ v1 v2, v = v1 ++ v2 → v2 ≠ [] → tail_ok (v2 ++ rest) = false := by
  obtain ⟨v, rest, hu, hv, hk, hmin⟩ := repeat_lazy_some _ _ _ _ _ h
  have ht : tail_ok rest = true := by
    by_cases ht : tail_ok rest = true
    · exact ht
    · simp [ht] at hk
  refine ⟨v, rest, hu, hv, ht, ?_, ?_⟩
  · simp only [ht, if_true, Option.some.injEq] at hk
    rw [← hk, hu]
    simp
  · intro v1 v2 hsplit hne
    have := hmin v1 v2 hsplit hne
    cases hc : tail_ok (v2 ++ rest) with
    | false => rfl
    | true => simp [hc] at this

/-- The value taken by `value_match` is the shortest text after which the end
of the line is acceptable. -/
theorem value_match_eq (v rest : Str) (c : Captures)
    (hv : ∀ x ∈ v, Atom.test .dot x = true) (ht : tail_ok rest = true)
    (hmin : ∀ v1 v2, v = v1 ++ v2 → v2 ≠ [] → tail_ok (v2 ++ rest) = false) :
    value_match (v ++ rest) c = some ((2, v) :: c) := by
  unfold value_match
  apply repeat_lazy_eq _ _ v rest c _ hv
  · simp [ht]
  · intro v1 v2 hsplit hne
    simp [hmin v1 v2 hsplit hne]

theorem tail_ok_of_space (s : Str) (h : ∀ x ∈ s, isspace x = true) : tail_ok s = true := by
  simp only [tail_ok, List.dropWhile_eq_nil_iff.mpr h]

theorem space_of_tail_ok (s : Str) (h : tail_ok s = true) (hs : ';' ∉ s) :
    ∀ x ∈ s, isspace x = true := by
  apply List.dropWhile_eq_nil_iff.mp
  rcases list_cases (List.dropWhile isspace s) with hd | ⟨x, t, hd⟩
  · exact hd
  · exfalso
    simp only [tail_ok, hd, Bool.and_eq_true, beq_iff_eq] at h
    have hx : x ∈ s := (List.dropWhile_sublist isspace).subset (by rw [hd]; simp)
    exact hs (h.1 ▸ hx)

/-- A text that contains a character other than white space before any `;`
is not an acceptable end of line. -/
theorem tail_ok_false (v2 rest : Str) (hy : ∃ y ∈ v2, isspace y = false) (hs : ';' ∉ v2) :
    tail_ok (v2 ++ rest) = false := by
  induction v2 with
  | nil => simp at hy
  | cons y t ih =>
    by_cases hsp : isspace y = true
    · have hy2 : ∃ z ∈ t, isspace z = false := by
        obtain ⟨z, hz, hzs⟩ := hy
        rcases List.mem_cons.mp hz with e | e
        · rw [e, hsp] at hzs; exact absurd hzs (by simp)
        · exact ⟨z, e, hzs⟩
      have := ih hy2 (fun h => hs (by simp [h]))
      simp only [tail_ok, List.cons_append, List.dropWhile_cons_of_pos hsp] at this ⊢
      exact this
    · have hne : y ≠ ';' := fun e => hs (by simp [e])
      simp [tail_ok, List.dropWhile_cons_of_neg hsp, hne]

theorem rdropWhile_append_rtakeWhile (p : Char → Bool) (l : Str) :
    l.rdropWhile p ++ l.rtakeWhile p = l := by
  have h := List.takeWhile_append_dropWhile p l.reverse
  have h2 := congrArg List.reverse h
  simp only [List.reverse_append, List.reverse_reverse] at h2
  exact h2

theorem rdropWhile_append_of_pos (p : Char → Bool) (v rest : Str)
    (h : ∀ x ∈ rest, p x = true) : (v ++ rest).rdropWhile p = v.rdropWhile p := by
  induction rest using List.reverseRecOn with
  | nil => simp
  | append_singleton l x ih =>
    rw [← List.append_assoc, List.rdropWhile_concat_pos _ _ _ (h x (by simp))]
    exact ih (fun y hy => h y (by simp [hy]))

/-- The stripped text has no trailing white space: its last character, if
any, is not white space. -/
theorem exists_not_space_of_rdropWhile (l v1 v2 : Str) (h : l.rdropWhile isspace = v1 ++ v2)
    (hne : v2 ≠ []) : ∃ y ∈ v2, isspace y = false := by
  have hl : l.rdropWhile isspace ≠ [] := by
    rw [h]; intro e; exact hne (List.append_eq_nil.mp e).2
  have hlast := List.rdropWhile_last_not isspace l hl
  have e : (l.rdropWhile isspace).getLast hl = v2.getLast hne := by
    simp only [h]
    exact List.getLast_append_of_ne_nil hne
  refine ⟨v2.getLast hne, List.getLast_mem hne, ?_⟩
  rw [e] at hlast
  simpa using hlast

/-- The value of an assignment whose text has no `;`: the text without its
trailing white space. -/
theorem value_match_no_semicolon (u : Str) (c r : Captures) (h : value_match u c = some r)
    (hs : ';' ∉ u) : r = (2, u.rdropWhile isspace) :: c := by
  obtain ⟨v, rest, hu, _, ht, hr, hmin⟩ := value_match_some u c r h
  have hrest : ∀ x ∈ rest, isspace x = true :=
    space_of_tail_ok rest ht (fun hx => hs (by rw [hu]; simp [hx]))
  have hv : v.rdropWhile isspace = v := by
    rw [List.rdropWhile_eq_self_iff]
    intro hl hp
    obtain ⟨w, x, hw⟩ : ∃ w x, v = w ++ [x] := by
      rcases List.eq_nil_or_concat v with e | ⟨w, x, e⟩
      · exact absurd e hl
      · exact ⟨w, x, by simpa using e⟩
    have hx : isspace x = true := by
      have : v.getLast hl = x := by simp [hw]
      rw [this] at hp; exact hp
    have h1 := hmin w [x] hw (by simp)
    have h2 := tail_ok_of_space ([x] ++ rest) (by
      intro y hy
      rcases List.mem_append.mp hy with e | e
      · simp at e; exact e ▸ hx
      · exact hrest y e)
    rw [h1] at h2
    exact absurd h2 (by simp)
  rw [hr, hu, rdropWhile_append_of_pos _ _ _ hrest, hv]

/-- The value of an assignment whose text has no line terminator: the text
before the first `;` without its trailing white space. -/
theorem value_match_no_terminator (u : Str) (c : Captures)
    (hu : ∀ x ∈ u, Atom.test .dot x = true) :
    value_match u c
      = some ((2, (u.takeWhile (fun x => x != ';')).rdropWhile isspace) :: c) := by
  have h1 := List.takeWhile_append_dropWhile (fun x => x != ';') u
  have h2 := rdropWhile_append_rtakeWhile isspace (u.takeWhile (fun x => x != ';'))
  have hsplit : u = (u.takeWhile (fun x => x != ';')).rdropWhile isspace
      ++ ((u.takeWhile (fun x => x != ';')).rtakeWhile isspace
        ++ u.dropWhile (fun x => x != ';')) := by
    rw [← List.append_assoc, h2, h1]
  have hsub : ∀ x ∈ (u.takeWhile (fun x => x != ';')).rdropWhile isspace,
      x ∈ u.takeWhile (fun x => x != ';') :=
    fun x hx => (List.rdropWhile_prefix isspace _).subset hx
  have hmem : ∀ x ∈ u.takeWhile (fun x => x != ';'), x ∈ u :=
    fun x hx => (List.takeWhile_prefix _).subset hx
  have key := value_match_eq ((u.takeWhile (fun x => x != ';')).rdropWhile isspace)
    ((u.takeWhile (fun x => x != ';')).rtakeWhile isspace ++ u.dropWhile (fun x => x != ';')) c
    (fun x hx => hu x (hmem x (hsub x hx)))
    (by
      rw [tail_ok_append_space _ _ (fun x hx => List.mem_rtakeWhile_imp hx)]
      rcases list_cases (List.dropWhile (fun x => x != ';') u) with hd | ⟨x, t, hd⟩
      · rw [hd]; rfl
      · have hx : x = ';' := by
          have := List.head_dropWhile_not (fun x => x != ';') u (by rw [hd]; simp)
          simpa [hd] using this
        have ht : ∀ y ∈ t, Atom.test .dot y = true := fun y hy =>
          hu y ((List.dropWhile_sublist _).subset (by rw [hd]; simp [hy]))
        subst hx
        have hsp : ¬ isspace ';' = true := by decide
        rw [hd]
        simp only [tail_ok, List.dropWhile_cons_of_neg hsp, List.dropWhile_eq_nil_iff.mpr ht]
        rfl)
    (by
      intro v1 v2 hv hne
      apply tail_ok_false v2 _ (exists_not_space_of_rdropWhile _ v1 v2 hv hne)
      intro hmem2
      have h3 : ';' ∈ u.takeWhile (fun x => x != ';') := hsub _ (by rw [hv]; simp [hmem2])
      have := List.mem_takeWhile_imp h3
      simp at this)
  rw [← hsplit] at key
  exact key

/-! ## The shape of a line -/

theorem is_skip_eq (line : Str) : is_skip line = (comment_form line || line.isEmpty) := by
  simp only [is_skip, regex_match_comment]
  cases comment_form line <;> rfl

/-- The shape of a line from the closed forms of the patterns. -/
theorem shape_eq (line : Str) :
    shape line =
      if comment_form line || line.isEmpty then .skip
      else
        match section_name line with
        | some n => .header n
        | none =>
          match variable_form line with
          | some m => .assignment (sub_match m 1) (sub_match m 2)
          | none => .other := by
  simp only [shape, is_skip_eq, regex_match_section, regex_match_variable]
  cases section_name line <;> rfl

/-- A section header starts, after white space, with `[`. -/
theorem section_name_head {line n : Str} (h : section_name line = some n) :
    ∃ t, line.dropWhile isspace = '[' :: t := by
  simp only [section_name] at h
  rcases list_cases (List.dropWhile isspace line) with hd | ⟨x, t, hd⟩
  · simp [hd] at h
  · by_cases hx : x = '['
    · exact ⟨t, by rw [hd, hx]⟩
    · simp [hd, hx] at h

/-- An assignment starts, after white space, with a word character. -/
theorem variable_form_head {line : Str} {m : Captures} (h : variable_form line = some m) :
    ∃ x t, line.dropWhile isspace = x :: t ∧ Atom.test .word x = true := by
  simp only [variable_form] at h
  rcases list_cases (List.dropWhile isspace line) with hd | ⟨x, t, hd⟩
  · simp [hd] at h
  · refine ⟨x, t, hd, ?_⟩
    by_cases hx : Atom.test .word x = true
    · exact hx
    · rw [hd, List.takeWhile_cons_of_neg hx] at h
      simp at h

/-- A comment starts, after white space, with `;`. -/
theorem comment_form_head {line : Str} (h : comment_form line = true) :
    ∃ t, line.dropWhile isspace = ';' :: t := by
  simp only [comment_form] at h
  rcases list_cases (List.dropWhile isspace line) with hd | ⟨x, t, hd⟩
  · simp [hd] at h
  · simp only [hd, Bool.and_eq_true, beq_iff_eq] at h
    exact ⟨t, by rw [hd, h.1]⟩

theorem dropWhile_cons_ne_nil {p : Char → Bool} {line : Str} {x : Char} {t : Str}
    (h : line.dropWhile p = x :: t) : line ≠ [] := by
  intro e; rw [e] at h; simp at h

/-- A section header is not skipped. -/
theorem not_skip_of_header {line n : Str} (h : section_name line = some n) :
    is_skip line = false := by
  obtain ⟨t, hd⟩ := section_name_head h
  have hne := dropWhile_cons_ne_nil hd
  rw [is_skip_eq]
  cases hc : comment_form line with
  | true =>
    obtain ⟨t2, hd2⟩ := comment_form_head hc
    rw [hd] at hd2
    exact absurd hd2 (by simp)
  | false => cases line with
    | nil => exact absurd rfl hne
    | cons _ _ => rfl

/-- An assignment is neither skipped nor a section header. -/
theorem not_skip_of_assignment {line : Str} {m : Captures} (h : variable_form line = some m) :
    is_skip line = false ∧ section_name line = none := by
  obtain ⟨x, t, hd, hx⟩ := variable_form_head h
  have hne := dropWhile_cons_ne_nil hd
  constructor
  · rw [is_skip_eq]
    cases hc : comment_form line with
    | true =>
      obtain ⟨t2, hd2⟩ := comment_form_head hc
      rw [hd] at hd2
      simp only [List.cons.injEq] at hd2
      exact absurd hd2.1 (word_ne hx).2.1
    | false => cases line with
      | nil => exact absurd rfl hne
      | cons _ _ => rfl
  · cases hs : section_name line with
    | none => rfl
    | some n =>
      obtain ⟨t2, hd2⟩ := section_name_head hs
      rw [hd] at hd2
      simp only [List.cons.injEq] at hd2
      exact absurd hd2.1 (word_ne hx).2.2.1

/-- The name of a section header is an identifier. -/
theorem section_name_identifier {line n : Str} (h : section_name line = some n) :
    is_identifier n = true := by
  simp only [section_name] at h
  rcases list_cases (List.dropWhile isspace line) with hd | ⟨x, t, hd⟩
  · simp [hd] at h
  · rw [hd] at h
    simp only at h
    by_cases hx : (x == '[') = true
    · simp only [hx, if_true] at h
      rcases list_cases (List.dropWhile (Atom.test .word) t) with hd2 | ⟨y, w, hd2⟩
      · simp [hd2] at h
      · rw [hd2] at h
        simp only at h
        by_cases hc : (y == ']' && !(List.takeWhile (Atom.test .word) t).isEmpty
            && w.all isspace) = true
        · simp only [hc, if_true, Option.some.injEq] at h
          simp only [Bool.and_eq_true] at hc
          rw [← h]
          simp only [is_identifier, Bool.and_eq_true, List.all_eq_true]
          exact ⟨hc.1.2, fun z hz => List.mem_takeWhile_imp hz⟩
        · simp [hc] at h
    · simp [hx] at h

theorem identifier_no_dot {s : Str} (h : is_identifier s = true) : '.' ∉ s := by
  simp only [is_identifier, Bool.and_eq_true, List.all_eq_true] at h
  intro hm
  exact (word_ne (h.2 _ hm)).2.2.2.2.2 rfl

/-! ## The hash tables -/

theorem find_append_single {V : Type} (m : UMap V) (k k1 : Str) (d : V) :
    UMap.find (m ++ [(k, d)]) k1
      = match m.find k1 with
        | some v => some v
        | none => if k = k1 then some d else none := by
  induction m with
  | nil => simp [UMap.find]
  | cons e rest ih =>
    obtain ⟨k2, v2⟩ := e
    by_cases h : k2 = k1
    · simp [UMap.find, h]
    · simp only [List.cons_append, UMap.find, h, if_false]
      exact ih

/-- The table after `m[k]`: the key `k` is present, the other keys are as
before. -/
theorem find_index {V : Type} [Inhabited V] (m : UMap V) (k k1 : Str) :
    (m.index k).find k1
      = if k = k1 then some ((m.find k).getD default) else m.find k1 := by
  unfold UMap.index
  cases hk : m.find k with
  | some v =>
    by_cases h : k = k1
    · subst h; simp [hk]
    · simp [h]
  | none =>
    simp only [find_append_single]
    by_cases h : k = k1
    · subst h; simp [hk]
    · simp only [h, if_false]
      cases m.find k1 <;> rfl

/-- The table after a write to the mapped value of `k`. -/
theorem find_modify {V : Type} (m : UMap V) (k k1 : Str) (f : V → V) :
    (m.modify k f).find k1 = if k = k1 then (m.find k).map f else m.find k1 := by
  induction m with
  | nil => simp [UMap.modify, UMap.find]
  | cons e rest ih =>
    obtain ⟨k2, v2⟩ := e
    by_cases h2 : k2 = k
    · subst h2
      by_cases h : k2 = k1
      · simp [UMap.modify, UMap.find, h]
      · simp [UMap.modify, UMap.find, h]
    · by_cases h : k2 = k1
      · subst h
        have : ¬ k = k2 := fun e => h2 e.symm
        simp [UMap.modify, UMap.find, h2, this]
      · simp only [UMap.modify, h2, if_false, UMap.find, h]
        exact ih

theorem keys_modify {V : Type} (m : UMap V) (k : Str) (f : V → V) :
    (m.modify k f).keys = m.keys := by
  induction m with
  | nil => rfl
  | cons e rest ih =>
    obtain ⟨k2, v2⟩ := e
    by_cases h2 : k2 = k
    · simp [UMap.modify, UMap.keys, h2]
    · simp only [UMap.modify, h2, if_false]
      simp only [UMap.keys, List.map_cons, List.cons.injEq, true_and] at ih ⊢
      exact ih

theorem find_eq_none_iff {V : Type} (m : UMap V) (k : Str) :
    m.find k = none ↔ k ∉ m.keys := by
  induction m with
  | nil => simp [UMap.find, UMap.keys]
  | cons e rest ih =>
    obtain ⟨k2, v2⟩ := e
    by_cases h : k2 = k
    · simp only [UMap.find, h, if_true, UMap.keys, List.map_cons, List.mem_cons, true_or,
        not_true_eq_false, iff_false]
      exact fun e => Option.noConfusion e
    · have h3 : ¬ k = k2 := fun e => h e.symm
      simp only [UMap.find, h, if_false, ih]
      simp only [UMap.keys, List.map_cons, List.mem_cons, h3, false_or]

theorem keys_index {V : Type} [Inhabited V] (m : UMap V) (k : Str) :
    (m.index k).keys = if k ∈ m.keys then m.keys else m.keys ++ [k] := by
  unfold UMap.index
  cases hk : m.find k with
  | some v =>
    have : k ∈ m.keys := by
      by_contra hn
      rw [(find_eq_none_iff m k).mpr hn] at hk
      exact absurd hk (by simp)
    simp [this]
  | none =>
    have : k ∉ m.keys := (find_eq_none_iff m k).mp hk
    rw [if_neg this]
    simp only [UMap.keys, List.map_append, List.map_cons, List.map_nil]

theorem nodup_keys_index {V : Type} [Inhabited V] (m : UMap V) (k : Str)
    (h : m.keys.Nodup) : (m.index k).keys.Nodup := by
  rw [keys_index]
  by_cases hk : k ∈ m.keys
  · simp [hk, h]
  · simp only [hk, if_false]
    exact List.Nodup.append h (by simp) (by simpa using hk)

/-- The mapped values of a table. -/
theorem mem_of_find {V : Type} (m : UMap V) (k : Str) (v : V) (h : m.find k = some v) :
    (k, v) ∈ m := by
  induction m with
  | nil => simp [UMap.find] at h
  | cons e rest ih =>
    obtain ⟨k2, v2⟩ := e
    by_cases h2 : k2 = k
    · simp only [UMap.find, h2, if_true, Option.some.injEq] at h
      simp [h2, h]
    · simp only [UMap.find, h2, if_false] at h
      exact List.mem_cons_of_mem _ (ih h)

theorem find_of_mem {V : Type} (m : UMap V) (k : Str) (v : V) (hn : m.keys.Nodup)
    (h : (k, v) ∈ m) : m.find k = some v := by
  induction m with
  | nil => simp at h
  | cons e rest ih =>
    obtain ⟨k2, v2⟩ := e
    simp only [UMap.keys, List.map_cons, List.nodup_cons] at hn
    rcases List.mem_cons.mp h with e | e
    · simp only [Prod.mk.injEq] at e
      simp [UMap.find, e.1, e.2]
    · have hk : k ∈ UMap.keys rest := List.mem_map.mpr ⟨(k, v), e, rfl⟩
      have h2 : ¬ k2 = k := fun e2 => hn.1 (e2 ▸ hk)
      simp only [UMap.find, h2, if_false]
      exact ih hn.2 e

/-! ## One iteration of the loop -/

/-- One iteration of the loop, by the shape of the line. -/
theorem parse_line_eq (st : Loop) (line : Str) :
    parse_line st line =
      match shape line with
      | .skip => .ok { st with line_number := st.line_number + 1 }
      | .header n =>
        .ok { current_section := n, line_number := st.line_number + 1,
              data := st.data.index n }
      | .assignment k v =>
        if st.current_section.isEmpty then
          .error (.runtime_error
            ("Variable outside of a section at line ".toList ++ to_string (st.line_number + 1)))
        else
          .ok { st with
                line_number := st.line_number + 1
                data := assign st.data st.current_section k v }
      | .other =>
        .error (.runtime_error
          ("Syntax error at line ".toList ++ to_string (st.line_number + 1))) := by
  unfold parse_line shape is_skip
  by_cases hs : ((regex_match line comment_regex).isSome || line.isEmpty) = true
  · simp only [hs, if_true]
  · simp only [hs]
    cases regex_match line section_regex with
    | some m => rfl
    | none =>
      cases regex_match line variable_regex with
      | some m => rfl
      | none => rfl

theorem stored_index (data : Data) (n s k : Str) :
    stored (data.index n) s k = stored data s k := by
  simp only [stored, find_index]
  by_cases h : n = s
  · subst h
    simp only [if_true]
    cases UMap.find data n with
    | some v => rfl
    | none => rfl
  · simp only [h, if_false]

/-- The table after an assignment: the assigned key has the new value, every
other key of every section has the value it had. -/
theorem stored_assign (data : Data) (cur k v s k1 : Str) :
    stored (assign data cur k v) s k1
      = if cur = s ∧ k = k1 then some v else stored data s k1 := by
  simp only [stored, assign, find_modify, find_index]
  by_cases h : cur = s
  · subst h
    simp only [if_true, Option.map_some', true_and]
    by_cases hk : k = k1
    · subst hk
      rw [find_modify, find_index]
      simp
    · simp only [hk, if_false]
      rw [find_modify]
      simp only [find_index, hk, if_false]
      cases UMap.find data cur with
      | some vars => rfl
      | none => rfl
  · simp only [h, if_false, false_and]

theorem find_assign_isSome (data : Data) (cur k v s : Str) :
    (UMap.find (assign data cur k v) s).isSome
      = (decide (cur = s) || (UMap.find data s).isSome) := by
  simp only [assign, find_modify, find_index]
  by_cases h : cur = s
  · simp [h]
  · simp [h]

theorem find_index_isSome (data : Data) (n s : Str) :
    (UMap.find (data.index n) s).isSome = (decide (n = s) || (UMap.find data s).isSome) := by
  simp only [find_index]
  by_cases h : n = s
  · simp [h]
  · simp [h]

/-! ## The loop -/

theorem parse_loop_cons (st : Loop) (line : Str) (rest : List Str) :
    parse_loop st (line :: rest)
      = match parse_line st line with
        | .ok st1 => parse_loop st1 rest
        | .error e => .error e := rfl

theorem parse_loop_append (st : Loop) (a b : List Str) :
    parse_loop st (a ++ b)
      = match parse_loop st a with
        | .ok st1 => parse_loop st1 b
        | .error e => .error e := by
  induction a generalizing st with
  | nil => rfl
  | cons line rest ih =>
    simp only [List.cons_append, parse_loop_cons]
    cases parse_line st line with
    | ok st1 => exact ih st1
    | error e => rfl

/-- The iterations that do not throw. -/
theorem parse_line_ok {st st1 : Loop} {line : Str} (h : parse_line st line = .ok st1) :
    (shape line = .skip ∧ st1 = { st with line_number := st.line_number + 1 }) ∨
    (∃ n, shape line = .header n ∧
      st1 = { current_section := n, line_number := st.line_number + 1,
              data := st.data.index n }) ∨
    (∃ k v, shape line = .assignment k v ∧ st.current_section ≠ [] ∧
      st1 = { st with line_number := st.line_number + 1
                      data := assign st.data st.current_section k v }) := by
  rw [parse_line_eq] at h
  cases hs : shape line with
  | skip =>
    rw [hs] at h
    simp only [Except.ok.injEq] at h
    exact Or.inl ⟨rfl, h.symm⟩
  | header n =>
    rw [hs] at h
    simp only [Except.ok.injEq] at h
    exact Or.inr (Or.inl ⟨n, rfl, h.symm⟩)
  | assignment k v =>
    rw [hs] at h
    by_cases hc : st.current_section.isEmpty = true
    · simp [hc] at h
    · simp only [hc] at h
      refine Or.inr (Or.inr ⟨k, v, rfl, ?_, ?_⟩)
      · intro e
        exact hc (by rw [e]; rfl)
      · first
          | exact h.symm
          | (injection h with h; exact h.symm)
  | other =>
    rw [hs] at h
    simp at h

theorem parse_loop_line_number {st st1 : Loop} {lines : List Str}
    (h : parse_loop st lines = .ok st1) : st1.line_number = st.line_number + lines.length := by
  induction lines generalizing st with
  | nil =>
    simp only [parse_loop, Except.ok.injEq] at h
    simp [h]
  | cons line rest ih =>
    rw [parse_loop_cons] at h
    cases hl : parse_line st line with
    | error e => rw [hl] at h; simp at h
    | ok st2 =>
      rw [hl] at h
      have h2 := ih h
      have h3 : st2.line_number = st.line_number + 1 := by
        rcases parse_line_ok hl with ⟨_, e⟩ | ⟨_, _, e⟩ | ⟨_, _, _, _, e⟩ <;> rw [e]
      rw [h2, h3, List.length_cons]
      omega

theorem last_assigned_nil (s k : Str) : last_assigned [] s k = none := rfl

theorem last_assigned_cons (a : Str × Str × Str) (l : List (Str × Str × Str)) (s k : Str) :
    last_assigned (a :: l) s k
      = match last_assigned l s k with
        | some v => some v
        | none => if a.1 = s ∧ a.2.1 = k then some a.2.2 else none := by
  simp only [last_assigned, List.reverse_cons, List.find?_append]
  cases h : List.find? (fun a => decide (a.1 = s ∧ a.2.1 = k)) l.reverse with
  | some b => rfl
  | none =>
    by_cases hc : a.1 = s ∧ a.2.1 = k
    · simp [List.find?, hc]
    · simp [List.find?, hc]

/-- What the loop stores: for every key of every section, the value of the
last assignment read, or else the value stored before. -/
theorem parse_loop_stored {st st1 : Loop} {lines : List Str}
    (h : parse_loop st lines = .ok st1) (s k : Str) :
    stored st1.data s k
      = match last_assigned (assignments st.current_section lines) s k with
        | some v => some v
        | none => stored st.data s k := by
  induction lines generalizing st with
  | nil =>
    simp only [parse_loop, Except.ok.injEq] at h
    simp [h, assignments, last_assigned_nil]
  | cons line rest ih =>
    rw [parse_loop_cons] at h
    cases hl : parse_line st line with
    | error e => rw [hl] at h; simp at h
    | ok st2 =>
      rw [hl] at h
      have h2 := ih h
      rcases parse_line_ok hl with ⟨hs, e⟩ | ⟨n, hs, e⟩ | ⟨k1, v, hs, _, e⟩
      · rw [h2, e]; simp only [assignments, hs]
      · rw [h2, e]; simp only [assignments, hs, stored_index]
      · rw [h2, e]
        simp only [assignments, hs, last_assigned_cons, stored_assign]
        cases last_assigned (assignments st.current_section rest) s k with
        | some w => rfl
        | none =>
          by_cases hc : st.current_section = s ∧ k1 = k
          · simp only [hc, and_self, if_true]
          · simp only [hc, if_false]

/-! ## Sections and assignments of a text -/

theorem shape_header_iff (line n : Str) :
    shape line = .header n ↔ section_name line = some n := by
  rw [shape_eq]
  constructor
  · intro h
    by_cases hs : (comment_form line || line.isEmpty) = true
    · simp [hs] at h
    · simp only [hs] at h
      cases hn : section_name line with
      | some m =>
        rw [hn] at h
        simp only [Bool.false_eq_true, if_false, Shape.header.injEq] at h
        rw [h]
      | none =>
        rw [hn] at h
        cases hv : variable_form line with
        | some m => rw [hv] at h; simp at h
        | none => rw [hv] at h; simp at h
  · intro h
    have hs := not_skip_of_header h
    rw [is_skip_eq] at hs
    simp [hs, h]

theorem headers_identifier {lines : List Str} {n : Str} (h : n ∈ headers lines) :
    is_identifier n = true := by
  induction lines with
  | nil => simp [headers] at h
  | cons line rest ih =>
    simp only [headers] at h
    cases hs : shape line with
    | header m =>
      rw [hs] at h
      rcases List.mem_cons.mp h with e | e
      · rw [e]; exact section_name_identifier ((shape_header_iff line m).mp hs)
      · exact ih e
    | skip => rw [hs] at h; exact ih h
    | assignment k v => rw [hs] at h; exact ih h
    | other => rw [hs] at h; exact ih h

theorem assignments_append (cur : Str) (a b : List Str) :
    assignments cur (a ++ b)
      = assignments cur a ++ assignments (section_in_force cur a) b := by
  induction a generalizing cur with
  | nil => rfl
  | cons line rest ih =>
    simp only [List.cons_append, assignments, section_in_force]
    cases shape line with
    | header m => exact ih m
    | skip => exact ih cur
    | assignment k v => exact congrArg ((cur, k, v) :: ·) (ih cur)
    | other => exact ih cur

theorem headers_append (a b : List Str) : headers (a ++ b) = headers a ++ headers b := by
  induction a with
  | nil => rfl
  | cons line rest ih =>
    simp only [List.cons_append, headers]
    cases shape line with
    | header m => exact congrArg (m :: ·) ih
    | skip => exact ih
    | assignment k v => exact ih
    | other => exact ih

/-- The section of an assignment is the one in force at the start or the name
of a header. -/
theorem mem_assignments_section {cur : Str} {lines : List Str} {a : Str × Str × Str}
    (h : a ∈ assignments cur lines) : a.1 = cur ∨ a.1 ∈ headers lines := by
  induction lines generalizing cur with
  | nil => simp [assignments] at h
  | cons line rest ih =>
    simp only [assignments, headers] at h ⊢
    cases hs : shape line with
    | header m =>
      rw [hs] at h
      rcases ih h with e | e
      · exact Or.inr (by simp [e])
      · exact Or.inr (by simp [e])
    | skip => rw [hs] at h; exact ih h
    | other => rw [hs] at h; exact ih h
    | assignment k v =>
      rw [hs] at h
      rcases List.mem_cons.mp h with e | e
      · exact Or.inl (by rw [e])
      · exact ih e

theorem last_assigned_none_iff (l : List (Str × Str × Str)) (s k : Str) :
    last_assigned l s k = none ↔ ∀ a ∈ l, ¬ (a.1 = s ∧ a.2.1 = k) := by
  induction l with
  | nil => simp [last_assigned_nil]
  | cons a rest ih =>
    rw [last_assigned_cons]
    cases hr : last_assigned rest s k with
    | some w =>
      have : ¬ ∀ a ∈ rest, ¬ (a.1 = s ∧ a.2.1 = k) := fun hn => by
        rw [ih.mpr hn] at hr; simp at hr
      constructor
      · intro e; exact Option.noConfusion e
      · intro hn
        exact absurd (fun b hb => hn b (List.mem_cons_of_mem _ hb)) this
    | none =>
      have h2 := ih.mp hr
      by_cases hc : a.1 = s ∧ a.2.1 = k
      · constructor
        · intro e; simp [hc] at e
        · intro hn; exact absurd hc (hn a (List.mem_cons_self _ _))
      · constructor
        · intro _ b hb
          rcases List.mem_cons.mp hb with e | e
          · rw [e]; exact hc
          · exact h2 b e
        · intro _; simp [hc]

/-- The last assignment of a list that ends, for the key, with `(s, k, v)`. -/
theorem last_assigned_split (earlier later : List (Str × Str × Str)) (s k v : Str)
    (h : ∀ a ∈ later, ¬ (a.1 = s ∧ a.2.1 = k)) :
    last_assigned (earlier ++ (s, k, v) :: later) s k = some v := by
  induction earlier with
  | nil =>
    simp only [List.nil_append, last_assigned_cons, (last_assigned_none_iff later s k).mpr h]
    simp
  | cons a rest ih =>
    simp only [List.cons_append, last_assigned_cons, ih]

theorem last_assigned_some_mem {l : List (Str × Str × Str)} {s k v : Str}
    (h : last_assigned l s k = some v) : (s, k, v) ∈ l := by
  induction l with
  | nil => simp [last_assigned_nil] at h
  | cons a rest ih =>
    rw [last_assigned_cons] at h
    cases hr : last_assigned rest s k with
    | some w =>
      rw [hr] at h
      simp only [Option.some.injEq] at h
      exact List.mem_cons_of_mem _ (ih (by rw [hr, h]))
    | none =>
      rw [hr] at h
      by_cases hc : a.1 = s ∧ a.2.1 = k
      · simp only [hc, and_self, if_true, Option.some.injEq] at h
        have : a = (s, k, v) := by
          obtain ⟨a1, a2, a3⟩ := a
          simp only at hc h
          simp [hc.1, hc.2, h]
        simp [this]
      · simp [hc] at h

/-! ## Paths -/

theorem find_dot_append (s k : Str) (h : '.' ∉ s) : find_dot (s ++ '.' :: k) = some s.length := by
  induction s with
  | nil => simp [find_dot]
  | cons c rest ih =>
    have hc : c ≠ '.' := fun e => h (by simp [e])
    have hr : '.' ∉ rest := fun e => h (by simp [e])
    simp [find_dot, hc, ih hr]

/-- The accessor on a path `s.k` whose section part has no `.`: the section
`s` is looked up, then the key `k` in it, then the value is converted. -/
theorem get_value_path {T : Type} [ConvertValue T] (iteration : List Str → List Str)
    (data : Data) (s k : Str) (h : '.' ∉ s) :
    (get_value iteration data (s ++ '.' :: k) : Except Exception T)
      = match data.find s with
        | none => .error (.invalid_argument ("Section '".toList ++ s ++ "' not found.".toList))
        | some vars =>
          match vars.find k with
          | none =>
            .error (.invalid_argument ("Variable '".toList ++ k
              ++ "' not found in section '".toList ++ s
              ++ "'. Did you mean one of: ".toList ++ join (iteration vars.keys) ", ".toList))
          | some value => ConvertValue.convert_value value := by
  simp only [get_value, find_dot_append s k h, List.take_left]
  have : List.drop (s.length + 1) (s ++ '.' :: k) = k := by
    rw [List.drop_append_eq_append_drop]
    simp
  rw [this]

/-- Reading a string: the stored value as it is. -/
theorem get_value_string (iteration : List Str → List Str) (data : Data) (s k v : Str)
    (h : '.' ∉ s) (hv : stored data s k = some v) :
    (get_value iteration data (s ++ '.' :: k) : Except Exception Str) = .ok v := by
  rw [get_value_path iteration data s k h]
  simp only [stored] at hv
  cases hf : UMap.find data s with
  | none => rw [hf] at hv; simp at hv
  | some vars =>
    rw [hf] at hv
    simp only at hv
    simp only [hv]
    rfl

/-! ## Invariants of the table -/

theorem well_keyed_index {data : Data} (h : well_keyed data) (n : Str) :
    well_keyed (data.index n) := by
  refine ⟨nodup_keys_index data n h.1, ?_⟩
  intro s vars hf
  rw [find_index] at hf
  by_cases hn : n = s
  · subst hn
    simp only [if_true, Option.some.injEq] at hf
    cases hd : UMap.find data n with
    | some v0 =>
      rw [hd] at hf
      exact hf ▸ h.2 n v0 hd
    | none =>
      rw [hd] at hf
      rw [← hf]
      exact List.nodup_nil
  · simp only [hn, if_false] at hf
    exact h.2 s vars hf

theorem well_keyed_assign {data : Data} (h : well_keyed data) (cur k v : Str) :
    well_keyed (assign data cur k v) := by
  have hi := well_keyed_index h cur
  refine ⟨?_, ?_⟩
  · unfold assign
    rw [keys_modify]
    exact hi.1
  · intro s vars hf
    unfold assign at hf
    rw [find_modify] at hf
    by_cases hn : cur = s
    · subst hn
      simp only [if_true] at hf
      cases hd : UMap.find (data.index cur) cur with
      | some v0 =>
        rw [hd] at hf
        simp only [Option.map_some', Option.some.injEq] at hf
        rw [← hf, keys_modify]
        exact nodup_keys_index v0 k (hi.2 cur v0 hd)
      | none => rw [hd] at hf; simp at hf
    · simp only [hn, if_false] at hf
      exact hi.2 s vars hf

theorem parse_loop_well_keyed {st st1 : Loop} {lines : List Str}
    (h : parse_loop st lines = .ok st1) (hw : well_keyed st.data) : well_keyed st1.data := by
  induction lines generalizing st with
  | nil =>
    simp only [parse_loop, Except.ok.injEq] at h
    exact h ▸ hw
  | cons line rest ih =>
    rw [parse_loop_cons] at h
    cases hl : parse_line st line with
    | error e => rw [hl] at h; simp at h
    | ok st2 =>
      rw [hl] at h
      apply ih h
      rcases parse_line_ok hl with ⟨_, e⟩ | ⟨n, _, e⟩ | ⟨k, v, _, _, e⟩
      · rw [e]; exact hw
      · rw [e]; exact well_keyed_index hw n
      · rw [e]; exact well_keyed_assign hw _ k v

theorem well_keyed_init : well_keyed Loop.init.data :=
  ⟨List.nodup_nil, fun s vars h => by simp [Loop.init, UMap.find] at h⟩

/-- A section present in the table stays, and every header adds its section. -/
theorem parse_loop_find_isSome {st st1 : Loop} {lines : List Str}
    (h : parse_loop st lines = .ok st1) (s : Str)
    (hs : (UMap.find st.data s).isSome = true ∨ s ∈ headers lines) :
    (UMap.find st1.data s).isSome = true := by
  induction lines generalizing st with
  | nil =>
    simp only [parse_loop, Except.ok.injEq] at h
    rcases hs with hs | hs
    · exact h ▸ hs
    · simp [headers] at hs
  | cons line rest ih =>
    rw [parse_loop_cons] at h
    cases hl : parse_line st line with
    | error e => rw [hl] at h; simp at h
    | ok st2 =>
      rw [hl] at h
      apply ih h
      simp only [headers] at hs
      rcases parse_line_ok hl with ⟨hsh, e⟩ | ⟨n, hsh, e⟩ | ⟨k, v, hsh, _, e⟩
      · rw [hsh] at hs
        rcases hs with hs | hs
        · exact Or.inl (by rw [e]; exact hs)
        · exact Or.inr hs
      · rw [hsh] at hs
        rcases hs with hs | hs
        · exact Or.inl (by rw [e]; simp only [find_index_isSome, hs, Bool.or_true])
        · rcases List.mem_cons.mp hs with e2 | e2
          · exact Or.inl (by rw [e]; simp only [find_index_isSome, e2, decide_True, Bool.true_or])
          · exact Or.inr e2
      · rw [hsh] at hs
        rcases hs with hs | hs
        · exact Or.inl (by rw [e]; simp only [find_assign_isSome, hs, Bool.or_true])
        · exact Or.inr hs

/-- The entries of a table with unique keys that have a given key. -/
theorem filter_key_eq {V : Type} (m : UMap V) (k : Str) (v : V) (hn : m.keys.Nodup)
    (h : m.find k = some v) : List.filter (fun e => decide (e.1 = k)) m = [(k, v)] := by
  induction m with
  | nil => simp [UMap.find] at h
  | cons e rest ih =>
    obtain ⟨k2, v2⟩ := e
    simp only [UMap.keys, List.map_cons, List.nodup_cons] at hn
    by_cases h2 : k2 = k
    · subst h2
      simp only [UMap.find, if_true, Option.some.injEq] at h
      have hrest : List.filter (fun e => decide (e.1 = k2)) rest = [] := by
        rw [List.filter_eq_nil_iff]
        intro a ha hk
        simp only [decide_eq_true_eq] at hk
        exact hn.1 (List.mem_map.mpr ⟨a, ha, hk⟩)
      simp [List.filter, hrest, h]
    · simp only [UMap.find, h2, if_false] at h
      simp only [List.filter, h2, decide_False]
      exact ih hn.2 h

/-! ## What a loaded table holds -/

theorem parse_lines_ok {lines : List Str} {data : Data} (h : parse_lines lines = .ok data) :
    ∃ st, parse_loop Loop.init lines = .ok st ∧ st.data = data := by
  unfold parse_lines at h
  cases hl : parse_loop Loop.init lines with
  | error e => rw [hl] at h; simp at h
  | ok st =>
    rw [hl] at h
    simp only [Except.ok.injEq] at h
    exact ⟨st, rfl, h⟩

/-- The values of a loaded table: the value of the last assignment to the key
in the section. -/
theorem parse_lines_stored {lines : List Str} {data : Data} (h : parse_lines lines = .ok data)
    (s k : Str) : stored data s k = last_assigned (assignments [] lines) s k := by
  obtain ⟨st, hl, hd⟩ := parse_lines_ok h
  have := parse_loop_stored hl s k
  have e : Loop.init.current_section = [] := rfl
  rw [hd, e] at this
  rw [this]
  cases last_assigned (assignments [] lines) s k with
  | some v => rfl
  | none => rfl

/-- The section of an assignment of a text has no `.` in its name. -/
theorem assignment_section_no_dot {lines : List Str} {a : Str × Str × Str}
    (h : a ∈ assignments [] lines) : '.' ∉ a.1 := by
  rcases mem_assignments_section h with e | e
  · rw [e]; simp
  · exact identifier_no_dot (headers_identifier e)

/-- Claim C4 (last write wins): when a text loads and its assignments are
`earlier`, then `k = v` in section `s`, then `later` without any assignment to
`k` in `s`, reading `s.k` as a string gives `v`, and section `s` of the table
holds one single entry for `k`, with value `v`: whatever `earlier` assigned to
`k` in `s` is gone. -/
theorem last_write_wins (iteration : List Str → List Str) (lines : List Str) (data : Data)
    (s k v : Str) (earlier later : List (Str × Str × Str))
    (hload : parse_lines lines = .ok data)
    (hsplit : assignments [] lines = earlier ++ (s, k, v) :: later)
    (hlast : ∀ a ∈ later, ¬ (a.1 = s ∧ a.2.1 = k)) :
    (get_value iteration data (s ++ '.' :: k) : Except Exception Str) = .ok v ∧
    ∃ vars, data.find s = some vars ∧
      List.filter (fun e => decide (e.1 = k)) vars = [(k, v)] := by
  have hst : stored data s k = some v := by
    rw [parse_lines_stored hload, hsplit]
    exact last_assigned_split earlier later s k v hlast
  have hmem : (s, k, v) ∈ assignments [] lines := by rw [hsplit]; simp
  have hdot : '.' ∉ s := assignment_section_no_dot hmem
  refine ⟨get_value_string iteration data s k v hdot hst, ?_⟩
  obtain ⟨st, hl, hd⟩ := parse_lines_ok hload
  have hw := parse_loop_well_keyed hl well_keyed_init
  rw [hd] at hw
  simp only [stored] at hst
  cases hf : UMap.find data s with
  | none => rw [hf] at hst; simp at hst
  | some vars =>
    rw [hf] at hst
    exact ⟨vars, rfl, filter_key_eq vars k v (hw.2 s vars hf) hst⟩

theorem last_write_wins_witness :
    parse_lines ["[s]".toList, "k = old".toList, "j = 1".toList, "k = new".toList]
      = .ok [("s".toList, [("k".toList, "new".toList), ("j".toList, "1".toList)])] ∧
    assignments [] ["[s]".toList, "k = old".toList, "j = 1".toList, "k = new".toList]
      = [("s".toList, "k".toList, "old".toList), ("s".toList, "j".toList, "1".toList)]
          ++ ("s".toList, "k".toList, "new".toList) :: [] ∧
    ((get_value id [("s".toList, [("k".toList, "new".toList), ("j".toList, "1".toList)])]
        ("s".toList ++ '.' :: "k".toList) : Except Exception Str) = .ok "new".toList ∧
      ∃ vars, UMap.find [("s".toList, [("k".toList, "new".toList), ("j".toList, "1".toList)])]
          "s".toList = some vars ∧
        List.filter (fun e => decide (e.1 = "k".toList)) vars = [("k".toList, "new".toList)]) :=
  ⟨by decide, by decide,
    last_write_wins id ["[s]".toList, "k = old".toList, "j = 1".toList, "k = new".toList] _
      "s".toList "k".toList "new".toList
      [("s".toList, "k".toList, "old".toList), ("s".toList, "j".toList, "1".toList)] []
      (by decide) (by decide) (by simp)⟩

theorem last_assigned_isSome_iff (l : List (Str × Str × Str)) (s k : Str) :
    (∃ v, last_assigned l s k = some v) ↔ ∃ v, (s, k, v) ∈ l := by
  constructor
  · rintro ⟨v, hv⟩
    exact ⟨v, last_assigned_some_mem hv⟩
  · rintro ⟨v, hv⟩
    cases h : last_assigned l s k with
    | some w => exact ⟨w, rfl⟩
    | none =>
      exact absurd ⟨rfl, rfl⟩ ((last_assigned_none_iff l s k).mp h _ hv)

/-- Claim C5 (repeated headers merge): when a text loads, every section name
`s` that occurs in a header, however often, is the key of exactly one entry of
the table; the keys of that section are pairwise distinct, they are the keys
assigned while `s` was in force (under any occurrence of its header), and each
holds the value of its last assignment. -/
theorem repeated_headers_merge (lines : List Str) (data : Data) (s : Str)
    (hload : parse_lines lines = .ok data) (hs : s ∈ headers lines) :
    ∃ vars, data.find s = some vars ∧
      List.filter (fun e => decide (e.1 = s)) data = [(s, vars)] ∧ vars.keys.Nodup ∧
      (∀ k, k ∈ vars.keys ↔ ∃ v, (s, k, v) ∈ assignments [] lines) ∧
      (∀ k, vars.find k = last_assigned (assignments [] lines) s k) := by
  obtain ⟨st, hl, hd⟩ := parse_lines_ok hload
  have hw := parse_loop_well_keyed hl well_keyed_init
  have hsome := parse_loop_find_isSome hl s (Or.inr hs)
  rw [hd] at hw hsome
  obtain ⟨vars, hf⟩ := Option.isSome_iff_exists.mp hsome
  have hfind : ∀ k, vars.find k = last_assigned (assignments [] lines) s k := by
    intro k
    have := parse_lines_stored hload s k
    simp only [stored, hf] at this
    exact this
  refine ⟨vars, hf, filter_key_eq data s vars hw.1 hf, hw.2 s vars hf, ?_, hfind⟩
  intro k
  rw [← last_assigned_isSome_iff, ← hfind k]
  constructor
  · intro hk
    cases h : vars.find k with
    | some v => exact ⟨v, rfl⟩
    | none => exact absurd hk ((find_eq_none_iff vars k).mp h)
  · rintro ⟨v, hv⟩
    by_contra hn
    rw [(find_eq_none_iff vars k).mpr hn] at hv
    exact absurd hv (by simp)

theorem repeated_headers_merge_witness :
    parse_lines ["[a]".toList, "x = 1".toList, "[b]".toList, "[a]".toList, "y = 2".toList,
        "x = 3".toList]
      = .ok [("a".toList, [("x".toList, "3".toList), ("y".toList, "2".toList)]),
             ("b".toList, [])] ∧
    "a".toList ∈ headers ["[a]".toList, "x = 1".toList, "[b]".toList, "[a]".toList,
        "y = 2".toList, "x = 3".toList] ∧
    (∃ vars, UMap.find [("a".toList, [("x".toList, "3".toList), ("y".toList, "2".toList)]),
          ("b".toList, [])] "a".toList = some vars ∧
        List.filter (fun e => decide (e.1 = "a".toList))
          [("a".toList, [("x".toList, "3".toList), ("y".toList, "2".toList)]),
            ("b".toList, [])] = [("a".toList, vars)] ∧ (UMap.keys vars).Nodup ∧
        (∀ k, k ∈ UMap.keys vars ↔ ∃ v, ("a".toList, k, v) ∈ assignments []
          ["[a]".toList, "x = 1".toList, "[b]".toList, "[a]".toList, "y = 2".toList,
            "x = 3".toList]) ∧
        (∀ k, UMap.find vars k = last_assigned (assignments [] ["[a]".toList, "x = 1".toList,
          "[b]".toList, "[a]".toList, "y = 2".toList, "x = 3".toList]) "a".toList k)) :=
  ⟨by decide, by decide,
    repeated_headers_merge ["[a]".toList, "x = 1".toList, "[b]".toList, "[a]".toList,
      "y = 2".toList, "x = 3".toList] _ "a".toList (by decide) (by decide)⟩

/-! ## Round trip of a value -/

/-- A text that loads has no line of shape `other`. -/
theorem parse_loop_no_other {st st1 : Loop} {lines : List Str}
    (h : parse_loop st lines = .ok st1) : ∀ line ∈ lines, shape line ≠ .other := by
  induction lines generalizing st with
  | nil => simp
  | cons line rest ih =>
    rw [parse_loop_cons] at h
    cases hl : parse_line st line with
    | error e => rw [hl] at h; simp at h
    | ok st2 =>
      rw [hl] at h
      intro l hmem
      rcases List.mem_cons.mp hmem with e | e
      · rw [e]
        rcases parse_line_ok hl with ⟨hs, _⟩ | ⟨n, hs, _⟩ | ⟨k, v, hs, _, _⟩ <;> simp [hs]
      · exact ih h l e

theorem dropWhile_of_head_neg {p : Char → Bool} {s : Str} (h : ∀ x t, s = x :: t → p x = false) :
    s.dropWhile p = s := by
  cases s with
  | nil => rfl
  | cons x t =>
    have := h x t rfl
    exact List.dropWhile_cons_of_neg (by simp [this])

theorem takeWhile_of_head_neg {p : Char → Bool} {s : Str} (h : ∀ x t, s = x :: t → p x = false) :
    s.takeWhile p = [] := by
  cases s with
  | nil => rfl
  | cons x t =>
    have := h x t rfl
    exact List.takeWhile_cons_of_neg (by simp [this])

/-- The assignment pattern on a line made of white space, an identifier,
white space, `=` and a text. -/
theorem variable_form_line (w1 k w2 rest : Str) (hw1 : ∀ x ∈ w1, isspace x = true)
    (hw2 : ∀ x ∈ w2, isspace x = true) (hk : is_identifier k = true) :
    variable_form (w1 ++ (k ++ (w2 ++ '=' :: rest)))
      = value_match (rest.dropWhile isspace) [(1, k)] := by
  simp only [is_identifier, Bool.and_eq_true, Bool.not_eq_true', List.all_eq_true] at hk
  obtain ⟨hne, hword⟩ := hk
  have hhead : ∀ x t, w2 ++ '=' :: rest = x :: t → Atom.test .word x = false := by
    intro x t e
    cases w2 with
    | nil =>
      simp only [List.nil_append, List.cons.injEq] at e
      rw [← e.1]; decide
    | cons y u =>
      simp only [List.cons_append, List.cons.injEq] at e
      rw [← e.1]
      exact (space_ne (hw2 y (by simp))).1
  have hkhead : ∀ x t, k ++ (w2 ++ '=' :: rest) = x :: t → isspace x = false := by
    intro x t e
    cases k with
    | nil => simp at hne
    | cons y u =>
      simp only [List.cons_append, List.cons.injEq] at e
      rw [← e.1]
      exact (word_ne (hword y (by simp))).1
  have h1 : List.dropWhile isspace (w1 ++ (k ++ (w2 ++ '=' :: rest)))
      = k ++ (w2 ++ '=' :: rest) := by
    rw [List.dropWhile_append_of_pos hw1, dropWhile_of_head_neg hkhead]
  have h2 : List.takeWhile (Atom.test .word) (k ++ (w2 ++ '=' :: rest)) = k := by
    rw [List.takeWhile_append_of_pos hword, takeWhile_of_head_neg hhead, List.append_nil]
  have h3 : List.dropWhile (Atom.test .word) (k ++ (w2 ++ '=' :: rest))
      = w2 ++ '=' :: rest := by
    rw [List.dropWhile_append_of_pos hword, dropWhile_of_head_neg hhead]
  have h4 : List.dropWhile isspace (w2 ++ '=' :: rest) = '=' :: rest := by
    rw [List.dropWhile_append_of_pos hw2]
    exact List.dropWhile_cons_of_neg (by decide)
  simp only [variable_form, h1, h2, h3, h4, hne]
  simp

/-- A line that starts, after white space, with a word character is neither
skipped nor a section header. -/
theorem word_line_not_skip {line : Str} {x : Char} {t : Str}
    (hd : line.dropWhile isspace = x :: t) (hx : Atom.test .word x = true) :
    (comment_form line || line.isEmpty) = false ∧ section_name line = none := by
  have hne := dropWhile_cons_ne_nil hd
  constructor
  · cases hc : comment_form line with
    | true =>
      obtain ⟨t2, hd2⟩ := comment_form_head hc
      rw [hd] at hd2
      simp only [List.cons.injEq] at hd2
      exact absurd hd2.1 (word_ne hx).2.1
    | false => cases line with
      | nil => exact absurd rfl hne
      | cons _ _ => rfl
  · cases hs : section_name line with
    | none => rfl
    | some n =>
      obtain ⟨t2, hd2⟩ := section_name_head hs
      rw [hd] at hd2
      simp only [List.cons.injEq] at hd2
      exact absurd hd2.1 (word_ne hx).2.2.1

/-- The shape of a line made of white space, an identifier `k`, white space,
`=` and a text without `;`: an assignment of the stripped text to `k`, unless
the line does not match. -/
theorem shape_assignment_line (w1 k w2 rest : Str) (hw1 : ∀ x ∈ w1, isspace x = true)
    (hw2 : ∀ x ∈ w2, isspace x = true) (hk : is_identifier k = true) (hs : ';' ∉ rest) :
    shape (w1 ++ (k ++ (w2 ++ '=' :: rest))) = .assignment k (trim rest) ∨
    shape (w1 ++ (k ++ (w2 ++ '=' :: rest))) = .other := by
  have hform := variable_form_line w1 k w2 rest hw1 hw2 hk
  have hk2 := hk
  simp only [is_identifier, Bool.and_eq_true, Bool.not_eq_true', List.all_eq_true] at hk2
  obtain ⟨x, u, hku⟩ : ∃ x u, k = x :: u := by
    cases k with
    | nil => simp at hk2
    | cons x u => exact ⟨x, u, rfl⟩
  have hx : Atom.test .word x = true := hk2.2 x (by rw [hku]; simp)
  have hd : List.dropWhile isspace (w1 ++ (k ++ (w2 ++ '=' :: rest)))
      = x :: (u ++ (w2 ++ '=' :: rest)) := by
    rw [List.dropWhile_append_of_pos hw1, hku, List.cons_append]
    exact List.dropWhile_cons_of_neg (by simp [(word_ne hx).1])
  obtain ⟨hskip, hsec⟩ := word_line_not_skip hd hx
  rw [shape_eq, hskip, hsec, hform]
  cases hv : value_match (List.dropWhile isspace rest) [(1, k)] with
  | none => exact Or.inr rfl
  | some m =>
    left
    have hsemi : ';' ∉ List.dropWhile isspace rest :=
      fun hm => hs ((List.dropWhile_sublist isspace).subset hm)
    rw [value_match_no_semicolon _ _ _ hv hsemi]
    rfl

/-- Claim C1 (round trip of raw text): in a text that loads, let a line be
made of white space, an identifier `k`, white space, `=` and a text `V`
without `;`, let `s` be the section in force at that line, and let no later
line assign `k` in `s`; then reading `s.k` as a string succeeds and gives `V`
without its leading and trailing white space, the inside of `V` unchanged. -/
theorem round_trip (iteration : List Str → List Str) (pre post : List Str)
    (w1 k w2 V : Str) (data : Data)
    (hload : parse_lines (pre ++ (w1 ++ (k ++ (w2 ++ '=' :: V))) :: post) = .ok data)
    (hw1 : ∀ x ∈ w1, isspace x = true) (hw2 : ∀ x ∈ w2, isspace x = true)
    (hk : is_identifier k = true) (hV : ';' ∉ V)
    (hlast : ∀ a ∈ assignments (section_in_force [] pre) post,
      ¬ (a.1 = section_in_force [] pre ∧ a.2.1 = k)) :
    (get_value iteration data (section_in_force [] pre ++ '.' :: k) : Except Exception Str)
      = .ok (trim V) := by
  obtain ⟨st, hl, _⟩ := parse_lines_ok hload
  have hshape : shape (w1 ++ (k ++ (w2 ++ '=' :: V))) = .assignment k (trim V) := by
    rcases shape_assignment_line w1 k w2 V hw1 hw2 hk hV with h | h
    · exact h
    · exact absurd h (parse_loop_no_other hl _ (by simp))
  have hsplit : assignments [] (pre ++ (w1 ++ (k ++ (w2 ++ '=' :: V))) :: post)
      = assignments [] pre
        ++ (section_in_force [] pre, k, trim V) :: assignments (section_in_force [] pre) post := by
    rw [assignments_append]
    simp only [assignments, hshape]
  have hst : stored data (section_in_force [] pre) k = some (trim V) := by
    rw [parse_lines_stored hload, hsplit]
    exact last_assigned_split _ _ _ k _ hlast
  have hmem : (section_in_force [] pre, k, trim V)
      ∈ assignments [] (pre ++ (w1 ++ (k ++ (w2 ++ '=' :: V))) :: post) := by
    rw [hsplit]; simp
  exact get_value_string iteration data _ k _ (assignment_section_no_dot hmem) hst

theorem round_trip_witness :
    parse_lines (["; demo".toList, "[Section2]".toList]
        ++ ([] ++ ("var2".toList ++ (" ".toList ++ '=' :: "  hello   world \t".toList)))
          :: ["other = 1".toList, "[Section3]".toList, "var2 = 7".toList])
      = .ok [("Section2".toList, [("var2".toList, "hello   world".toList),
              ("other".toList, "1".toList)]),
             ("Section3".toList, [("var2".toList, "7".toList)])] ∧
    (get_value id [("Section2".toList, [("var2".toList, "hello   world".toList),
              ("other".toList, "1".toList)]),
             ("Section3".toList, [("var2".toList, "7".toList)])]
        (section_in_force [] ["; demo".toList, "[Section2]".toList] ++ '.' :: "var2".toList)
        : Except Exception Str) = .ok (trim "  hello   world \t".toList) ∧
    trim "  hello   world \t".toList = "hello   world".toList ∧
    section_in_force [] ["; demo".toList, "[Section2]".toList] = "Section2".toList :=
  ⟨by decide,
    round_trip id ["; demo".toList, "[Section2]".toList]
      ["other = 1".toList, "[Section3]".toList, "var2 = 7".toList]
      [] "var2".toList " ".toList "  hello   world \t".toList _
      (by decide) (by decide) (by decide) (by decide) (by decide) (by decide),
    by decide, by decide⟩

/-! ## The value of an assignment line -/

theorem dropWhile_takeWhile_comm (p q : Char → Bool) (s : Str)
    (h : ∀ x, p x = true → q x = true) :
    List.dropWhile p (List.takeWhile q s) = List.takeWhile q (List.dropWhile p s) := by
  induction s with
  | nil => rfl
  | cons x t ih =>
    by_cases hp : p x = true
    · rw [List.takeWhile_cons_of_pos (h x hp), List.dropWhile_cons_of_pos hp,
        List.dropWhile_cons_of_pos hp, ih]
    · rw [List.dropWhile_cons_of_neg hp]
      by_cases hq : q x = true
      · rw [List.takeWhile_cons_of_pos hq, List.dropWhile_cons_of_neg hp]
      · rw [List.takeWhile_cons_of_neg hq]; rfl

/-- The parts of a line that matches the assignment pattern. -/
theorem variable_form_parts {line : Str} {m : Captures} (h : variable_form line = some m) :
    ∃ rest, after_first '=' line = rest ∧
      (∀ x ∈ rest, x ∈ line) ∧
      value_match (rest.dropWhile isspace)
        [(1, (line.dropWhile isspace).takeWhile (Atom.test .word))] = some m := by
  simp only [variable_form] at h
  by_cases hk : ((line.dropWhile isspace).takeWhile (Atom.test .word)).isEmpty = true
  · simp [hk] at h
  · simp only [hk] at h
    rcases list_cases (List.dropWhile isspace
        (List.dropWhile (Atom.test .word) (List.dropWhile isspace line))) with hd | ⟨y, rest, hd⟩
    · simp [hd] at h
    · rw [hd] at h
      by_cases hy : y = '='
      · subst hy
        simp only [beq_self_eq_true, Bool.false_eq_true, if_false, if_true] at h
        have e1 := List.takeWhile_append_dropWhile isspace line
        have e2 := List.takeWhile_append_dropWhile (Atom.test .word)
          (List.dropWhile isspace line)
        have e3 := List.takeWhile_append_dropWhile isspace
          (List.dropWhile (Atom.test .word) (List.dropWhile isspace line))
        rw [hd] at e3
        have hline : line = List.takeWhile isspace line
            ++ (List.takeWhile (Atom.test .word) (List.dropWhile isspace line)
              ++ (List.takeWhile isspace
                    (List.dropWhile (Atom.test .word) (List.dropWhile isspace line))
                ++ '=' :: rest)) := by
          rw [e3, e2, e1]
        refine ⟨rest, ?_, ?_, h⟩
        · unfold after_first
          have hdrop : List.dropWhile (fun x => x != '=') line = '=' :: rest := by
            conv_lhs => rw [hline]
            rw [List.dropWhile_append_of_pos, List.dropWhile_append_of_pos,
              List.dropWhile_append_of_pos]
            · exact List.dropWhile_cons_of_neg (by simp)
            · intro x hx
              have := (space_ne (List.mem_takeWhile_imp hx)).2.2.2.2.1
              simp [this]
            · intro x hx
              have := (word_ne (List.mem_takeWhile_imp hx)).2.2.2.2.1
              simp [this]
            · intro x hx
              have := (space_ne (List.mem_takeWhile_imp hx)).2.2.2.2.1
              simp [this]
          rw [hdrop]; rfl
        · intro x hx
          rw [hline]
          simp [hx]
      · simp [hy] at h

/-- The value recorded for a line without line terminator that matches the
assignment pattern. -/
theorem variable_form_value {line : Str} {m : Captures} (h : variable_form line = some m)
    (hcr : '\r' ∉ line) (hlf : '\n' ∉ line) :
    sub_match m 2 = trim (before_first ';' (after_first '=' line)) := by
  obtain ⟨rest, hrest, hsub, hv⟩ := variable_form_parts h
  have hdot : ∀ x ∈ List.dropWhile isspace rest, Atom.test .dot x = true := by
    intro x hx
    have hx2 : x ∈ line := hsub x ((List.dropWhile_sublist isspace).subset hx)
    have h1 : x ≠ '\n' := fun e => hlf (e ▸ hx2)
    have h2 : x ≠ '\r' := fun e => hcr (e ▸ hx2)
    simp [Atom.test, h1, h2]
  rw [value_match_no_terminator _ _ hdot] at hv
  simp only [Option.some.injEq] at hv
  rw [hrest, ← hv]
  simp only [trim, before_first]
  rw [dropWhile_takeWhile_comm isspace (fun x => x != ';') rest (by
    intro x hx
    have := (space_ne hx).2.1
    simp [this])]
  rfl

/-- The iteration of the loop on an assignment line read inside a section. -/
theorem parse_line_assignment (st : Loop) (line : Str) (m : Captures)
    (hm : regex_match line variable_regex = some m) (hcur : st.current_section ≠ []) :
    parse_line st line
      = .ok { st with line_number := st.line_number + 1
                      data := assign st.data st.current_section (sub_match m 1)
                        (sub_match m 2) } := by
  rw [regex_match_variable] at hm
  obtain ⟨hskip, hsec⟩ := not_skip_of_assignment hm
  rw [is_skip_eq] at hskip
  rw [parse_line_eq, shape_eq, hskip, hsec, hm]
  have : st.current_section.isEmpty = false := by
    cases hc : st.current_section with
    | nil => exact absurd hc hcur
    | cons _ _ => rfl
  simp [this]

/-- Claim C3, amended: for every line without carriage return (and, as every
line read by `std::getline`, without `\n`) that matches the assignment
pattern, the iteration of the loop inside a section stores, under the key
`match[1]`, the text after the first `=` cut at the first `;` and stripped of
leading and trailing white space; and the line `x = 5 ; note` stores `5`
under `x`. -/
theorem assignment_value :
    (∀ (st : Loop) (line : Str) (m : Captures), '\r' ∉ line → '\n' ∉ line →
      regex_match line variable_regex = some m → st.current_section ≠ [] →
      ∃ st1, parse_line st line = .ok st1 ∧
        stored st1.data st.current_section (sub_match m 1)
          = some (trim (before_first ';' (after_first '=' line)))) ∧
    parse_lines ["[s]".toList, "x = 5 ; note".toList]
      = .ok [("s".toList, [("x".toList, "5".toList)])] := by
  refine ⟨?_, by decide⟩
  intro st line m hcr hlf hm hcur
  refine ⟨_, parse_line_assignment st line m hm hcur, ?_⟩
  rw [regex_match_variable] at hm
  simp only [stored_assign, and_self, if_true]
  rw [variable_form_value hm hcr hlf]

theorem assignment_value_witness :
    '\r' ∉ " key =  a b ;; c = d".toList ∧ '\n' ∉ " key =  a b ;; c = d".toList ∧
    regex_match " key =  a b ;; c = d".toList variable_regex
      = some [(2, "a b".toList), (1, "key".toList)] ∧
    trim (before_first ';' (after_first '=' " key =  a b ;; c = d".toList)) = "a b".toList ∧
    ∃ st1, parse_line { current_section := "s".toList, line_number := 3, data := [] }
        " key =  a b ;; c = d".toList = .ok st1 ∧
      stored st1.data "s".toList (sub_match [(2, "a b".toList), (1, "key".toList)] 1)
        = some (trim (before_first ';' (after_first '=' " key =  a b ;; c = d".toList))) :=
  ⟨by decide, by decide, by decide, by decide,
    assignment_value.1 { current_section := "s".toList, line_number := 3, data := [] }
      " key =  a b ;; c = d".toList [(2, "a b".toList), (1, "key".toList)]
      (by decide) (by decide) (by decide) (by decide)⟩

/-- Claim C3 as stated fails on a line with a carriage return: the line
`x = a;b\r;c` matches the assignment pattern, the text after its first `=`
cut at the first `;` and stripped is `a`, and the value stored is `a;b`. -/
theorem assignment_value_counterexample :
    regex_match "x = a;b\r;c".toList variable_regex
      = some [(2, "a;b".toList), (1, "x".toList)] ∧
    trim (before_first ';' (after_first '=' "x = a;b\r;c".toList)) = "a".toList ∧
    parse_lines ["[s]".toList, "x = a;b\r;c".toList]
      = .ok [("s".toList, [("x".toList, "a;b".toList)])] := by
  refine ⟨by decide, by decide, by decide⟩

/-! ## Where loading fails -/

/-- The outcome of the loop does not depend on the line counter. -/
theorem outcome_parse_loop (st st2 : Loop) (lines : List Str)
    (hc : st.current_section = st2.current_section) (hd : st.data = st2.data) :
    outcome (parse_loop st lines) = outcome (parse_loop st2 lines) := by
  induction lines generalizing st st2 with
  | nil => simp [parse_loop, outcome, hc, hd]
  | cons line rest ih =>
    rw [parse_loop_cons, parse_loop_cons, parse_line_eq, parse_line_eq]
    cases shape line with
    | skip => exact ih _ _ hc hd
    | header n => exact ih _ _ rfl (by simp [hd])
    | assignment k v =>
      rw [hc]
      cases hcur : st2.current_section.isEmpty with
      | true => rfl
      | false => exact ih _ _ rfl (by simp [hd])
    | other => rfl

theorem parse_lines_eq_ok_iff (lines : List Str) (data : Data) :
    parse_lines lines = .ok data
      ↔ ∃ cur, outcome (parse_loop Loop.init lines) = some (cur, data) := by
  unfold parse_lines outcome
  cases parse_loop Loop.init lines with
  | ok st => simp
  | error e => simp

/-- A skipped line leaves the outcome of the loop as it is. -/
theorem outcome_insert_skip (pre post : List Str) (l : Str) (hl : is_skip l = true) :
    outcome (parse_loop Loop.init (pre ++ l :: post))
      = outcome (parse_loop Loop.init (pre ++ post)) := by
  rw [parse_loop_append, parse_loop_append]
  cases parse_loop Loop.init pre with
  | error e => rfl
  | ok st =>
    simp only
    rw [parse_loop_cons, parse_line_eq]
    have : shape l = .skip := by simp [shape, hl]
    rw [this]
    exact outcome_parse_loop _ _ post rfl rfl

/-- Claim C8, amended: a line that is empty, or that consists of optional
white space, a `;` and a text without carriage return (nor `\n`, which no line
read by `std::getline` holds), can be inserted or deleted at any position: the
one text loads if and only if the other does, and into the same table. -/
theorem comment_lines_inert (pre post : List Str) (l : Str) (data : Data)
    (hl : l = [] ∨ ∃ w t, l = w ++ ';' :: t ∧ (∀ x ∈ w, isspace x = true) ∧
      '\r' ∉ t ∧ '\n' ∉ t) :
    parse_lines (pre ++ l :: post) = .ok data ↔ parse_lines (pre ++ post) = .ok data := by
  have hskip : is_skip l = true := by
    rw [is_skip_eq]
    rcases hl with e | ⟨w, t, e, hw, hcr, hlf⟩
    · rw [e]; rfl
    · have hd : List.dropWhile isspace l = ';' :: t := by
        rw [e, List.dropWhile_append_of_pos hw]
        exact List.dropWhile_cons_of_neg (by decide)
      have ht : t.all (Atom.test .dot) = true := by
        rw [List.all_eq_true]
        intro x hx
        have h1 : x ≠ '\n' := fun e => hlf (e ▸ hx)
        have h2 : x ≠ '\r' := fun e => hcr (e ▸ hx)
        simp [Atom.test, h1, h2]
      simp [comment_form, hd, ht]
  rw [parse_lines_eq_ok_iff, parse_lines_eq_ok_iff, outcome_insert_skip pre post l hskip]

theorem comment_lines_inert_witness :
    (" \t; port = 81 ; [x]".toList = []
      ∨ ∃ w t, " \t; port = 81 ; [x]".toList = w ++ ';' :: t ∧ (∀ x ∈ w, isspace x = true) ∧
        '\r' ∉ t ∧ '\n' ∉ t) ∧
    parse_lines (["[net]".toList] ++ ["port = 80".toList])
      = .ok [("net".toList, [("port".toList, "80".toList)])] ∧
    (parse_lines (["[net]".toList] ++ " \t; port = 81 ; [x]".toList :: ["port = 80".toList])
        = .ok [("net".toList, [("port".toList, "80".toList)])]
      ↔ parse_lines (["[net]".toList] ++ ["port = 80".toList])
        = .ok [("net".toList, [("port".toList, "80".toList)])]) :=
  ⟨Or.inr ⟨" \t".toList, " port = 81 ; [x]".toList, by decide, by decide, by decide, by decide⟩,
    by decide,
    comment_lines_inert ["[net]".toList] ["port = 80".toList] " \t; port = 81 ; [x]".toList _
      (Or.inr ⟨" \t".toList, " port = 81 ; [x]".toList, by decide, by decide, by decide,
        by decide⟩)⟩

/-- Claim C8 as stated fails when the text after the `;` holds a carriage
return, as every comment line of a file with CR LF line ends does: the text
`[a]` loads, and with the line `; note\r` inserted after it loading fails. -/
theorem comment_lines_inert_counterexample :
    "; note\r".toList = [] ++ ';' :: " note\r".toList ∧
    parse_lines ["[a]".toList] = .ok [("a".toList, [])] ∧
    parse_lines ["[a]".toList, "; note\r".toList]
      = .error (.runtime_error "Syntax error at line 2".toList) := by
  refine ⟨by decide, by decide, by decide⟩

/-! ## Lines of white space -/

/-- A non-empty line of white space matches none of the three patterns. -/
theorem shape_space_line (l : Str) (hne : l ≠ []) (hws : ∀ x ∈ l, isspace x = true) :
    shape l = .other := by
  have hd : List.dropWhile isspace l = [] := List.dropWhile_eq_nil_iff.mpr hws
  have he : l.isEmpty = false := by
    cases l with
    | nil => exact absurd rfl hne
    | cons _ _ => rfl
  rw [shape_eq]
  simp [comment_form, section_name, variable_form, hd, he]

/-- Claim C9, amended: a non-empty line made only of white space is not
inert; a text that holds one never loads, and inserted after lines that load
it makes loading fail with `Syntax error at line N`, `N` being its 1-based
number.  Only the empty line is skipped as blank. -/
theorem whitespace_line_rejected (pre post : List Str) (l : Str) (hne : l ≠ [])
    (hws : ∀ x ∈ l, isspace x = true) :
    (∀ data, parse_lines (pre ++ l :: post) ≠ .ok data) ∧
    (∀ data, parse_lines pre = .ok data →
      parse_lines (pre ++ l :: post)
        = .error (.runtime_error ("Syntax error at line ".toList
            ++ to_string (pre.length + 1)))) := by
  have hshape := shape_space_line l hne hws
  constructor
  · intro data hd
    obtain ⟨st, hst, _⟩ := parse_lines_ok hd
    exact parse_loop_no_other hst l (by simp) hshape
  · intro data hd
    obtain ⟨st, hst, _⟩ := parse_lines_ok hd
    have hln := parse_loop_line_number hst
    unfold parse_lines
    rw [parse_loop_append, hst]
    simp only
    rw [parse_loop_cons, parse_line_eq, hshape]
    simp [hln, Loop.init]

theorem whitespace_line_rejected_witness :
    " \t ".toList ≠ [] ∧ (∀ x ∈ " \t ".toList, isspace x = true) ∧
    parse_lines ["[a]".toList, "x = 1".toList]
      = .ok [("a".toList, [("x".toList, "1".toList)])] ∧
    ((∀ data, parse_lines (["[a]".toList, "x = 1".toList] ++ " \t ".toList :: ["y = 2".toList])
        ≠ .ok data) ∧
      (∀ data, parse_lines ["[a]".toList, "x = 1".toList] = .ok data →
        parse_lines (["[a]".toList, "x = 1".toList] ++ " \t ".toList :: ["y = 2".toList])
          = .error (.runtime_error ("Syntax error at line ".toList
              ++ to_string (["[a]".toList, "x = 1".toList].length + 1))))) :=
  ⟨by decide, by decide, by decide,
    whitespace_line_rejected ["[a]".toList, "x = 1".toList] ["y = 2".toList] " \t ".toList
      (by decide) (by decide)⟩

/-- Claim C9 as stated fails: the text `[a]` loads, and with a line of one
space and one tab inserted after it loading fails. -/
theorem whitespace_line_counterexample :
    parse_lines ["[a]".toList] = .ok [("a".toList, [])] ∧
    parse_lines ["[a]".toList, " \t".toList]
      = .error (.runtime_error "Syntax error at line 2".toList) := by
  refine ⟨by decide, by decide⟩

/-! ## Lines of a text -/

/-- No line read by `std::getline` holds a `\n`. -/
theorem getlines_no_newline (text : Str) : ∀ l ∈ getlines text, '\n' ∉ l := by
  induction text with
  | nil => simp [getlines]
  | cons c rest ih =>
    by_cases hc : c = '\n'
    · simp only [getlines, hc, if_true, List.mem_cons]
      rintro l (e | e)
      · rw [e]; simp
      · exact ih l e
    · simp only [getlines, hc, if_false]
      cases hg : getlines rest with
      | nil =>
        intro l hl
        simp only [List.mem_singleton] at hl
        rw [hl]
        simp only [List.mem_singleton]
        exact fun e => hc e.symm
      | cons l1 ls =>
        rw [hg] at ih
        intro l hl
        rcases List.mem_cons.mp hl with e | e
        · rw [e]
          intro hm
          rcases List.mem_cons.mp hm with e2 | e2
          · exact hc e2.symm
          · exact ih l1 (by simp) e2
        · exact ih l (by simp [e])


theorem getlines_line (l rest : Str) (h : '\n' ∉ l) :
    getlines (l ++ '\n' :: rest) = l :: getlines rest := by
  induction l with
  | nil => simp [getlines]
  | cons c t ih =>
    have hc : c ≠ '\n' := fun e => h (by simp [e])
    have ht : '\n' ∉ t := fun e => h (by simp [e])
    show getlines (c :: (t ++ '\n' :: rest)) = (c :: t) :: getlines rest
    rw [getlines, if_neg hc, ih ht]

/-- Every list of lines without `\n` is read from some text: the text in
which each line is followed by `\n`. -/
theorem getlines_unlines (lines : List Str) (h : ∀ l ∈ lines, '\n' ∉ l) :
    getlines (lines.flatMap (fun l => l ++ ['\n'])) = lines := by
  induction lines with
  | nil => rfl
  | cons l rest ih =>
    have hl : '\n' ∉ l := h l (by simp)
    have hr : ∀ l1 ∈ rest, '\n' ∉ l1 := fun l1 h1 => h l1 (by simp [h1])
    simp only [List.flatMap_cons, List.append_assoc, List.singleton_append]
    rw [getlines_line l _ hl, ih hr]

/-- Loading a file that opens is running the loop on its lines. -/
theorem parse_file_some (filename text : Str) :
    parse_file filename (some text) = parse_lines (getlines text) := rfl

/-! ## The parts of a path -/

/-- A path with a `.` is its text before the first `.`, the `.` and the text
after it. -/
theorem split_first_dot {key : Str} (h : '.' ∈ key) :
    key = before_first '.' key ++ '.' :: after_first '.' key ∧
      '.' ∉ before_first '.' key := by
  have h1 := List.takeWhile_append_dropWhile (fun x => x != '.') key
  have hne : List.dropWhile (fun x => x != '.') key ≠ [] := by
    intro e
    have := List.dropWhile_eq_nil_iff.mp e '.' h
    simp at this
  obtain ⟨x, t, hd⟩ : ∃ x t, List.dropWhile (fun x => x != '.') key = x :: t := by
    rcases list_cases (List.dropWhile (fun x => x != '.') key) with e | e
    · exact absurd e hne
    · exact e
  have hx : x = '.' := by
    have := List.head_dropWhile_not (fun x => x != '.') key hne
    simpa [hd] using this
  constructor
  · subst hx
    simp only [before_first, after_first, hd, List.drop_one, List.tail_cons]
    rw [← hd, h1]
  · intro hm
    have := List.mem_takeWhile_imp hm
    simp at this

theorem find_dot_isSome {key : Str} (h : (find_dot key).isSome = true) : '.' ∈ key := by
  by_contra hn
  rw [find_dot_eq_none hn] at h
  exact absurd h (by simp)

/-- The accessor on a path with a `.`: the text before the first `.` is
looked up as a section, the text after it as a key of that section. -/
theorem get_value_split {T : Type} [ConvertValue T] (iteration : List Str → List Str)
    (data : Data) (key : Str) (h : '.' ∈ key) :
    (get_value iteration data key : Except Exception T)
      = match data.find (before_first '.' key) with
        | none =>
          .error (.invalid_argument
            ("Section '".toList ++ before_first '.' key ++ "' not found.".toList))
        | some vars =>
          match vars.find (after_first '.' key) with
          | none =>
            .error (.invalid_argument ("Variable '".toList ++ after_first '.' key
              ++ "' not found in section '".toList ++ before_first '.' key
              ++ "'. Did you mean one of: ".toList ++ join (iteration vars.keys) ", ".toList))
          | some value => ConvertValue.convert_value value := by
  obtain ⟨hk, hs⟩ := split_first_dot h
  have := get_value_path (T := T) iteration data _ (after_first '.' key) hs
  rw [← hk] at this
  exact this

/-- Claim C11: for every table and every path with a `.`, when the text `s`
before the first `.` is not a section of the table, `get_value` throws the
`invalid_argument` with message `Section 's' not found.`, whatever the text
after the `.` is and for every target type: the section is looked up before
the key, and a missing section is not reported as a missing key. -/
theorem section_not_found {T : Type} [ConvertValue T] (iteration : List Str → List Str)
    (data : Data) (key : Str) (hdot : '.' ∈ key)
    (hs : data.find (before_first '.' key) = none) :
    (get_value iteration data key : Except Exception T)
      = .error (.invalid_argument
          ("Section '".toList ++ before_first '.' key ++ "' not found.".toList)) := by
  rw [get_value_split iteration data key hdot, hs]

theorem section_not_found_witness :
    '.' ∈ "Section9.var1.x".toList ∧
    UMap.find [("Section1".toList, [("var1".toList, "10".toList)])]
      (before_first '.' "Section9.var1.x".toList) = none ∧
    (get_value id [("Section1".toList, [("var1".toList, "10".toList)])]
        "Section9.var1.x".toList : Except Exception Int)
      = .error (.invalid_argument
          ("Section '".toList ++ before_first '.' "Section9.var1.x".toList
            ++ "' not found.".toList)) ∧
    before_first '.' "Section9.var1.x".toList = "Section9".toList :=
  ⟨by decide, by decide,
    section_not_found id [("Section1".toList, [("var1".toList, "10".toList)])]
      "Section9.var1.x".toList (by decide) (by decide),
    by decide⟩

/-! ## What the entries of a loaded table look like -/

/-- Every assignment of a text is read from one of its lines. -/
theorem mem_assignments_line {cur : Str} {lines : List Str} {a : Str × Str × Str}
    (h : a ∈ assignments cur lines) :
    ∃ line ∈ lines, shape line = .assignment a.2.1 a.2.2 := by
  induction lines generalizing cur with
  | nil => simp [assignments] at h
  | cons line rest ih =>
    simp only [assignments] at h
    cases hs : shape line with
    | header m =>
      rw [hs] at h
      obtain ⟨l, hl, hsh⟩ := ih h
      exact ⟨l, List.mem_cons_of_mem _ hl, hsh⟩
    | skip =>
      rw [hs] at h
      obtain ⟨l, hl, hsh⟩ := ih h
      exact ⟨l, List.mem_cons_of_mem _ hl, hsh⟩
    | other =>
      rw [hs] at h
      obtain ⟨l, hl, hsh⟩ := ih h
      exact ⟨l, List.mem_cons_of_mem _ hl, hsh⟩
    | assignment k v =>
      rw [hs] at h
      rcases List.mem_cons.mp h with e | e
      · exact ⟨line, List.mem_cons_self _ _, by rw [hs, e]⟩
      · obtain ⟨l, hl, hsh⟩ := ih e
        exact ⟨l, List.mem_cons_of_mem _ hl, hsh⟩

/-- The key and the value of an assignment line are the two sub-matches of
the assignment pattern. -/
theorem shape_assignment_parts {line k v : Str} (h : shape line = .assignment k v) :
    ∃ m, variable_form line = some m ∧ sub_match m 1 = k ∧ sub_match m 2 = v := by
  rw [shape_eq] at h
  by_cases hs : (comment_form line || line.isEmpty) = true
  · simp [hs] at h
  · simp only [hs] at h
    cases hn : section_name line with
    | some n => rw [hn] at h; simp at h
    | none =>
      rw [hn] at h
      cases hv : variable_form line with
      | none => rw [hv] at h; simp at h
      | some m =>
        rw [hv] at h
        simp only [Bool.false_eq_true, if_false, Shape.assignment.injEq] at h
        exact ⟨m, rfl, h.1, h.2⟩

/-- The two sub-matches of a line that matches the assignment pattern: the
key is an identifier; the value is the start of the text that follows the `=`
and the white space after it, it is followed by an acceptable end of line, and
no shorter start is. -/
theorem variable_form_sub {line : Str} {m : Captures} (h : variable_form line = some m) :
    is_identifier (sub_match m 1) = true ∧
    ∃ rest2, (after_first '=' line).dropWhile isspace = sub_match m 2 ++ rest2 ∧
      tail_ok rest2 = true ∧
      ∀ v1 v2, sub_match m 2 = v1 ++ v2 → v2 ≠ [] → tail_ok (v2 ++ rest2) = false := by
  obtain ⟨rest, hrest, _, hv⟩ := variable_form_parts h
  obtain ⟨v, rest2, hu, _, ht, hr, hmin⟩ := value_match_some _ _ _ hv
  have hk : ¬ ((line.dropWhile isspace).takeWhile (Atom.test .word)).isEmpty = true := by
    intro hk
    simp [variable_form, hk] at h
  have h1 : sub_match m 1 = (line.dropWhile isspace).takeWhile (Atom.test .word) := by
    rw [hr]; rfl
  have h2 : sub_match m 2 = v := by rw [hr]; rfl
  constructor
  · rw [h1]
    simp only [is_identifier, Bool.and_eq_true, Bool.not_eq_true', List.all_eq_true]
    refine ⟨by simpa using hk, fun x hx => List.mem_takeWhile_imp hx⟩
  · rw [h2, hrest]
    exact ⟨rest2, hu, ht, hmin⟩

/-- The value of an assignment line has no white space at its start nor at
its end. -/
theorem variable_form_stripped {line : Str} {m : Captures} (h : variable_form line = some m) :
    (∀ x t, sub_match m 2 = x :: t → isspace x = false) ∧
    (∀ t x, sub_match m 2 = t ++ [x] → isspace x = false) := by
  obtain ⟨_, rest2, hu, ht, hmin⟩ := variable_form_sub h
  constructor
  · intro x t e
    rw [e] at hu
    have hne : List.dropWhile isspace (after_first '=' line) ≠ [] := by rw [hu]; simp
    have := List.head_dropWhile_not isspace (after_first '=' line) hne
    simp only [hu, List.cons_append, List.head_cons] at this
    simpa using this
  · intro t x e
    cases hx : isspace x with
    | false => rfl
    | true =>
      have h1 := hmin t [x] e (by simp)
      rw [tail_ok_append_space [x] rest2 (by simp [hx]), ht] at h1
      exact absurd h1 (by simp)

/-- The value of an assignment line without line terminator holds no `;`. -/
theorem variable_form_no_semicolon {line : Str} {m : Captures}
    (h : variable_form line = some m) (hcr : '\r' ∉ line) (hlf : '\n' ∉ line) :
    ';' ∉ sub_match m 2 := by
  rw [variable_form_value h hcr hlf]
  intro hm
  have h1 : ';' ∈ before_first ';' (after_first '=' line) := by
    simp only [trim] at hm
    exact (List.dropWhile_sublist isspace).subset
      ((List.rdropWhile_prefix isspace _).subset hm)
  have := List.mem_takeWhile_imp h1
  simp at this

/-- Every value stored in a loaded table is that of an assignment of the
text. -/
theorem parse_lines_stored_mem {lines : List Str} {data : Data}
    (h : parse_lines lines = .ok data) {s k v : Str} (hst : stored data s k = some v) :
    (s, k, v) ∈ assignments [] lines := by
  rw [parse_lines_stored h] at hst
  exact last_assigned_some_mem hst

theorem keys_assign (data : Data) (cur k v : Str) :
    (assign data cur k v).keys = (data.index cur).keys := by
  unfold assign
  rw [keys_modify]

/-- The sections of the table after the loop: those present before, the
headers read, and the section in force at the start if it is named. -/
theorem parse_loop_keys {st st1 : Loop} {lines : List Str}
    (h : parse_loop st lines = .ok st1) :
    ∀ s ∈ st1.data.keys, s ∈ st.data.keys ∨ s ∈ headers lines ∨
      (s = st.current_section ∧ s ≠ []) := by
  induction lines generalizing st with
  | nil =>
    simp only [parse_loop, Except.ok.injEq] at h
    intro s hs
    exact Or.inl (h ▸ hs)
  | cons line rest ih =>
    rw [parse_loop_cons] at h
    cases hl : parse_line st line with
    | error e => rw [hl] at h; simp at h
    | ok st2 =>
      rw [hl] at h
      intro s hs
      have h2 := ih h s hs
      simp only [headers]
      rcases parse_line_ok hl with ⟨hsh, e⟩ | ⟨n, hsh, e⟩ | ⟨k, v, hsh, hcur, e⟩
      · rw [hsh]
        rw [e] at h2
        exact h2
      · rw [hsh]
        rw [e] at h2
        simp only at h2
        rcases h2 with h2 | h2 | h2
        · rw [keys_index] at h2
          by_cases hn : n ∈ UMap.keys st.data
          · simp only [hn, if_true] at h2
            exact Or.inl h2
          · simp only [hn, if_false, List.mem_append, List.mem_singleton] at h2
            rcases h2 with h2 | h2
            · exact Or.inl h2
            · exact Or.inr (Or.inl (by simp [h2]))
        · exact Or.inr (Or.inl (List.mem_cons_of_mem _ h2))
        · exact Or.inr (Or.inl (by simp [h2.1]))
      · rw [hsh]
        rw [e] at h2
        simp only at h2
        rcases h2 with h2 | h2 | h2
        · rw [keys_assign, keys_index] at h2
          by_cases hn : st.current_section ∈ UMap.keys st.data
          · simp only [hn, if_true] at h2
            exact Or.inl h2
          · simp only [hn, if_false, List.mem_append, List.mem_singleton] at h2
            rcases h2 with h2 | h2
            · exact Or.inl h2
            · exact Or.inr (Or.inr ⟨h2, h2 ▸ hcur⟩)
        · exact Or.inr (Or.inl h2)
        · exact Or.inr (Or.inr h2)

/-- The section names of a loaded table are names of headers of the text. -/
theorem parse_lines_keys {lines : List Str} {data : Data} (h : parse_lines lines = .ok data) :
    ∀ s ∈ data.keys, s ∈ headers lines := by
  obtain ⟨st, hl, hd⟩ := parse_lines_ok h
  intro s hs
  rw [← hd] at hs
  rcases parse_loop_keys hl s hs with h1 | h1 | h1
  · simp [Loop.init, UMap.keys] at h1
  · exact h1
  · exact absurd h1.1 h1.2

/-- A key present in a table has a mapped value. -/
theorem find_of_mem_keys {V : Type} (m : UMap V) (k : Str) (h : k ∈ m.keys) :
    ∃ v, m.find k = some v := by
  cases hf : m.find k with
  | some v => exact ⟨v, rfl⟩
  | none => exact absurd h ((find_eq_none_iff m k).mp hf)

theorem mem_keys_of_find {V : Type} (m : UMap V) (k : Str) (v : V) (h : m.find k = some v) :
    k ∈ m.keys := by
  by_contra hn
  rw [(find_eq_none_iff m k).mpr hn] at h
  exact absurd h (by simp)

/-- The keys of a loaded table are identifiers. -/
theorem parse_lines_key_identifier {lines : List Str} {data : Data}
    (h : parse_lines lines = .ok data) {s k v : Str} (hst : stored data s k = some v) :
    is_identifier k = true := by
  obtain ⟨line, _, hsh⟩ := mem_assignments_line (parse_lines_stored_mem h hst)
  obtain ⟨m, hm, hk, _⟩ := shape_assignment_parts hsh
  simp only at hk
  rw [← hk]
  exact (variable_form_sub hm).1

/-! ## Well-formedness of a loaded table -/

/-- The section names of a loaded table are identifiers. -/
theorem loaded_section_identifier {lines : List Str} {data : Data}
    (h : parse_lines lines = .ok data) (s : Str) (hs : s ∈ data.keys) :
    is_identifier s = true :=
  headers_identifier (parse_lines_keys h s hs)

/-- Claim C19, amended: in the table of every text that loads, every section
name and every key is an identifier (a non-empty string of ASCII letters,
digits and underscores), and every stored value has no white space at its
start nor at its end; when no line of the text holds a carriage return (nor a
`\n`, which no line read by `std::getline` holds), no stored value holds a
`;`. -/
theorem loaded_well_formed (lines : List Str) (data : Data)
    (hload : parse_lines lines = .ok data) :
    (∀ s ∈ data.keys, is_identifier s = true) ∧
    (∀ s vars, data.find s = some vars → ∀ k ∈ vars.keys, is_identifier k = true) ∧
    (∀ s k v, stored data s k = some v →
      (∀ x t, v = x :: t → isspace x = false) ∧ (∀ t x, v = t ++ [x] → isspace x = false) ∧
      ((∀ l ∈ lines, '\r' ∉ l ∧ '\n' ∉ l) → ';' ∉ v)) := by
  refine ⟨?_, ?_, ?_⟩
  · intro s hs
    exact headers_identifier (parse_lines_keys hload s hs)
  · intro s vars hf k hk
    obtain ⟨v, hv⟩ := find_of_mem_keys vars k hk
    have hst : stored data s k = some v := by simp only [stored, hf, hv]
    exact parse_lines_key_identifier hload hst
  · intro s k v hst
    obtain ⟨line, hline, hsh⟩ := mem_assignments_line (parse_lines_stored_mem hload hst)
    obtain ⟨m, hm, _, hv⟩ := shape_assignment_parts hsh
    simp only at hv
    obtain ⟨h1, h2⟩ := variable_form_stripped hm
    rw [hv] at h1 h2
    refine ⟨h1, h2, ?_⟩
    intro hcr
    rw [← hv]
    exact variable_form_no_semicolon hm (hcr line hline).1 (hcr line hline).2

theorem loaded_well_formed_witness :
    parse_lines ["[a_1]".toList, " k  =  v w ; c ; d ".toList, "[B]".toList]
      = .ok [("a_1".toList, [("k".toList, "v w".toList)]), ("B".toList, [])] ∧
    ((∀ s ∈ UMap.keys [("a_1".toList, [("k".toList, "v w".toList)]),
        ("B".toList, ([] : UMap Str))], is_identifier s = true) ∧
    (∀ s vars, UMap.find [("a_1".toList, [("k".toList, "v w".toList)]),
        ("B".toList, ([] : UMap Str))] s = some vars →
      ∀ k ∈ UMap.keys vars, is_identifier k = true) ∧
    (∀ s k v, stored [("a_1".toList, [("k".toList, "v w".toList)]),
        ("B".toList, ([] : UMap Str))] s k = some v →
      (∀ x t, v = x :: t → isspace x = false) ∧ (∀ t x, v = t ++ [x] → isspace x = false) ∧
      ((∀ l ∈ ["[a_1]".toList, " k  =  v w ; c ; d ".toList, "[B]".toList],
          '\r' ∉ l ∧ '\n' ∉ l) → ';' ∉ v))) :=
  ⟨by decide,
    loaded_well_formed ["[a_1]".toList, " k  =  v w ; c ; d ".toList, "[B]".toList] _
      (by decide)⟩

/-- Claim C19 as stated fails on a text with a carriage return: the two lines
`[s]` and `x = a;b\r;c` load, and the value stored for `x` is `a;b`, which
holds a `;`. -/
theorem loaded_well_formed_counterexample :
    parse_lines ["[s]".toList, "x = a;b\r;c".toList]
      = .ok [("s".toList, [("x".toList, "a;b".toList)])] ∧
    stored [("s".toList, [("x".toList, "a;b".toList)])] "s".toList "x".toList
      = some "a;b".toList ∧
    ';' ∈ "a;b".toList := by
  refine ⟨by decide, by decide, by decide⟩

/-! ## Malformed paths -/

/-- No empty key and no key with a `.` is stored in a loaded table. -/
theorem parse_lines_stored_none {lines : List Str} {data : Data}
    (h : parse_lines lines = .ok data) (s k : Str) (hk : k = [] ∨ '.' ∈ k) :
    stored data s k = none := by
  cases hst : stored data s k with
  | none => rfl
  | some v =>
    have hid := parse_lines_key_identifier h hst
    rcases hk with e | e
    · rw [e] at hid; exact absurd hid (by decide)
    · exact absurd e (identifier_no_dot hid)

/-- Claim C20: on the table of a text that loads, for every target type,
`get_value` throws for every path with a `.` whose section part (the text
before the first `.`) is empty, or whose key part (the text after the first
`.`) is empty or holds a further `.`: the `Section ... not found` error when
the section part is not a section, which is the case when it is empty, and
otherwise the `Variable ... not found` error. -/
theorem malformed_path_fails {T : Type} [ConvertValue T] (iteration : List Str → List Str)
    (lines : List Str) (data : Data) (key : Str) (hload : parse_lines lines = .ok data)
    (hdot : '.' ∈ key)
    (hbad : before_first '.' key = [] ∨ after_first '.' key = []
      ∨ '.' ∈ after_first '.' key) :
    ((get_value iteration data key : Except Exception T)
      = match data.find (before_first '.' key) with
        | none =>
          .error (.invalid_argument
            ("Section '".toList ++ before_first '.' key ++ "' not found.".toList))
        | some vars =>
          .error (.invalid_argument ("Variable '".toList ++ after_first '.' key
            ++ "' not found in section '".toList ++ before_first '.' key
            ++ "'. Did you mean one of: ".toList ++ join (iteration vars.keys) ", ".toList))) ∧
    (before_first '.' key = [] → data.find (before_first '.' key) = none) := by
  have hempty : before_first '.' key = [] → data.find (before_first '.' key) = none := by
    intro e
    rw [e, find_eq_none_iff]
    intro hm
    have := (loaded_section_identifier hload [] hm)
    exact absurd this (by decide)
  refine ⟨?_, hempty⟩
  rw [get_value_split iteration data key hdot]
  cases hf : UMap.find data (before_first '.' key) with
  | none => rfl
  | some vars =>
    have hk : after_first '.' key = [] ∨ '.' ∈ after_first '.' key := by
      rcases hbad with e | e | e
      · rw [hempty e] at hf; exact absurd hf (by simp)
      · exact Or.inl e
      · exact Or.inr e
    have hst := parse_lines_stored_none hload (before_first '.' key) _ hk
    simp only [stored, hf] at hst
    simp only [hst]

theorem malformed_path_fails_witness :
    parse_lines ["[a]".toList, "b = 1".toList]
      = .ok [("a".toList, [("b".toList, "1".toList)])] ∧
    '.' ∈ "a.b.c".toList ∧
    (before_first '.' "a.b.c".toList = [] ∨ after_first '.' "a.b.c".toList = []
      ∨ '.' ∈ after_first '.' "a.b.c".toList) ∧
    (((get_value id [("a".toList, [("b".toList, "1".toList)])] "a.b.c".toList
        : Except Exception Str)
      = match UMap.find [("a".toList, [("b".toList, "1".toList)])]
          (before_first '.' "a.b.c".toList) with
        | none =>
          .error (.invalid_argument
            ("Section '".toList ++ before_first '.' "a.b.c".toList ++ "' not found.".toList))
        | some vars =>
          .error (.invalid_argument ("Variable '".toList ++ after_first '.' "a.b.c".toList
            ++ "' not found in section '".toList ++ before_first '.' "a.b.c".toList
            ++ "'. Did you mean one of: ".toList ++ join (id (UMap.keys vars)) ", ".toList))) ∧
    (before_first '.' "a.b.c".toList = [] →
      UMap.find [("a".toList, [("b".toList, "1".toList)])]
        (before_first '.' "a.b.c".toList) = none)) ∧
    (get_value id [("a".toList, [("b".toList, "1".toList)])] "a.b.c".toList
        : Except Exception Str)
      = .error (.invalid_argument
          "Variable 'b.c' not found in section 'a'. Did you mean one of: b".toList) :=
  ⟨by decide, by decide, by decide,
    malformed_path_fails id ["[a]".toList, "b = 1".toList] _ "a.b.c".toList
      (by decide) (by decide) (by decide),
    by decide⟩

/-! ## Reading a string -/

/-- The accessor for `std::string`, by the parts of the path. -/
theorem get_value_string_eq (iteration : List Str → List Str) (data : Data) (key : Str)
    (hdot : '.' ∈ key) :
    (get_value iteration data key : Except Exception Str)
      = match data.find (before_first '.' key) with
        | none =>
          .error (.invalid_argument
            ("Section '".toList ++ before_first '.' key ++ "' not found.".toList))
        | some vars =>
          match vars.find (after_first '.' key) with
          | none =>
            .error (.invalid_argument ("Variable '".toList ++ after_first '.' key
              ++ "' not found in section '".toList ++ before_first '.' key
              ++ "'. Did you mean one of: ".toList ++ join (iteration vars.keys) ", ".toList))
          | some value => .ok value :=
  get_value_split iteration data key hdot

/-- Claim C14: reading a string is the identity on the stored value.  When
section `s` of the table (a name without `.`, as every section name of a
loaded table is) holds the value `v` for key `k`, `get_value<std::string>` on
`s.k` returns `v` itself, whatever its characters, and also when it is empty;
`get_value<std::string>` succeeds exactly when the path has a `.`, the text
before the first `.` is a section and the text after it is a key of that
section; and its exception is never the one of a failed conversion. -/
theorem string_identity (iteration : List Str → List Str) :
    (∀ (data : Data) (s k v : Str), '.' ∉ s → stored data s k = some v →
      (get_value iteration data (s ++ '.' :: k) : Except Exception Str) = .ok v) ∧
    (∀ (lines : List Str) (data : Data) (s k v : Str), parse_lines lines = .ok data →
      stored data s k = some v →
      (get_value iteration data (s ++ '.' :: k) : Except Exception Str) = .ok v) ∧
    (∀ (data : Data) (key v : Str),
      (get_value iteration data key : Except Exception Str) = .ok v ↔
        ('.' ∈ key ∧ stored data (before_first '.' key) (after_first '.' key) = some v)) ∧
    (∀ (data : Data) (key : Str) (e : Exception),
      (get_value iteration data key : Except Exception Str) = .error e →
      ∀ v, e ≠ .invalid_argument ("Failed to convert value: ".toList ++ v)) := by
  refine ⟨?_, ?_, ?_, ?_⟩
  · intro data s k v hs hst
    exact get_value_string iteration data s k v hs hst
  · intro lines data s k v hload hst
    have hs : s ∈ data.keys := by
      simp only [stored] at hst
      cases hf : UMap.find data s with
      | none => rw [hf] at hst; simp at hst
      | some vars => exact mem_keys_of_find data s vars hf
    exact get_value_string iteration data s k v
      (identifier_no_dot (loaded_section_identifier hload s hs)) hst
  · intro data key v
    by_cases hdot : '.' ∈ key
    · rw [get_value_string_eq iteration data key hdot]
      simp only [stored, hdot, true_and]
      cases hf : UMap.find data (before_first '.' key) with
      | none => simp
      | some vars =>
        cases hk : UMap.find vars (after_first '.' key) with
        | none => simp [hk]
        | some w => simp [hk]
    · simp [get_value, find_dot_eq_none hdot, hdot]
  · intro data key e he v hv
    by_cases hdot : '.' ∈ key
    · rw [get_value_string_eq iteration data key hdot] at he
      cases hf : UMap.find data (before_first '.' key) with
      | none =>
        rw [hf] at he
        simp only [Except.error.injEq] at he
        rw [← he] at hv
        simp at hv
      | some vars =>
        rw [hf] at he
        cases hk : UMap.find vars (after_first '.' key) with
        | none =>
          simp only [hk, Except.error.injEq] at he
          rw [← he] at hv
          simp at hv
        | some w => simp [hk] at he
    · simp only [get_value, find_dot_eq_none hdot, Except.error.injEq] at he
      rw [← he] at hv
      simp at hv

theorem string_identity_witness :
    ('.' ∉ "s".toList ∧
      stored [("s".toList, [("k".toList, " \"a  b\" ; 42abc".toList), ("e".toList, [])])]
        "s".toList "k".toList = some " \"a  b\" ; 42abc".toList ∧
      (get_value id [("s".toList, [("k".toList, " \"a  b\" ; 42abc".toList),
          ("e".toList, [])])] ("s".toList ++ '.' :: "k".toList) : Except Exception Str)
        = .ok " \"a  b\" ; 42abc".toList) ∧
    (parse_lines ["[s]".toList, "e =".toList]
        = .ok [("s".toList, [("e".toList, [])])] ∧
      stored [("s".toList, [("e".toList, [])])] "s".toList "e".toList = some [] ∧
      (get_value id [("s".toList, [("e".toList, [])])] ("s".toList ++ '.' :: "e".toList)
        : Except Exception Str) = .ok []) ∧
    ((get_value id [("s".toList, [("e".toList, [])])] "s.x".toList : Except Exception Str)
        = .error (.invalid_argument
            "Variable 'x' not found in section 's'. Did you mean one of: e".toList) ∧
      ∀ v, Exception.invalid_argument
          "Variable 'x' not found in section 's'. Did you mean one of: e".toList
        ≠ .invalid_argument ("Failed to convert value: ".toList ++ v)) :=
  ⟨⟨by decide, by decide,
      (string_identity id).1 _ "s".toList "k".toList _ (by decide) (by decide)⟩,
    ⟨by decide, by decide,
      (string_identity id).2.1 ["[s]".toList, "e =".toList] _ "s".toList "e".toList []
        (by decide) (by decide)⟩,
    ⟨by decide,
      (string_identity id).2.2.2 [("s".toList, [("e".toList, [])])] "s.x".toList _
        (by decide)⟩⟩

/-! ## The suggestions of a missing key -/

/-- Claim C12 as stated fails: nothing makes the hash table enumerate its keys
in the order of their insertion.  The text `[S]`, `a = 1`, `b = 2` inserts `a`
before `b`; with the table enumerated last key first, as libstdc++ does for
these keys, the suggestions of `S.c` read `b, a`. -/
theorem key_not_found_suggestions_counterexample :
    parse_lines ["[S]".toList, "a = 1".toList, "b = 2".toList]
      = .ok [("S".toList, [("a".toList, "1".toList), ("b".toList, "2".toList)])] ∧
    (∀ l : List Str, (List.reverse l).Perm l) ∧
    (get_value List.reverse
        [("S".toList, [("a".toList, "1".toList), ("b".toList, "2".toList)])]
        "S.c".toList : Except Exception Str)
      = .error (.invalid_argument
          "Variable 'c' not found in section 'S'. Did you mean one of: b, a".toList) ∧
    (get_value List.reverse
        [("S".toList, [("a".toList, "1".toList), ("b".toList, "2".toList)])]
        "S.c".toList : Except Exception Str)
      ≠ .error (.invalid_argument
          "Variable 'c' not found in section 'S'. Did you mean one of: a, b".toList) := by
  refine ⟨by decide, fun l => List.reverse_perm l, by decide, by decide⟩

/-! ## A section without assignment -/

/-- The section of a header in a loaded table. -/
theorem loaded_section {lines : List Str} {data : Data} (hload : parse_lines lines = .ok data)
    {s : Str} (hs : s ∈ headers lines) :
    ∃ vars, data.find s = some vars ∧
      ∀ k, vars.find k = last_assigned (assignments [] lines) s k := by
  obtain ⟨st, hl, hd⟩ := parse_lines_ok hload
  have hsome := parse_loop_find_isSome hl s (Or.inr hs)
  rw [hd] at hsome
  obtain ⟨vars, hf⟩ := Option.isSome_iff_exists.mp hsome
  refine ⟨vars, hf, ?_⟩
  intro k
  have := parse_lines_stored hload s k
  simp only [stored, hf] at this
  exact this

theorem keys_eq_nil {V : Type} (m : UMap V) (h : ∀ k, m.find k = none) : m = [] := by
  cases m with
  | nil => rfl
  | cons e rest =>
    obtain ⟨k, v⟩ := e
    have := h k
    simp [UMap.find] at this

/-- Claim C13: when a text loads and holds a header `[s]` but no assignment
made while `s` is in force, the table has a section `s`, which is empty, and
for every key `k` and every target type `get_value` on `s.k` throws not the
`Section ... not found` error but the `invalid_argument` with message
`Variable 'k' not found in section 's'. Did you mean one of: ` and nothing
after it (the hash table enumerating no key of an empty section). -/
theorem header_alone_empty_section {T : Type} [ConvertValue T]
    (iteration : List Str → List Str) (hperm : ∀ l, (iteration l).Perm l)
    (lines : List Str) (data : Data) (s k : Str)
    (hload : parse_lines lines = .ok data) (hs : s ∈ headers lines)
    (hnone : ∀ a ∈ assignments [] lines, a.1 ≠ s) :
    data.find s = some [] ∧
    (get_value iteration data (s ++ '.' :: k) : Except Exception T)
      = .error (.invalid_argument ("Variable '".toList ++ k
          ++ "' not found in section '".toList ++ s
          ++ "'. Did you mean one of: ".toList)) := by
  obtain ⟨vars, hf, hfind⟩ := loaded_section hload hs
  have hempty : vars = [] := by
    apply keys_eq_nil
    intro k1
    rw [hfind k1, last_assigned_none_iff]
    intro a ha hc
    exact hnone a ha hc.1
  rw [hempty] at hf
  refine ⟨hf, ?_⟩
  rw [get_value_path iteration data s k (identifier_no_dot (headers_identifier hs))]
  have hit : iteration (UMap.keys ([] : UMap Str)) = [] := List.Perm.eq_nil (hperm _)
  simp only [hf, UMap.find, hit, join, List.append_nil]

theorem header_alone_empty_section_witness :
    (∀ l : List Str, (List.reverse l).Perm l) ∧
    parse_lines ["[a]".toList, "x = 1".toList, "[empty]".toList, "[a]".toList, "y = 2".toList]
      = .ok [("a".toList, [("x".toList, "1".toList), ("y".toList, "2".toList)]),
             ("empty".toList, [])] ∧
    "empty".toList ∈ headers ["[a]".toList, "x = 1".toList, "[empty]".toList, "[a]".toList,
      "y = 2".toList] ∧
    (∀ a ∈ assignments [] ["[a]".toList, "x = 1".toList, "[empty]".toList, "[a]".toList,
      "y = 2".toList], a.1 ≠ "empty".toList) ∧
    (UMap.find [("a".toList, [("x".toList, "1".toList), ("y".toList, "2".toList)]),
        ("empty".toList, [])] "empty".toList = some [] ∧
      (get_value List.reverse [("a".toList, [("x".toList, "1".toList),
          ("y".toList, "2".toList)]), ("empty".toList, [])]
          ("empty".toList ++ '.' :: "x".toList) : Except Exception Int)
        = .error (.invalid_argument ("Variable '".toList ++ "x".toList
            ++ "' not found in section '".toList ++ "empty".toList
            ++ "'. Did you mean one of: ".toList))) :=
  ⟨fun l => List.reverse_perm l, by decide, by decide, by decide,
    header_alone_empty_section List.reverse (fun l => List.reverse_perm l)
      ["[a]".toList, "x = 1".toList, "[empty]".toList, "[a]".toList, "y = 2".toList] _
      "empty".toList "x".toList (by decide) (by decide) (by decide)⟩

/-! ## The order of the tests -/

theorem parse_line_apply_shape (st : Loop) (line : Str) :
    parse_line st line = apply_shape st (shape line) := by
  rw [parse_line_eq]
  cases shape line <;> rfl

/-- At most one of the three patterns matches a line. -/
theorem patterns_exclusive (line : Str) :
    ¬ ((regex_match line comment_regex).isSome = true
        ∧ (regex_match line section_regex).isSome = true) ∧
    ¬ ((regex_match line comment_regex).isSome = true
        ∧ (regex_match line variable_regex).isSome = true) ∧
    ¬ ((regex_match line section_regex).isSome = true
        ∧ (regex_match line variable_regex).isSome = true) := by
  refine ⟨?_, ?_, ?_⟩
  · rintro ⟨hc, hs⟩
    obtain ⟨n, hn⟩ := Option.isSome_iff_exists.mp (by rw [regex_match_section] at hs; simpa using hs)
    have := not_skip_of_header hn
    simp only [is_skip, hc, Bool.true_or] at this
    exact absurd this (by simp)
  · rintro ⟨hc, hv⟩
    rw [regex_match_variable] at hv
    obtain ⟨m, hm⟩ := Option.isSome_iff_exists.mp hv
    have := (not_skip_of_assignment hm).1
    simp only [is_skip, hc, Bool.true_or] at this
    exact absurd this (by simp)
  · rintro ⟨hs, hv⟩
    rw [regex_match_variable] at hv
    obtain ⟨m, hm⟩ := Option.isSome_iff_exists.mp hv
    have := (not_skip_of_assignment hm).2
    rw [regex_match_section, this] at hs
    exact absurd hs (by simp)

/-- The first success of a function over a list, when at most the element `p`
of the list succeeds. -/
theorem findSome_unique {α β : Type} (f : α → Option β) (l : List α) (p : α)
    (hp : p ∈ l) (hother : ∀ x ∈ l, x ≠ p → f x = none) : l.findSome? f = f p := by
  induction l with
  | nil => simp at hp
  | cons a rest ih =>
    by_cases ha : a = p
    · subst ha
      cases hf : f a with
      | some r => simp [List.findSome?, hf]
      | none =>
        simp only [List.findSome?, hf]
        rw [List.findSome?_eq_none_iff]
        intro x hx
        by_cases hxa : x = a
        · rw [hxa]; exact hf
        · exact hother x (List.mem_cons_of_mem _ hx) hxa
    · have h1 := hother a (List.mem_cons_self _ _) ha
      simp only [List.findSome?, h1]
      rcases List.mem_cons.mp hp with e | e
      · exact absurd e.symm ha
      · exact ih e (fun x hx hne => hother x (List.mem_cons_of_mem _ hx) hne)

/-- The tests of the loop exclude each other. -/
theorem try_pattern_exclusive (line : Str) (p q : Pattern) (hpq : p ≠ q) (r : Shape)
    (hp : try_pattern line p = some r) : try_pattern line q = none := by
  obtain ⟨h1, h2, h3⟩ := patterns_exclusive line
  have hempty : line.isEmpty = true →
      regex_match line section_regex = none ∧ regex_match line variable_regex = none := by
    intro he
    cases line with
    | nil => exact ⟨by decide, by decide⟩
    | cons _ _ => simp at he
  cases p <;> cases q <;> simp only [try_pattern] at hp ⊢ <;> try exact absurd rfl hpq
  · -- comment, then header
    by_cases hc : ((regex_match line comment_regex).isSome || line.isEmpty) = true
    · cases hs : regex_match line section_regex with
      | none => rfl
      | some m =>
        exfalso
        rcases Bool.or_eq_true_iff.mp hc with hc | hc
        · exact h1 ⟨hc, by rw [hs]; rfl⟩
        · rw [(hempty hc).1] at hs; exact absurd hs (by simp)
    · simp [hc] at hp
  · -- comment, then assignment
    by_cases hc : ((regex_match line comment_regex).isSome || line.isEmpty) = true
    · cases hs : regex_match line variable_regex with
      | none => rfl
      | some m =>
        exfalso
        rcases Bool.or_eq_true_iff.mp hc with hc | hc
        · exact h2 ⟨hc, by rw [hs]; rfl⟩
        · rw [(hempty hc).2] at hs; exact absurd hs (by simp)
    · simp [hc] at hp
  · -- header, then comment
    cases hs : regex_match line section_regex with
    | none => rw [hs] at hp; simp at hp
    | some m =>
      have hc : ((regex_match line comment_regex).isSome || line.isEmpty) = false := by
        cases hc : ((regex_match line comment_regex).isSome || line.isEmpty) with
        | false => rfl
        | true =>
          exfalso
          rcases Bool.or_eq_true_iff.mp hc with hc | hc
          · exact h1 ⟨hc, by rw [hs]; rfl⟩
          · rw [(hempty hc).1] at hs; exact absurd hs (by simp)
      simp [hc]
  · -- header, then assignment
    cases hs : regex_match line section_regex with
    | none => rw [hs] at hp; simp at hp
    | some m =>
      cases hv : regex_match line variable_regex with
      | none => rfl
      | some m2 => exact absurd ⟨by rw [hs]; rfl, by rw [hv]; rfl⟩ h3
  · -- assignment, then comment
    cases hv : regex_match line variable_regex with
    | none => rw [hv] at hp; simp at hp
    | some m =>
      have hc : ((regex_match line comment_regex).isSome || line.isEmpty) = false := by
        cases hc : ((regex_match line comment_regex).isSome || line.isEmpty) with
        | false => rfl
        | true =>
          exfalso
          rcases Bool.or_eq_true_iff.mp hc with hc | hc
          · exact h2 ⟨hc, by rw [hv]; rfl⟩
          · rw [(hempty hc).2] at hv; exact absurd hv (by simp)
      simp [hc]
  · -- assignment, then header
    cases hv : regex_match line variable_regex with
    | none => rw [hv] at hp; simp at hp
    | some m =>
      cases hs : regex_match line section_regex with
      | none => rfl
      | some m2 => exact absurd ⟨by rw [hs]; rfl, by rw [hv]; rfl⟩ h3

/-- The shape of a line is that of the tests in the order of the source. -/
theorem shape_eq_shape_by (line : Str) :
    shape line = shape_by [.comment, .header, .assignment] line := by
  simp only [shape, is_skip, shape_by, List.findSome?, try_pattern]
  by_cases hc : ((regex_match line comment_regex).isSome || line.isEmpty) = true
  · simp only [hc, if_true]
  · simp only [hc]
    cases regex_match line section_regex with
    | some m => rfl
    | none =>
      cases regex_match line variable_regex with
      | some m => rfl
      | none => rfl

/-- The shape of a line does not depend on the order of the tests. -/
theorem shape_by_perm (order : List Pattern)
    (h : order.Perm [.comment, .header, .assignment]) (line : Str) :
    shape_by order line = shape line := by
  rw [shape_eq_shape_by]
  unfold shape_by
  have hall : ∀ p : Pattern, p ∈ order := by
    intro p
    rw [h.mem_iff]
    cases p <;> simp
  have hstd : ∀ p : Pattern, p ∈ [Pattern.comment, Pattern.header, Pattern.assignment] := by
    intro p
    cases p <;> simp
  by_cases hex : ∃ p r, try_pattern line p = some r
  · obtain ⟨p, r, hp⟩ := hex
    have hother : ∀ l : List Pattern, ∀ x ∈ l, x ≠ p → try_pattern line x = none :=
      fun l x _ hne => try_pattern_exclusive line p x (fun e => hne e.symm) r hp
    rw [findSome_unique _ order p (hall p) (hother order),
      findSome_unique _ _ p (hstd p) (hother _)]
  · have hnone : ∀ l : List Pattern, l.findSome? (try_pattern line) = none := by
      intro l
      rw [List.findSome?_eq_none_iff]
      intro x _
      cases hx : try_pattern line x with
      | none => rfl
      | some r => exact absurd ⟨x, r, hx⟩ hex
    rw [hnone, hnone]

theorem parse_loop_by_perm (order : List Pattern)
    (h : order.Perm [.comment, .header, .assignment]) (st : Loop) (lines : List Str) :
    parse_loop_by order st lines = parse_loop st lines := by
  induction lines generalizing st with
  | nil => rfl
  | cons line rest ih =>
    rw [parse_loop_cons, parse_line_apply_shape, parse_loop_by, shape_by_perm order h]
    cases apply_shape st (shape line) with
    | ok st1 => exact ih st1
    | error e => rfl

/-- Claim C18: at most one of the three patterns matches a line, and none of
them matches the empty line; so the shape the loop gives a line, and with it
the outcome of loading (the table or the exception), is the same in whatever
order the three tests are made. -/
theorem shapes_exclusive :
    (∀ line : Str,
      ¬ ((regex_match line comment_regex).isSome = true
          ∧ (regex_match line section_regex).isSome = true) ∧
      ¬ ((regex_match line comment_regex).isSome = true
          ∧ (regex_match line variable_regex).isSome = true) ∧
      ¬ ((regex_match line section_regex).isSome = true
          ∧ (regex_match line variable_regex).isSome = true)) ∧
    (regex_match [] comment_regex = none ∧ regex_match [] section_regex = none
      ∧ regex_match [] variable_regex = none) ∧
    (∀ order : List Pattern, order.Perm [.comment, .header, .assignment] →
      (∀ line, shape_by order line = shape line) ∧
      (∀ lines, parse_lines_by order lines = parse_lines lines)) := by
  refine ⟨patterns_exclusive, ⟨by decide, by decide, by decide⟩, ?_⟩
  intro order h
  refine ⟨shape_by_perm order h, ?_⟩
  intro lines
  unfold parse_lines_by parse_lines
  rw [parse_loop_by_perm order h]

theorem shapes_exclusive_witness :
    [Pattern.assignment, Pattern.comment, Pattern.header].Perm
      [.comment, .header, .assignment] ∧
    ((∀ line, shape_by [Pattern.assignment, Pattern.comment, Pattern.header] line
        = shape line) ∧
      (∀ lines, parse_lines_by [Pattern.assignment, Pattern.comment, Pattern.header] lines
        = parse_lines lines)) ∧
    parse_lines_by [Pattern.assignment, Pattern.comment, Pattern.header]
        ["; [x]".toList, "[a]".toList, "k = [b] ; c".toList]
      = .ok [("a".toList, [("k".toList, "[b]".toList)])] :=
  ⟨by decide,
    shapes_exclusive.2.2 [Pattern.assignment, Pattern.comment, Pattern.header] (by decide),
    by decide⟩

/-! ## Reading an `int` -/

theorem digits_value_foldl (init : Nat) (ds : Str) :
    ds.foldl (fun acc d => acc * 10 + (d.toNat - 48)) init
      = init * 10 ^ ds.length + digits_value ds := by
  induction ds generalizing init with
  | nil => simp [digits_value]
  | cons d t ih =>
    simp only [List.foldl_cons, digits_value, List.length_cons]
    rw [ih (init * 10 + (d.toNat - 48)), ih (0 * 10 + (d.toNat - 48))]
    simp only [digits_value]
    ring

theorem digits_value_cons (d : Char) (ds : Str) :
    digits_value (d :: ds) = (d.toNat - 48) * 10 ^ ds.length + digits_value ds := by
  have := digits_value_foldl (0 * 10 + (d.toNat - 48)) ds
  simp only [digits_value, List.foldl_cons] at this ⊢
  rw [this]
  simp

theorem digitChar_digit (n : Nat) (h : n < 10) :
    isdigit (Nat.digitChar n) = true ∧ (Nat.digitChar n).toNat - 48 = n := by
  interval_cases n <;> exact ⟨by decide, by decide⟩

/-- The digits written by `std::to_string`: decimal digits, at least one,
whose value is the number. -/
theorem toDigitsCore_digits (fuel n : Nat) (ds : Str) (hf : n < fuel)
    (hds : ∀ c ∈ ds, isdigit c = true) :
    (∀ c ∈ Nat.toDigitsCore 10 fuel n ds, isdigit c = true) ∧
    Nat.toDigitsCore 10 fuel n ds ≠ [] ∧
    digits_value (Nat.toDigitsCore 10 fuel n ds) = n * 10 ^ ds.length + digits_value ds := by
  induction fuel generalizing n ds with
  | zero => omega
  | succ fuel ih =>
    obtain ⟨hd1, hd2⟩ := digitChar_digit (n % 10) (Nat.mod_lt n (by norm_num))
    have hds2 : ∀ c ∈ Nat.digitChar (n % 10) :: ds, isdigit c = true := by
      intro c hc
      rcases List.mem_cons.mp hc with e | e
      · rw [e]; exact hd1
      · exact hds c e
    by_cases h0 : n / 10 = 0
    · have hn : n % 10 = n := Nat.mod_eq_of_lt (by omega)
      simp only [Nat.toDigitsCore, h0, if_true]
      refine ⟨hds2, by simp, ?_⟩
      rw [digits_value_cons, hd2, hn]
    · simp only [Nat.toDigitsCore, h0, if_false]
      have hlt : n / 10 < fuel := by omega
      obtain ⟨h1, h2, h3⟩ := ih (n / 10) (Nat.digitChar (n % 10) :: ds) hlt hds2
      refine ⟨h1, h2, ?_⟩
      rw [h3, digits_value_cons, hd2, List.length_cons, pow_succ]
      have e : n * 10 ^ ds.length = (10 * (n / 10) + n % 10) * 10 ^ ds.length := by
        rw [Nat.div_add_mod n 10]
      rw [e]
      ring

theorem to_string_digits (n : Nat) :
    (∀ c ∈ to_string n, isdigit c = true) ∧ to_string n ≠ [] ∧
      digits_value (to_string n) = n := by
  have h := toDigitsCore_digits (n + 1) n [] (Nat.lt_succ_self n) (by simp)
  have e : to_string n = Nat.toDigitsCore 10 (n + 1) n [] := rfl
  rw [e]
  refine ⟨h.1, h.2.1, ?_⟩
  rw [h.2.2]
  simp [digits_value]

theorem digit_ne {x : Char} (h : isdigit x = true) :
    isspace x = false ∧ x ≠ '-' ∧ x ≠ '+' := by
  refine ⟨?_, ?_, ?_⟩
  · cases hs : isspace x with
    | false => rfl
    | true =>
      simp only [isspace, Bool.or_eq_true, beq_iff_eq] at hs
      rcases hs with ((((e | e) | e) | e) | e) | e <;> subst e <;> exact absurd h (by decide)
  all_goals (intro e; subst e; exact absurd h (by decide))

/-- The extraction of an `int` from a value made of white space, an optional
sign, digits and a rest that does not start with a digit: the number written
by the sign and the digits, if it fits an `int`; the rest is not looked at. -/
theorem extract_int_parts (w sg ds rest : Str) (hw : ∀ x ∈ w, isspace x = true)
    (hsg : sg = [] ∨ sg = ['-'] ∨ sg = ['+']) (hne : ds ≠ [])
    (hds : ∀ x ∈ ds, isdigit x = true) (hrest : ∀ x t, rest = x :: t → isdigit x = false) :
    extract_int (w ++ (sg ++ (ds ++ rest)))
      = if -2147483648 ≤ (if sg = ['-'] then - (digits_value ds : Int) else digits_value ds)
            ∧ (if sg = ['-'] then - (digits_value ds : Int) else digits_value ds) ≤ 2147483647
        then some (if sg = ['-'] then - (digits_value ds : Int) else digits_value ds)
        else none := by
  obtain ⟨d, ds1, hd⟩ : ∃ d ds1, ds = d :: ds1 := by
    cases ds with
    | nil => exact absurd rfl hne
    | cons d ds1 => exact ⟨d, ds1, rfl⟩
  have hdd : isdigit d = true := hds d (by rw [hd]; simp)
  obtain ⟨hd1, hd2, hd3⟩ := digit_ne hdd
  have htake : List.takeWhile isdigit (ds ++ rest) = ds := by
    rw [List.takeWhile_append_of_pos hds, takeWhile_of_head_neg hrest, List.append_nil]
  have hdrop : List.dropWhile isspace (w ++ (sg ++ (ds ++ rest))) = sg ++ (ds ++ rest) := by
    rw [List.dropWhile_append_of_pos hw]
    apply dropWhile_of_head_neg
    intro x t e
    rcases hsg with e1 | e1 | e1
    · rw [e1, hd] at e
      simp only [List.nil_append, List.cons_append, List.cons.injEq] at e
      rw [← e.1]; exact hd1
    · rw [e1] at e
      simp only [List.cons_append, List.nil_append, List.cons.injEq] at e
      rw [← e.1]; decide
    · rw [e1] at e
      simp only [List.cons_append, List.nil_append, List.cons.injEq] at e
      rw [← e.1]; decide
  have hempty : ds.isEmpty = false := by rw [hd]; rfl
  unfold extract_int
  rw [hdrop]
  rcases hsg with e1 | e1 | e1
  · subst e1
    have hm : (match ([] : Str) ++ (ds ++ rest) with
        | '-' :: t => (true, t)
        | '+' :: t => (false, t)
        | _ => (false, [] ++ (ds ++ rest))) = (false, ds ++ rest) := by
      rw [hd]
      simp only [List.nil_append, List.cons_append]
      split
      · rename_i e; simp only [List.cons.injEq] at e; exact absurd e.1 hd2
      · rename_i e; simp only [List.cons.injEq] at e; exact absurd e.1 hd3
      · rfl
    simp only [hm, htake, hempty]
    simp
  · subst e1
    simp only [List.cons_append, List.nil_append, htake, hempty]
    simp
  · subst e1
    simp only [List.cons_append, List.nil_append, htake, hempty]
    simp

/-- The extraction of an `int` fails when, after the leading white space and
an optional sign, the value does not start with a digit. -/
theorem extract_int_no_digit (value : Str)
    (h : ∀ x t, after_sign value = x :: t → isdigit x = false) :
    extract_int value = none := by
  have htake : List.takeWhile isdigit (after_sign value) = [] := takeWhile_of_head_neg h
  unfold extract_int
  unfold after_sign at htake
  split at htake <;> simp_all

/-- The extraction of an `int` from the decimal literal of a number that fits
an `int`. -/
theorem extract_int_literal (n : Int) (h1 : -2147483648 ≤ n) (h2 : n ≤ 2147483647) :
    extract_int (decimal_literal n) = some n := by
  obtain ⟨hds, hne, hv⟩ := to_string_digits n.natAbs
  unfold decimal_literal
  by_cases hn : n < 0
  · have := extract_int_parts [] ['-'] (to_string n.natAbs) [] (by simp) (by simp) hne hds
      (by simp)
    simp only [List.nil_append, List.append_nil, List.cons_append] at this
    simp only [hn, if_true, this, hv, if_true]
    have e : -(n.natAbs : Int) = n := by omega
    rw [e]
    simp [h1, h2]
  · have := extract_int_parts [] [] (to_string n.natAbs) [] (by simp) (by simp) hne hds
      (by simp)
    simp only [List.nil_append, List.append_nil] at this
    simp only [hn, if_false, this, hv]
    have e : (n.natAbs : Int) = n := by omega
    rw [e]
    simp [h1, h2]

/-! ## Conversions -/

/-- The accessor for a type converted by the primary template. -/
theorem get_value_primary {T : Type} [Extract T] (iteration : List Str → List Str)
    (data : Data) (s k value : Str) (hs : '.' ∉ s) (hst : stored data s k = some value) :
    @get_value T ⟨convert_value_primary⟩ iteration data (s ++ '.' :: k)
      = match (Extract.extract value : Option T) with
        | some result => .ok result
        | none => .error (.invalid_argument ("Failed to convert value: ".toList ++ value)) := by
  rw [@get_value_path T ⟨convert_value_primary⟩ iteration data s k hs]
  simp only [stored] at hst
  cases hf : UMap.find data s with
  | none => rw [hf] at hst; simp at hst
  | some vars =>
    rw [hf] at hst
    simp only at hst
    simp only [hst]
    rfl

theorem extract_eq_extract_int (value : Str) :
    (Extract.extract value : Option Int) = extract_int value := rfl

/-- The accessor for `int`. -/
theorem get_value_int (iteration : List Str → List Str) (data : Data) (s k value : Str)
    (hs : '.' ∉ s) (hst : stored data s k = some value) :
    (get_value iteration data (s ++ '.' :: k) : Except Exception Int)
      = match extract_int value with
        | some result => .ok result
        | none => .error (.invalid_argument ("Failed to convert value: ".toList ++ value)) := by
  rw [get_value_path iteration data s k hs]
  simp only [stored] at hst
  cases hf : UMap.find data s with
  | none => rw [hf] at hst; simp at hst
  | some vars =>
    rw [hf] at hst
    simp only at hst
    simp only [hst]
    show (convert_value_primary value : Except Exception Int) = _
    unfold convert_value_primary
    rw [extract_eq_extract_int]
    cases extract_int value <;> rfl

/-- Claim C15: for a key whose stored value is `42`, `get_value<int>` returns
42 and `get_value<std::string>` returns `42`; for a key whose stored value is
`abc`, `get_value<int>` throws the error of a failed conversion; and for every
key whose stored value is the decimal literal of an integer `n` that fits an
`int`, `get_value<int>` returns `n`. -/
theorem typed_retrieval (iteration : List Str → List Str) :
    ((get_value iteration [("s".toList, [("k".toList, "42".toList)])] "s.k".toList
        : Except Exception Int) = .ok 42 ∧
      (get_value iteration [("s".toList, [("k".toList, "42".toList)])] "s.k".toList
        : Except Exception Str) = .ok "42".toList ∧
      (get_value iteration [("s".toList, [("k".toList, "abc".toList)])] "s.k".toList
        : Except Exception Int)
        = .error (.invalid_argument "Failed to convert value: abc".toList)) ∧
    (∀ (data : Data) (s k : Str) (n : Int), '.' ∉ s → -2147483648 ≤ n → n ≤ 2147483647 →
      stored data s k = some (decimal_literal n) →
      (get_value iteration data (s ++ '.' :: k) : Except Exception Int) = .ok n) := by
  refine ⟨⟨rfl, rfl, rfl⟩, ?_⟩
  intro data s k n hs h1 h2 hst
  rw [get_value_int iteration data s k _ hs hst, extract_int_literal n h1 h2]

theorem typed_retrieval_witness :
    '.' ∉ "net".toList ∧ (-2147483648 : Int) ≤ -2147483648 ∧
    (-2147483648 : Int) ≤ 2147483647 ∧
    decimal_literal (-2147483648) = "-2147483648".toList ∧
    stored [("net".toList, [("low".toList, "-2147483648".toList)])] "net".toList "low".toList
      = some (decimal_literal (-2147483648)) ∧
    (get_value id [("net".toList, [("low".toList, "-2147483648".toList)])]
        ("net".toList ++ '.' :: "low".toList) : Except Exception Int) = .ok (-2147483648) :=
  ⟨by decide, by decide, by decide, by decide, by decide,
    (typed_retrieval id).2 [("net".toList, [("low".toList, "-2147483648".toList)])]
      "net".toList "low".toList (-2147483648) (by decide) (by decide) (by decide)
      (by decide)⟩

/-- Claim C16, amended: `get_value<int>` converts the start of the stored
value and ignores what follows.  A value made of optional white space, an
optional sign, at least one digit and any rest that does not start with a
digit is converted to the number that the sign and the digits write, if it
fits an `int` (so `42abc` gives 42); the error of a failed conversion is
thrown when that number does not fit an `int`, and when the value, after its
leading white space and an optional sign, does not start with a digit. -/
theorem numeric_prefix_conversion (iteration : List Str → List Str) :
    (∀ (data : Data) (s k w sg ds rest : Str), '.' ∉ s → (∀ x ∈ w, isspace x = true) →
      (sg = [] ∨ sg = ['-'] ∨ sg = ['+']) → ds ≠ [] → (∀ x ∈ ds, isdigit x = true) →
      (∀ x t, rest = x :: t → isdigit x = false) →
      stored data s k = some (w ++ (sg ++ (ds ++ rest))) →
      (get_value iteration data (s ++ '.' :: k) : Except Exception Int)
        = if -2147483648 ≤ (if sg = ['-'] then - (digits_value ds : Int) else digits_value ds)
              ∧ (if sg = ['-'] then - (digits_value ds : Int) else digits_value ds)
                ≤ 2147483647
          then .ok (if sg = ['-'] then - (digits_value ds : Int) else digits_value ds)
          else .error (.invalid_argument
            ("Failed to convert value: ".toList ++ (w ++ (sg ++ (ds ++ rest)))))) ∧
    (∀ (data : Data) (s k value : Str), '.' ∉ s → stored data s k = some value →
      (∀ x t, after_sign value = x :: t → isdigit x = false) →
      (get_value iteration data (s ++ '.' :: k) : Except Exception Int)
        = .error (.invalid_argument ("Failed to convert value: ".toList ++ value))) := by
  constructor
  · intro data s k w sg ds rest hs hw hsg hne hds hrest hst
    rw [get_value_int iteration data s k _ hs hst,
      extract_int_parts w sg ds rest hw hsg hne hds hrest]
    by_cases hc : -2147483648 ≤ (if sg = ['-'] then - (digits_value ds : Int)
        else digits_value ds)
        ∧ (if sg = ['-'] then - (digits_value ds : Int) else digits_value ds) ≤ 2147483647
    · rw [if_pos hc, if_pos hc]
    · rw [if_neg hc, if_neg hc]
  · intro data s k value hs hst hno
    rw [get_value_int iteration data s k _ hs hst, extract_int_no_digit value hno]

theorem numeric_prefix_conversion_witness :
    ('.' ∉ "s".toList ∧ (∀ x ∈ " ".toList, isspace x = true) ∧
      ("-".toList = [] ∨ "-".toList = ['-'] ∨ "-".toList = ['+']) ∧ "10".toList ≠ [] ∧
      (∀ x ∈ "10".toList, isdigit x = true) ∧
      (∀ x t, " 20".toList = x :: t → isdigit x = false) ∧
      stored [("s".toList, [("k".toList, " -10 20".toList)])] "s".toList "k".toList
        = some (" ".toList ++ ("-".toList ++ ("10".toList ++ " 20".toList))) ∧
      (get_value id [("s".toList, [("k".toList, " -10 20".toList)])]
          ("s".toList ++ '.' :: "k".toList) : Except Exception Int)
        = if -2147483648 ≤ (if "-".toList = ['-'] then - (digits_value "10".toList : Int)
                else digits_value "10".toList)
              ∧ (if "-".toList = ['-'] then - (digits_value "10".toList : Int)
                else digits_value "10".toList) ≤ 2147483647
          then .ok (if "-".toList = ['-'] then - (digits_value "10".toList : Int)
                else digits_value "10".toList)
          else .error (.invalid_argument ("Failed to convert value: ".toList
            ++ (" ".toList ++ ("-".toList ++ ("10".toList ++ " 20".toList)))))) ∧
    ('.' ∉ "s".toList ∧
      stored [("s".toList, [("k".toList, "-x1".toList)])] "s".toList "k".toList
        = some "-x1".toList ∧
      (∀ x t, after_sign "-x1".toList = x :: t → isdigit x = false) ∧
      (get_value id [("s".toList, [("k".toList, "-x1".toList)])]
          ("s".toList ++ '.' :: "k".toList) : Except Exception Int)
        = .error (.invalid_argument ("Failed to convert value: ".toList ++ "-x1".toList))) :=
  ⟨⟨by decide, by decide, by decide, by decide, by decide, by simp [isdigit], by decide,
      (numeric_prefix_conversion id).1 [("s".toList, [("k".toList, " -10 20".toList)])]
        "s".toList "k".toList " ".toList "-".toList "10".toList " 20".toList
        (by decide) (by decide) (by decide) (by decide) (by decide) (by simp [isdigit])
        (by decide)⟩,
    ⟨by decide, by decide, by simp [after_sign, isspace, isdigit],
      (numeric_prefix_conversion id).2 [("s".toList, [("k".toList, "-x1".toList)])]
        "s".toList "k".toList "-x1".toList (by decide) (by decide)
        (by simp [after_sign, isspace, isdigit])⟩⟩

/-- Claim C16 as stated fails: the values `42abc`, `10 20` and `3.5` are
stored as they are, and `get_value<int>` returns 42, 10 and 3 for them. -/
theorem numeric_prefix_conversion_counterexample :
    parse_lines ["[s]".toList, "a = 42abc".toList, "b = 10 20".toList, "c = 3.5".toList]
      = .ok [("s".toList, [("a".toList, "42abc".toList), ("b".toList, "10 20".toList),
              ("c".toList, "3.5".toList)])] ∧
    (get_value id [("s".toList, [("a".toList, "42abc".toList), ("b".toList, "10 20".toList),
        ("c".toList, "3.5".toList)])] "s.a".toList : Except Exception Int) = .ok 42 ∧
    (get_value id [("s".toList, [("a".toList, "42abc".toList), ("b".toList, "10 20".toList),
        ("c".toList, "3.5".toList)])] "s.b".toList : Except Exception Int) = .ok 10 ∧
    (get_value id [("s".toList, [("a".toList, "42abc".toList), ("b".toList, "10 20".toList),
        ("c".toList, "3.5".toList)])] "s.c".toList : Except Exception Int) = .ok 3 := by
  refine ⟨by decide, by decide, by decide, by decide⟩

/-- Claim C17, amended: for every stored value `v` that the primary template
`convert_value<T>` cannot convert, the `invalid_argument` thrown by
`get_value<T>` has the message `Failed to convert value: ` followed by `v`: it
names the raw value, and nothing in it depends on the target type. -/
theorem conversion_error_content {T : Type} [Extract T] (iteration : List Str → List Str)
    (data : Data) (s k v : Str) (hs : '.' ∉ s) (hst : stored data s k = some v)
    (hfail : (Extract.extract v : Option T) = none) :
    @get_value T ⟨convert_value_primary⟩ iteration data (s ++ '.' :: k)
      = .error (.invalid_argument ("Failed to convert value: ".toList ++ v)) := by
  rw [get_value_primary iteration data s k v hs hst, hfail]

theorem conversion_error_content_witness :
    '.' ∉ "s".toList ∧
    stored [("s".toList, [("k".toList, "abc".toList)])] "s".toList "k".toList
      = some "abc".toList ∧
    (Extract.extract "abc".toList : Option Int) = none ∧
    @get_value Int ⟨convert_value_primary⟩ id [("s".toList, [("k".toList, "abc".toList)])]
        ("s".toList ++ '.' :: "k".toList)
      = .error (.invalid_argument ("Failed to convert value: ".toList ++ "abc".toList)) :=
  ⟨by decide, by decide, by decide,
    conversion_error_content id [("s".toList, [("k".toList, "abc".toList)])]
      "s".toList "k".toList "abc".toList (by decide) (by decide) (by decide)⟩

/-- Claim C17 as stated fails: for the stored value `abc` requested as `int`
the message is `Failed to convert value: abc`, in which the target type `int`
does not occur. -/
theorem conversion_error_content_counterexample :
    (get_value id [("s".toList, [("k".toList, "abc".toList)])] "s.k".toList
        : Except Exception Int)
      = .error (.invalid_argument "Failed to convert value: abc".toList) ∧
    ¬ ("int".toList <:+: "Failed to convert value: abc".toList) := by
  refine ⟨by decide, by decide⟩

/-! ## Comment lines in the words of the specification -/

/-- The member `join` puts the delimiter between every two consecutive
elements, and nowhere else. -/
theorem join_eq_intercalate (elements : List Str) (delimiter : Str) :
    join elements delimiter = List.intercalate delimiter elements := by
  induction elements with
  | nil => rfl
  | cons e rest ih =>
    cases rest with
    | nil => simp [join, List.intercalate]
    | cons e1 rest1 =>
      rw [join, ih]
      simp [List.intercalate, List.append_assoc]

/-- The keys of a section of a loaded table are the keys assigned in that
section by the text, without repetition. -/
theorem loaded_keys {lines : List Str} {data : Data} (hload : parse_lines lines = .ok data)
    {s : Str} {vars : UMap Str} (hf : data.find s = some vars) :
    (UMap.keys vars).Nodup ∧
    ∀ k, k ∈ UMap.keys vars ↔ ∃ v, (s, k, v) ∈ assignments [] lines := by
  obtain ⟨st, hl, hd⟩ := parse_lines_ok hload
  have hw := parse_loop_well_keyed hl well_keyed_init
  rw [hd] at hw
  refine ⟨hw.2 s vars hf, ?_⟩
  intro k
  have hst := parse_lines_stored hload s k
  simp only [stored, hf] at hst
  rw [← last_assigned_isSome_iff, ← hst]
  constructor
  · exact find_of_mem_keys vars k
  · rintro ⟨v, hv⟩
    exact mem_keys_of_find vars k v hv

/-- Claim C12, amended: for every table, every section `s` present in it (a
name without `.`) and every key `k` not present in `s`, `get_value` throws the
`invalid_argument` whose message is `Variable 'k' not found in section 's'.
Did you mean one of: ` followed by the suggestions with `, ` between every two
consecutive ones, the suggestions being the keys of `s` as the hash table
enumerates them.  In the table of a loaded text the suggestions hold every
key that the text assigns in section `s`, each once, and nothing else; their
order is that of the enumeration, some arrangement of the keys and not
necessarily that of their insertion. -/
theorem key_not_found_suggestions {T : Type} [ConvertValue T]
    (iteration : List Str → List Str) (hperm : ∀ l, (iteration l).Perm l) :
    (∀ (data : Data) (s k : Str) (vars : UMap Str), '.' ∉ s →
      data.find s = some vars → vars.find k = none →
      (get_value iteration data (s ++ '.' :: k) : Except Exception T)
        = .error (.invalid_argument ("Variable '".toList ++ k
            ++ "' not found in section '".toList ++ s
            ++ "'. Did you mean one of: ".toList
            ++ List.intercalate ", ".toList (iteration (UMap.keys vars))))) ∧
    (∀ (lines : List Str) (data : Data) (s k : Str) (vars : UMap Str),
      parse_lines lines = .ok data → data.find s = some vars → vars.find k = none →
      (get_value iteration data (s ++ '.' :: k) : Except Exception T)
        = .error (.invalid_argument ("Variable '".toList ++ k
            ++ "' not found in section '".toList ++ s
            ++ "'. Did you mean one of: ".toList
            ++ List.intercalate ", ".toList (iteration (UMap.keys vars)))) ∧
      (iteration (UMap.keys vars)).Nodup ∧
      (∀ k1, k1 ∈ iteration (UMap.keys vars) ↔ ∃ v, (s, k1, v) ∈ assignments [] lines) ∧
      (iteration (UMap.keys vars)).length
        = ((assignments [] lines).filterMap
            (fun a => if a.1 = s then some a.2.1 else none)).dedup.length ∧
      k ∉ iteration (UMap.keys vars)) := by
  have hmsg : ∀ (data : Data) (s k : Str) (vars : UMap Str), '.' ∉ s →
      data.find s = some vars → vars.find k = none →
      (get_value iteration data (s ++ '.' :: k) : Except Exception T)
        = .error (.invalid_argument ("Variable '".toList ++ k
            ++ "' not found in section '".toList ++ s
            ++ "'. Did you mean one of: ".toList
            ++ List.intercalate ", ".toList (iteration (UMap.keys vars)))) := by
    intro data s k vars hs hf hk
    rw [get_value_path iteration data s k hs, ← join_eq_intercalate]
    simp only [hf, hk]
  refine ⟨hmsg, ?_⟩
  intro lines data s k vars hload hf hk
  have hs : '.' ∉ s :=
    identifier_no_dot (loaded_section_identifier hload s (mem_keys_of_find data s vars hf))
  obtain ⟨hnd, hmem⟩ := loaded_keys hload hf
  have hnd1 : (iteration (UMap.keys vars)).Nodup := (hperm _).nodup_iff.mpr hnd
  have hmem1 : ∀ k1, k1 ∈ iteration (UMap.keys vars)
      ↔ ∃ v, (s, k1, v) ∈ assignments [] lines := by
    intro k1
    rw [(hperm _).mem_iff]
    exact hmem k1
  refine ⟨hmsg data s k vars hs hf hk, hnd1, hmem1, ?_, ?_⟩
  · apply List.Perm.length_eq
    rw [List.perm_ext_iff_of_nodup hnd1 (List.nodup_dedup _)]
    intro k1
    rw [hmem1 k1, List.mem_dedup, List.mem_filterMap]
    constructor
    · rintro ⟨v, hv⟩
      exact ⟨(s, k1, v), hv, by simp⟩
    · rintro ⟨⟨s1, k2, v⟩, ha, he⟩
      by_cases h1 : s1 = s
      · simp only [h1, if_true, Option.some.injEq] at he
        exact ⟨v, by rw [← he, ← h1]; exact ha⟩
      · simp [h1] at he
  · rw [(hperm _).mem_iff]
    exact (find_eq_none_iff vars k).mp hk

theorem key_not_found_suggestions_witness :
    (∀ l : List Str, (List.reverse l).Perm l) ∧
    parse_lines ["[S]".toList, "a = 1".toList, "b = 2".toList, "[T]".toList, "c = 3".toList,
        "[S]".toList, "a = 4".toList]
      = .ok [("S".toList, [("a".toList, "4".toList), ("b".toList, "2".toList)]),
             ("T".toList, [("c".toList, "3".toList)])] ∧
    UMap.find [("S".toList, [("a".toList, "4".toList), ("b".toList, "2".toList)]),
        ("T".toList, [("c".toList, "3".toList)])] "S".toList
      = some [("a".toList, "4".toList), ("b".toList, "2".toList)] ∧
    UMap.find [("a".toList, "4".toList), ("b".toList, "2".toList)] "c".toList = none ∧
    ((get_value List.reverse
        [("S".toList, [("a".toList, "4".toList), ("b".toList, "2".toList)]),
          ("T".toList, [("c".toList, "3".toList)])]
        ("S".toList ++ '.' :: "c".toList) : Except Exception Int)
      = .error (.invalid_argument ("Variable '".toList ++ "c".toList
          ++ "' not found in section '".toList ++ "S".toList
          ++ "'. Did you mean one of: ".toList
          ++ List.intercalate ", ".toList (List.reverse
              (UMap.keys [("a".toList, "4".toList), ("b".toList, "2".toList)])))) ∧
      (List.reverse (UMap.keys [("a".toList, "4".toList), ("b".toList, "2".toList)])).Nodup ∧
      (∀ k1, k1 ∈ List.reverse (UMap.keys [("a".toList, "4".toList), ("b".toList, "2".toList)])
        ↔ ∃ v, ("S".toList, k1, v) ∈ assignments [] ["[S]".toList, "a = 1".toList,
            "b = 2".toList, "[T]".toList, "c = 3".toList, "[S]".toList, "a = 4".toList]) ∧
      (List.reverse (UMap.keys [("a".toList, "4".toList), ("b".toList, "2".toList)])).length
        = ((assignments [] ["[S]".toList, "a = 1".toList, "b = 2".toList, "[T]".toList,
              "c = 3".toList, "[S]".toList, "a = 4".toList]).filterMap
            (fun a => if a.1 = "S".toList then some a.2.1 else none)).dedup.length ∧
      "c".toList ∉ List.reverse
        (UMap.keys [("a".toList, "4".toList), ("b".toList, "2".toList)])) ∧
    "Variable '".toList ++ "c".toList ++ "' not found in section '".toList ++ "S".toList
        ++ "'. Did you mean one of: ".toList
        ++ List.intercalate ", ".toList (List.reverse
            (UMap.keys [("a".toList, "4".toList), ("b".toList, "2".toList)]))
      = "Variable 'c' not found in section 'S'. Did you mean one of: b, a".toList ∧
    ('.' ∉ "S".toList ∧
      (get_value List.reverse [("S".toList, [("x y".toList, "1".toList), ("z".toList, [])])]
          ("S".toList ++ '.' :: "a.b".toList) : Except Exception Str)
        = .error (.invalid_argument ("Variable '".toList ++ "a.b".toList
            ++ "' not found in section '".toList ++ "S".toList
            ++ "'. Did you mean one of: ".toList
            ++ List.intercalate ", ".toList (List.reverse
                (UMap.keys [("x y".toList, "1".toList), ("z".toList, [])])))) ∧
      "Variable '".toList ++ "a.b".toList ++ "' not found in section '".toList ++ "S".toList
          ++ "'. Did you mean one of: ".toList
          ++ List.intercalate ", ".toList (List.reverse
              (UMap.keys [("x y".toList, "1".toList), ("z".toList, [])]))
        = "Variable 'a.b' not found in section 'S'. Did you mean one of: z, x y".toList) :=
  ⟨fun l => List.reverse_perm l, by decide, by decide, by decide,
    (key_not_found_suggestions List.reverse (fun l => List.reverse_perm l)).2
      ["[S]".toList, "a = 1".toList, "b = 2".toList, "[T]".toList, "c = 3".toList,
        "[S]".toList, "a = 4".toList]
      [("S".toList, [("a".toList, "4".toList), ("b".toList, "2".toList)]),
        ("T".toList, [("c".toList, "3".toList)])]
      "S".toList "c".toList [("a".toList, "4".toList), ("b".toList, "2".toList)]
      (by decide) (by decide) (by decide),
    by decide,
    ⟨by decide,
      (key_not_found_suggestions List.reverse (fun l => List.reverse_perm l)).1
        [("S".toList, [("x y".toList, "1".toList), ("z".toList, [])])]
        "S".toList "a.b".toList [("x y".toList, "1".toList), ("z".toList, [])]
        (by decide) (by decide) (by decide),
      by decide⟩⟩

end IniParser
